import Mathlib

/-!
# SSD1309 display driver: framebuffer addressing and rasterisation

A shallow embedding of `src/ssd1309.c` / `src/ssd1309.h`.

* `uint8_t`, `uint32_t` values are natural numbers; every C operation that can
  wrap is written with an explicit reduction modulo `2^8` or `2^32`.
* `int32_t` values are integers; an operation whose C behaviour is undefined
  (signed overflow, an out-of-bounds buffer access, a float-to-integer
  conversion outside the target range) makes the embedded function return
  `none`.
* `float` values are the rationals they denote, every operation followed by
  rounding to IEEE-754 binary32 (round to nearest, ties to even).
-/

namespace SSD1309

/-! ## Machine arithmetic -/

/-- Addition of two `uint32_t`. -/
def add32 (a b : Nat) : Nat := (a + b) % 4294967296

/-- Subtraction of two `uint32_t` (wraps below zero). -/
def sub32 (a b : Nat) : Nat := (a % 4294967296 + (4294967296 - b % 4294967296)) % 4294967296

/-- Multiplication of two `uint32_t`. -/
def mul32 (a b : Nat) : Nat := (a * b) % 4294967296

/-! ## Data model -/

/-- The fields of `ssd1309_t` that the framebuffer code reads and writes
(`ssd1309.h`, lines 55-65).  `buffer` is the byte array `p->buffer[0 .. bufsize)`. -/
structure ssd1309_t where
  width : Nat
  height : Nat
  pages : Nat
  buffer : List Nat
  bufsize : Nat
deriving DecidableEq, Repr

/-- Type and allocation invariants of a display set up by `ssd1309_init`:
the `uint8_t` fields are below 256, `pages = height / 8`,
`bufsize = pages * width`, the buffer has `bufsize` bytes, each below 256. -/
def wellFormed (p : ssd1309_t) : Prop :=
  p.width < 256 ∧ p.height < 256 ∧ p.pages = p.height / 8 ∧
  p.bufsize = p.pages * p.width ∧ p.buffer.length = p.bufsize ∧
  ∀ b ∈ p.buffer, b < 256

instance (p : ssd1309_t) : Decidable (wellFormed p) := by
  unfold wellFormed; infer_instance

/-- The data-model invariant of spec section 3: a well-formed display whose
height is a multiple of 8. -/
def valid (p : ssd1309_t) : Prop := wellFormed p ∧ p.height % 8 = 0

instance (p : ssd1309_t) : Decidable (valid p) := by
  unfold valid; infer_instance

/-! ## Pixel operations (`ssd1309.c`, lines 250-297) -/

/-- `ssd1309_clear_pixel`: `p->buffer[x + (y / 8) * p->width] &= ~(1 << (y & 7))`
after the 180 degree coordinate flip; `~` is taken on a 32-bit `int`. -/
def ssd1309_clear_pixel (p : ssd1309_t) (x y : Nat) : Option ssd1309_t :=
  if x ≥ p.width ∨ y ≥ p.height then some p
  else
    let x := sub32 (sub32 p.width x) 1
    let y := sub32 (sub32 p.height y) 1
    let idx := add32 x (mul32 (y / 8) p.width)
    match p.buffer[idx]? with
    | none => none
    | some b =>
      some { p with buffer := p.buffer.set idx ((b &&& (4294967295 ^^^ (1 <<< (y &&& 7)))) % 256) }

/-- `ssd1309_draw_pixel`: `p->buffer[x + (y / 8) * p->width] |= (1 << (y & 7))`
after the 180 degree coordinate flip. -/
def ssd1309_draw_pixel (p : ssd1309_t) (x y : Nat) : Option ssd1309_t :=
  if x ≥ p.width ∨ y ≥ p.height then some p
  else
    let x := sub32 (sub32 p.width x) 1
    let y := sub32 (sub32 p.height y) 1
    let idx := add32 x (mul32 (y / 8) p.width)
    match p.buffer[idx]? with
    | none => none
    | some b => some { p with buffer := p.buffer.set idx ((b ||| (1 <<< (y &&& 7))) % 256) }

/-- `ssd1309_invert_pixel`: `p->buffer[x + (y / 8) * p->width] ^= (1 << (y & 7))`
after the 180 degree coordinate flip. -/
def ssd1309_invert_pixel (p : ssd1309_t) (x y : Nat) : Option ssd1309_t :=
  if x ≥ p.width ∨ y ≥ p.height then some p
  else
    let x := sub32 (sub32 p.width x) 1
    let y := sub32 (sub32 p.height y) 1
    let idx := add32 x (mul32 (y / 8) p.width)
    match p.buffer[idx]? with
    | none => none
    | some b => some { p with buffer := p.buffer.set idx ((b ^^^ (1 <<< (y &&& 7))) % 256) }

/-- The value of logical pixel `(x, y)` as the buffer layout of spec section 3
defines it: bit `py % 8` of byte `px + (py / 8) * width`, where
`px = width - x - 1` and `py = height - y - 1`; a coordinate outside the
display reads as clear.  The source has no getter; this is the observation the
pixel-level statements below are phrased with. -/
def pixel (p : ssd1309_t) (x y : Nat) : Bool :=
  if x < p.width ∧ y < p.height then
    (p.buffer.getD ((p.width - x - 1) + ((p.height - y - 1) / 8) * p.width) 0).testBit
      ((p.height - y - 1) % 8)
  else false

/-- A 16 x 8 display (one page) with an all-zero framebuffer. -/
def blank16x8 : ssd1309_t :=
  { width := 16, height := 8, pages := 1, buffer := List.replicate 16 0, bufsize := 16 }

/-- A 128 x 64 display with an all-zero framebuffer, as `ssd1309_init` leaves it. -/
def blank128x64 : ssd1309_t :=
  { width := 128, height := 64, pages := 8, buffer := List.replicate 1024 0, bufsize := 1024 }

/-- The buffer index the pixel operations compute for an in-range `(x, y)`. -/
def physIndex (p : ssd1309_t) (x y : Nat) : Nat :=
  (p.width - x - 1) + ((p.height - y - 1) / 8) * p.width

/-- The bit number the pixel operations compute for an in-range `y`. -/
def physBit (p : ssd1309_t) (y : Nat) : Nat := (p.height - y - 1) % 8

/-- The fields other than the buffer are the same in both displays. -/
def sameDims (p q : ssd1309_t) : Prop :=
  q.width = p.width ∧ q.height = p.height ∧ q.pages = p.pages ∧ q.bufsize = p.bufsize

/-- The display after the store `p->buffer[i] = v`. -/
def storeByte (p : ssd1309_t) (i v : Nat) : ssd1309_t := { p with buffer := p.buffer.set i v }

/-! ## Integer conversions and `int32_t` loops -/

/-- Conversion of an `int32_t` (or `int`) value to `uint32_t`. -/
def toU32 (i : Int) : Nat := (i % 4294967296).toNat

/-- Conversion of a `uint32_t` value to `int32_t` (two's complement). -/
def toI32 (n : Nat) : Int :=
  if n % 4294967296 < 2147483648 then ((n % 4294967296 : Nat) : Int)
  else ((n % 4294967296 : Nat) : Int) - 4294967296

/-- The value fits an `int32_t`. -/
def inI32 (i : Int) : Prop := -2147483648 ≤ i ∧ i ≤ 2147483647

instance (i : Int) : Decidable (inI32 i) := by
  unfold inI32; infer_instance

/-- The loop `for (int32_t i = lo; i <= hi; ++i) body(i)`.  When the
iteration `i = INT32_MAX` runs, the following `++i` overflows (undefined in C;
with wrapping arithmetic the condition `i <= hi` never fails), so the loop
yields no result. -/
def forI32 {σ : Type} (lo hi : Int) (body : σ → Int → Option σ) (s : σ) : Option σ :=
  if lo ≤ hi ∧ 2147483647 ≤ hi then none
  else ((List.range (hi + 1 - lo).toNat).map (fun (k : Nat) => lo + (k : Int))).foldlM body s

/-! ## Single-precision arithmetic

The only `float` values `ssd1309_draw_line` computes come from `int32_t`
operands by conversion, one division, one multiplication and one addition.
None of them can overflow, be subnormal or be a NaN, so a binary32 operation is
the exact rational operation followed by `f32round` with an unbounded exponent.
Every operation is rounded on its own (IEEE-754 evaluation in `float`, no
fused multiply-add). -/

/-- Rounding of a rational to the nearest integer, ties to the even one. -/
def roundHalfEven (z : ℚ) : ℤ :=
  if z - ⌊z⌋ < 1 / 2 then ⌊z⌋
  else if 1 / 2 < z - ⌊z⌋ then ⌊z⌋ + 1
  else if ⌊z⌋ % 2 = 0 then ⌊z⌋ else ⌊z⌋ + 1

/-- Rounding of a rational to a binary32 value (24 significant bits, round to
nearest, ties to even). -/
def f32round (q : ℚ) : ℚ :=
  if q = 0 then 0
  else roundHalfEven (q / 2 ^ (Int.log 2 |q| - 23)) * 2 ^ (Int.log 2 |q| - 23)

/-- `(float)i` for an `int32_t` value `i`. -/
def i32toF (i : Int) : ℚ := f32round i

/-- `a / b` on `float`. -/
def f32div (a b : ℚ) : ℚ := f32round (a / b)

/-- `a * b` on `float`. -/
def f32mul (a b : ℚ) : ℚ := f32round (a * b)

/-- `a + b` on `float`. -/
def f32add (a b : ℚ) : ℚ := f32round (a + b)

/-- `(uint32_t)y` for a `float` value `y`: truncation toward zero, defined only
when the truncated value is a `uint32_t`. -/
def f32toU32 (y : ℚ) : Option Nat :=
  if -1 < y ∧ y < 4294967296 then some ⌊y⌋.toNat else none

/-! ## Lines and rectangles (`ssd1309.c`, lines 309-385) -/

/-- The `float` value `m * (float)(i - x1) + (float)y1` of `ssd1309_draw_line`
(line 330), with `m = (float)(y2 - y1) / (float)(x2 - x1)` (line 326). -/
def line_yf (x1 y1 x2 y2 i : Int) : ℚ :=
  f32add (f32mul (f32div (i32toF (y2 - y1)) (i32toF (x2 - x1))) (i32toF (i - x1))) (i32toF y1)

/-- The ordinate `ssd1309_draw_line` passes to `ssd1309_draw_pixel` at
abscissa `i` (line 331): `(uint32_t)y` for the `float` `y` of line 330. -/
def line_y (x1 y1 x2 y2 i : Int) : Option Nat :=
  f32toU32 (line_yf x1 y1 x2 y2 i)

/-- Lines 317-332 of `ssd1309_draw_line`, after the endpoints have been
swapped so that `x1 <= x2`. -/
def draw_line_ordered (p : ssd1309_t) (x1 y1 x2 y2 : Int) : Option ssd1309_t :=
  if x1 = x2 then
    forI32 (if y1 > y2 then y2 else y1) (if y1 > y2 then y1 else y2)
      (fun s i => ssd1309_draw_pixel s (toU32 x1) (toU32 i)) p
  else if ¬ (inI32 (y2 - y1) ∧ inI32 (x2 - x1)) then none
  else
    forI32 x1 x2
      (fun s i =>
        match line_y x1 y1 x2 y2 i with
        | none => none
        | some y => ssd1309_draw_pixel s (toU32 i) y) p

/-- `ssd1309_draw_line`. -/
def ssd1309_draw_line (p : ssd1309_t) (x1 y1 x2 y2 : Int) : Option ssd1309_t :=
  if x1 > x2 then draw_line_ordered p x2 y2 x1 y1 else draw_line_ordered p x1 y1 x2 y2

/-- `ssd1309_draw_square`. -/
def ssd1309_draw_square (p : ssd1309_t) (x y width height : Nat) : Option ssd1309_t :=
  (List.range width).foldlM
    (fun s i => (List.range height).foldlM
      (fun s j => ssd1309_draw_pixel s (add32 x i) (add32 y j)) s) p

/-- `ssd1309_draw_empty_square`: four calls of `ssd1309_draw_line`, whose
`uint32_t` arguments are converted to `int32_t`. -/
def ssd1309_draw_empty_square (p : ssd1309_t) (x y width height : Nat) : Option ssd1309_t :=
  (ssd1309_draw_line p (toI32 x) (toI32 y) (toI32 (add32 x width)) (toI32 y)).bind fun p1 =>
  (ssd1309_draw_line p1 (toI32 x) (toI32 (add32 y height)) (toI32 (add32 x width))
    (toI32 (add32 y height))).bind fun p2 =>
  (ssd1309_draw_line p2 (toI32 x) (toI32 y) (toI32 x) (toI32 (add32 y height))).bind fun p3 =>
  ssd1309_draw_line p3 (toI32 (add32 x width)) (toI32 y) (toI32 (add32 x width))
    (toI32 (add32 y height))

/-- `ssd1309_invert_square`. -/
def ssd1309_invert_square (p : ssd1309_t) (x y width height : Nat) : Option ssd1309_t :=
  (List.range width).foldlM
    (fun s i => (List.range height).foldlM
      (fun s j => ssd1309_invert_pixel s (add32 x i) (add32 y j)) s) p

/-- Display `q` arises from `p` by setting the in-range pixels of `S` and
nothing else: `q` is valid, has the dimensions of `p`, and a pixel is set in `q`
exactly when it was set in `p` or lies in `S` and on the display. -/
def Draws (S : Nat → Nat → Prop) (p q : ssd1309_t) : Prop :=
  valid q ∧ sameDims p q ∧
  ∀ a b, pixel q a b = true ↔ (pixel p a b = true ∨ (S a b ∧ a < p.width ∧ b < p.height))

/-- The coordinates `(x + i, y + j)` that the loops of `ssd1309_invert_square`
(lines 382-384) pass to `ssd1309_invert_pixel`, in call order. -/
def square_calls (x y width height : Nat) : List (Nat × Nat) :=
  (List.range width).flatMap fun i => (List.range height).map fun j => (add32 x i, add32 y j)

/-! ## Glyph rendering (`ssd1309.c`, lines 400-425) -/

/-- Modelled from the spec: the glyph record of a font descriptor (section 3).
The C type `GFXglyph` is declared in `fonts/Adafruit_GFX.h`, which is not among
the sources: `bitmapOffset` is a byte offset into the font's bitmap blob,
`width`, `height` and `xAdvance` are unsigned bytes, `xOffset` and `yOffset`
signed bytes. -/
structure GFXglyph where
  bitmapOffset : Nat
  width : Nat
  height : Nat
  xAdvance : Nat
  xOffset : Int
  yOffset : Int
deriving DecidableEq, Repr

/-- Modelled from the spec: the font descriptor (section 3), C type `GFXfont` of
`fonts/Adafruit_GFX.h`: the shared bitmap blob, the glyph table indexed by
`character - first`, the character range `[first, last]` and the line advance. -/
structure GFXfont where
  bitmap : List Nat
  glyph : List GFXglyph
  first : Nat
  last : Nat
  yAdvance : Nat
deriving DecidableEq, Repr

/-- The body of the inner loop of `ssd1309_draw_char_with_font` (lines 410-420)
for glyph `g` at bitmap position `(xpos, ypos)`. -/
def draw_char_bit (p : ssd1309_t) (x y scale : Nat) (g : GFXglyph) (bitmap : List Nat)
    (xpos ypos : Nat) : Option ssd1309_t :=
  match bitmap[g.bitmapOffset + (ypos * g.width + xpos) / 8]? with
  | none => none
  | some byte =>
    if byte &&& (1 <<< (7 - (ypos * g.width + xpos) % 8)) ≠ 0 then
      if scale = 1 then
        ssd1309_draw_pixel p (add32 (add32 x xpos) (toU32 g.xOffset))
          (add32 (add32 y ypos) (toU32 g.yOffset))
      else
        ssd1309_draw_square p (add32 x (mul32 (toU32 ((xpos : Int) + g.xOffset)) scale))
          (add32 y (mul32 (toU32 ((ypos : Int) + g.yOffset)) scale)) scale scale
    else some p

/-- `ssd1309_draw_char_with_font`: the display after the call and the returned
advance.  `c` is the value of the `char` argument as C promotes it to `int`. -/
def ssd1309_draw_char_with_font (p : ssd1309_t) (x y scale : Nat) (font : GFXfont) (c : Int) :
    Option (ssd1309_t × Nat) :=
  if c < (font.first : Int) ∨ c > (font.last : Int) then some (p, 0)
  else if c % 256 - (font.first : Int) < 0 then none
  else
    match font.glyph[(c % 256 - (font.first : Int)).toNat]? with
    | none => none
    | some g =>
      ((List.range g.width).foldlM
        (fun s xpos => (List.range g.height).foldlM
          (fun s ypos => draw_char_bit s x y scale g font.bitmap xpos ypos) s) p).map
        fun q => (q, g.xAdvance)

/-- A font with the two glyphs `'A'` (3 x 2 pixels, bits `101 010`) and `'B'`. -/
def tinyFont : GFXfont :=
  { bitmap := [168, 255],
    glyph := [{ bitmapOffset := 0, width := 3, height := 2, xAdvance := 4, xOffset := 0,
                yOffset := 0 },
              { bitmapOffset := 1, width := 2, height := 2, xAdvance := 3, xOffset := 1,
                yOffset := 1 }],
    first := 65, last := 66, yAdvance := 8 }

/-- The formula `trunc(m*(x-x1) + y1)`, `m = (y2-y1)/(x2-x1)`, read in exact
(rational) arithmetic; for the non-negative values it is used on, truncation is
the floor. -/
def line_y_exact (x1 y1 x2 y2 i : Int) : Int :=
  ⌊((y2 : ℚ) - y1) / ((x2 : ℚ) - x1) * ((i : ℚ) - x1) + y1⌋

/-! ## Strings (`ssd1309.c`, lines 438-445 and 477-487) -/

/-- The loop of `ssd1309_draw_string_with_font` from cursor `x_n` on:
`x_n += ssd1309_draw_char_with_font(p, x_n, y, scale, font, *s) * scale`, where
the product is a `uint32_t` and `x_n` a `uint8_t`.  The string is the list of
its characters before the terminating NUL. -/
def draw_string_loop (p : ssd1309_t) (x_n y scale : Nat) (font : GFXfont) :
    List Int → Option ssd1309_t
  | [] => some p
  | c :: s =>
    match ssd1309_draw_char_with_font p x_n y scale font c with
    | none => none
    | some (q, adv) => draw_string_loop q ((x_n + mul32 adv scale) % 256) y scale font s

/-- `ssd1309_draw_string_with_font`: the cursor starts as `uint8_t x_n = x`. -/
def ssd1309_draw_string_with_font (p : ssd1309_t) (x y scale : Nat) (font : GFXfont)
    (s : List Int) : Option ssd1309_t :=
  draw_string_loop p (x % 256) y scale font s

/-- The description of string drawing to compare the loop with: the characters
are drawn left to right by `ssd1309_draw_char_with_font` at row `y`, the next
one at x-cursor `(x + scale * sum) mod 256`, where `sum` is the sum of the values
returned for the characters drawn so far. -/
def draw_chars_at (p : ssd1309_t) (x y scale : Nat) (font : GFXfont) (sum : Nat) :
    List Int → Option ssd1309_t
  | [] => some p
  | c :: s =>
    match ssd1309_draw_char_with_font p ((x + scale * sum) % 256) y scale font c with
    | none => none
    | some (q, adv) => draw_chars_at q x y scale font (sum + adv) s

/-- The C type `vector2_t` (`ssd1309.h`, lines 74-78): two `uint8_t`. -/
structure vector2_t where
  width : Nat
  height : Nat
deriving DecidableEq, Repr

/-- The loop of `ssd1309_get_string_size_with_font` from the value `size` on:
the glyph is read at the raw character code `(uint8_t)*s`. -/
def string_size_loop (font : GFXfont) (size : vector2_t) : List Int → Option vector2_t
  | [] => some size
  | c :: s =>
    match font.glyph[(c % 256).toNat]? with
    | none => none
    | some glyph =>
      string_size_loop font
        { width := (size.width + glyph.xAdvance) % 256, height := font.yAdvance % 256 } s

/-- `ssd1309_get_string_size_with_font`, starting from `size = {0, 0}`. -/
def ssd1309_get_string_size_with_font (font : GFXfont) (s : List Int) : Option vector2_t :=
  string_size_loop font { width := 0, height := 0 } s

/-- A font descriptor whose data fit its C types and its bitmap blob: the
glyph table covers `[first, last]`, every glyph's metrics are bytes, and the
blob holds the `width * height` bits of every glyph from its `bitmapOffset`. -/
def fontOK (font : GFXfont) : Prop :=
  font.first ≤ font.last ∧ font.last - font.first < font.glyph.length ∧
  font.yAdvance < 256 ∧
  ∀ g ∈ font.glyph, g.width < 256 ∧ g.height < 256 ∧ g.xAdvance < 256 ∧
    g.bitmapOffset + (g.width * g.height + 7) / 8 ≤ font.bitmap.length

instance (font : GFXfont) : Decidable (fontOK font) := by
  unfold fontOK; infer_instance

/-- Bit number `row * g.width + col` of the bitmap of glyph `g`: bits are
counted from byte `g.bitmapOffset` of the font's blob, most significant bit of
each byte first. -/
def glyph_bit (font : GFXfont) (g : GFXglyph) (col row : Nat) : Bool :=
  (font.bitmap.getD (g.bitmapOffset + (row * g.width + col) / 8) 0).testBit
    (7 - (row * g.width + col) % 8)

/-- The pixels `(a, b)` that one set bit at glyph position `(col, row)` stands
for when the character is drawn at `(x, y)`: the single pixel
`(x + col + xOffset, y + row + yOffset)` when `scale = 1`, otherwise the
`scale x scale` block with top-left corner
`(x + (col + xOffset) * scale, y + (row + yOffset) * scale)`; all coordinates
are `uint32_t` values, that is, taken modulo `2^32`. -/
def glyph_pixels (x y scale : Nat) (g : GFXglyph) (col row a b : Nat) : Prop :=
  if scale = 1 then
    (a : Int) = ((x : Int) + (col : Int) + g.xOffset) % 4294967296 ∧
    (b : Int) = ((y : Int) + (row : Int) + g.yOffset) % 4294967296
  else
    ∃ i j : Nat, i < scale ∧ j < scale ∧
      (a : Int) = ((x : Int) + ((col : Int) + g.xOffset) * (scale : Int) + (i : Int)) %
        4294967296 ∧
      (b : Int) = ((y : Int) + ((row : Int) + g.yOffset) * (scale : Int) + (j : Int)) %
        4294967296

/-! ## Bitmap image decoder (`ssd1309.c`, lines 548-612) -/

/-- `_ssd1309_bmp_get_val`: the little-endian value of `size` bytes at `offset`,
as a `uint32_t`; a byte outside the buffer makes the read undefined. -/
def _ssd1309_bmp_get_val (data : List Nat) (offset size : Nat) : Option Nat :=
  if size = 1 then data[offset]?
  else if size = 2 then
    match data[offset]?, data[offset + 1]? with
    | some b0, some b1 => some ((b0 ||| (b1 <<< 8)) % 4294967296)
    | _, _ => none
  else if size = 4 then
    match data[offset]?, data[offset + 1]?, data[offset + 2]?, data[offset + 3]? with
    | some b0, some b1, some b2, some b3 =>
      some ((b0 ||| (b1 <<< 8) ||| (b2 <<< 16) ||| (b3 <<< 24)) % 4294967296)
    | _, _, _, _ => none
  else some 0

/-- The test of line 588 on the colour-table entry at `index`:
`!((data[index] << 16) | (data[index + 1] << 8) | data[index + 2])`. -/
def bmp_entry_is_black (data : List Nat) (index : Int) : Option Bool :=
  if index < 0 then none
  else
    match data[index.toNat]?, data[index.toNat + 1]?, data[index.toNat + 2]? with
    | some c0, some c1, some c2 => some (decide (((c0 <<< 16) ||| (c1 <<< 8) ||| c2) = 0))
    | _, _, _ => none

/-- The loop of lines 584-593: `color_val` is the index of the first of the two
colour-table entries that is black, 0 when none is. -/
def bmp_color_val (data : List Nat) (table_start : Int) : Option Nat :=
  match bmp_entry_is_black data table_start with
  | none => none
  | some true => some 0
  | some false =>
    match bmp_entry_is_black data (table_start + 4) with
    | none => none
    | some true => some 1
    | some false => some 0

/-- Lines 595-597: `bytes_per_line` for the `int32_t` width `bi_width`. -/
def bmp_bytes_per_line (bi_width : Int) : Nat :=
  if toU32 (Int.tdiv bi_width 8 + (if toU32 bi_width &&& 7 ≠ 0 then 1 else 0)) &&& 3 ≠ 0 then
    add32
      (toU32 (Int.tdiv bi_width 8 + (if toU32 bi_width &&& 7 ≠ 0 then 1 else 0)) ^^^
        (toU32 (Int.tdiv bi_width 8 + (if toU32 bi_width &&& 7 ≠ 0 then 1 else 0)) &&& 3)) 4
  else toU32 (Int.tdiv bi_width 8 + (if toU32 bi_width &&& 7 ≠ 0 then 1 else 0))

/-- The inner loop of lines 605-609 for one row: `img_data` points at byte
`base` of the buffer, `count` is `bi_width` converted to `uint32_t`. -/
def bmp_draw_row (p : ssd1309_t) (data : List Nat) (base count color_val x_offset y_offset
    y : Nat) : Option ssd1309_t :=
  (List.range count).foldlM
    (fun s x =>
      match data[base + (x >>> 3)]? with
      | none => none
      | some byte =>
        if (byte >>> (7 - (x &&& 7))) &&& 1 = color_val then
          ssd1309_draw_pixel s (add32 x_offset x) (add32 y_offset y)
        else some s) p

/-- The number of runs of the row loop of lines 601-611,
`for (y = y0; y != border; y += step)` with `uint32_t y`: `y0 = bi_height - 1`,
`border = step = -1` for a positive height, and `y0 = 0`, `border = bi_height`,
`step = 1` otherwise; `border` is converted to `uint32_t` for the comparison.
As `step` is plus or minus one, the loop runs `(border - y0) * step mod 2^32`
times. -/
def bmp_row_count (bi_height : Int) : Nat :=
  if bi_height > 0 then sub32 (toU32 (bi_height - 1)) (toU32 (-1))
  else sub32 (toU32 bi_height) 0

/-- The value of `y` in run `k` of the row loop: `y0 + k * step mod 2^32`. -/
def bmp_row_y (bi_height : Int) (k : Nat) : Nat :=
  add32 (if bi_height > 0 then toU32 (bi_height - 1) else 0)
    (mul32 k (toU32 (if bi_height > 0 then -1 else 1)))

/-- The row loop of lines 601-611: in run `k`, `img_data` is
`data + bf_off_bits + k * bytes_per_line`. -/
def bmp_draw_rows (p : ssd1309_t) (data : List Nat) (bf_off_bits : Nat) (bi_width bi_height : Int)
    (bytes_per_line color_val x_offset y_offset : Nat) : Option ssd1309_t :=
  (List.range (bmp_row_count bi_height)).foldlM
    (fun s k =>
      bmp_draw_row s data (bf_off_bits + k * bytes_per_line) (toU32 bi_width) color_val
        x_offset y_offset (bmp_row_y bi_height k)) p

/-- `ssd1309_bmp_show_image_with_offset`. -/
def ssd1309_bmp_show_image_with_offset (p : ssd1309_t) (data : List Nat) (size : Int)
    (x_offset y_offset : Nat) : Option ssd1309_t :=
  if size < 54 then some p
  else
    match _ssd1309_bmp_get_val data 10 4, _ssd1309_bmp_get_val data 14 4,
      _ssd1309_bmp_get_val data 18 4, _ssd1309_bmp_get_val data 22 4,
      _ssd1309_bmp_get_val data 28 2, _ssd1309_bmp_get_val data 30 4 with
    | some bf_off_bits, some bi_size, some bi_width, some bi_height, some bi_bit_count,
        some bi_compression =>
      if bi_bit_count % 65536 ≠ 1 then some p
      else if bi_compression ≠ 0 then some p
      else
        match bmp_color_val data (toI32 (add32 14 bi_size)) with
        | none => none
        | some color_val =>
          bmp_draw_rows p data bf_off_bits (toI32 bi_width) (toI32 bi_height)
            (bmp_bytes_per_line (toI32 bi_width)) color_val x_offset y_offset
    | _, _, _, _, _, _ => none

/-- The 16-bit little-endian value at byte `off` of a buffer. -/
def le16 (data : List Nat) (off : Nat) : Nat :=
  data.getD off 0 + 256 * data.getD (off + 1) 0

/-- The 32-bit little-endian value at byte `off` of a buffer. -/
def le32 (data : List Nat) (off : Nat) : Nat :=
  data.getD off 0 + 256 * data.getD (off + 1) 0 + 65536 * data.getD (off + 2) 0 +
    16777216 * data.getD (off + 3) 0

/-- Bit `x` of stored row `r` of a 1-bit image whose rows of `bytes_per_row`
bytes start at byte `pixel_offset`: bit `7 - x mod 8` of byte
`pixel_offset + r * bytes_per_row + x div 8`, as 0 or 1. -/
def bmp_bit (data : List Nat) (pixel_offset bytes_per_row r x : Nat) : Nat :=
  ((data.getD (pixel_offset + r * bytes_per_row + x / 8) 0).testBit (7 - x % 8)).toNat

/-- A hand-built 2 x 2 image, 1 bit per pixel, uncompressed, bottom-up
(height 2): 14-byte file header, 40-byte info header, colour table
`{black, white}`, pixel data at offset 62 in two rows of 4 bytes.  The first
stored row has the bits `0 1`, the second `1 0`. -/
def bmp2x2 : List Nat :=
  [66, 77, 70, 0, 0, 0, 0, 0, 0, 0, 62, 0, 0, 0,
   40, 0, 0, 0, 2, 0, 0, 0, 2, 0, 0, 0, 1, 0, 1, 0, 0, 0, 0, 0, 8, 0, 0, 0,
   0, 0, 0, 0, 0, 0, 0, 0, 2, 0, 0, 0, 0, 0, 0, 0,
   0, 0, 0, 0, 255, 255, 255, 0,
   64, 0, 0, 0, 128, 0, 0, 0]

/-- The image `bmp2x2` with its bit-depth field (byte 28) changed to 8. -/
def bmp2x2_depth8 : List Nat := bmp2x2.set 28 8

/-- The image `bmp2x2` stored top-down: its height field (bytes 22-25) holds -2. -/
def bmp2x2_topdown : List Nat :=
  (((bmp2x2.set 22 254).set 23 255).set 24 255).set 25 255

/-! ## Device session (`ssd1309.c`, lines 12-240 and 619-630)

The transport callbacks are external; a session function is embedded with the
list of callback calls it makes, in order.  The values the callbacks return are
not read by the source. -/

/-- The C enumeration `ssd1309_pin_t` (`ssd1309.h`, lines 41-46). -/
inductive ssd1309_pin_t where
  | SSD1309_PIN_DC
  | SSD1309_PIN_CS
  | SSD1309_PIN_RST
deriving DecidableEq, Repr

/-- One call of a transport callback: `pin_cb(pin, state)`, `spi_cb(data, len)`
with the `len` bytes it is handed, or `delay(us)`. -/
inductive transport_call where
  | pin_cb (pin : ssd1309_pin_t) (state : Bool)
  | spi_cb (data : List Nat)
  | delay (us : Nat)
deriving DecidableEq, Repr

/-- Conversion of an `int` value to `uint8_t`. -/
def toU8 (i : Int) : Nat := (i % 256).toNat

/-! The command constants of lines 12-56 that the session functions use. -/

def SSD1309_default_memoryAddressingMode : Nat := 0x00
def SSD1309_default_contrastControl : Nat := 0xFF
def SSD1309_default_multiplexRatio : Nat := 0x3F
def SSD1309_default_displayOffset : Nat := 0x00
def SSD1309_default_displayClockDivideRatio : Nat := 0x80
def SSD1309_default_preChargePeriod : Nat := 0x22
def SSD1309_default_COMpinsHWconfig : Nat := 0x12
def SSD1309_default_VCOMHdeselectLevel : Nat := 0x40
def SSD1309_setContrastControl : Nat := 0x81
def SSD1309_followRAMcontent : Nat := 0xA4
def SSD1309_inversionOff : Nat := 0xA6
def SSD1309_pwrOff : Nat := 0xAE
def SSD1309_pwrOn : Nat := 0xAF
def SSD1309_setLowCSAinPAM : Nat := 0x00
def SSD1309_setHighCSAinPAM : Nat := 0x10
def SSD1309_setMemoryAddressingMode : Nat := 0x20
def SSD1309_setColumnAddress : Nat := 0x21
def SSD1309_setPageAddress : Nat := 0x22
def SSD1309_setMultiplexRatio : Nat := 0xA8
def SSD1309_setDisplayOffset : Nat := 0xD3
def SSD1309_setCOMpinsHWconfig : Nat := 0xDA
def SSD1309_setDisplayClockDivideRatio : Nat := 0xD5
def SSD1309_setPreChargePeriod : Nat := 0xD9
def SSD1309_setVCOMHdeselectLevel : Nat := 0xDB

/-- `_ssd1309_write_command` for the `uint8_t` value `val`. -/
def _ssd1309_write_command (val : Nat) : List transport_call :=
  [transport_call.pin_cb ssd1309_pin_t.SSD1309_PIN_DC false,
   transport_call.pin_cb ssd1309_pin_t.SSD1309_PIN_CS false,
   transport_call.spi_cb [val],
   transport_call.pin_cb ssd1309_pin_t.SSD1309_PIN_CS true]

/-- `_ssd1309_write_data`: the transport is handed the first `size` bytes of
`data`, which must exist. -/
def _ssd1309_write_data (data : List Nat) (size : Nat) : Option (List transport_call) :=
  if size ≤ data.length then
    some [transport_call.pin_cb ssd1309_pin_t.SSD1309_PIN_DC true,
          transport_call.pin_cb ssd1309_pin_t.SSD1309_PIN_CS false,
          transport_call.spi_cb (data.take size),
          transport_call.pin_cb ssd1309_pin_t.SSD1309_PIN_CS true]
  else none

/-- `ssd1309_reset`. -/
def ssd1309_reset : List transport_call :=
  [transport_call.pin_cb ssd1309_pin_t.SSD1309_PIN_RST false, transport_call.delay 5,
   transport_call.pin_cb ssd1309_pin_t.SSD1309_PIN_RST true, transport_call.delay 10000]

/-- `ssd1309_power`. -/
def ssd1309_power (power_on : Bool) : List transport_call :=
  if power_on then _ssd1309_write_command SSD1309_pwrOn
  else _ssd1309_write_command SSD1309_pwrOff

/-- `ssd1309_clear`: `memset(p->buffer, 0, p->bufsize)`. -/
def ssd1309_clear (p : ssd1309_t) : Option ssd1309_t :=
  if p.bufsize ≤ p.buffer.length then
    some { p with buffer := List.replicate p.bufsize 0 ++ p.buffer.drop p.bufsize }
  else none

/-- `ssd1309_show`: the display (which it does not modify) and the transport
calls.  The arguments `p->width - 1` and `p->pages - 1` are `int` values
converted to `uint8_t`. -/
def ssd1309_show (p : ssd1309_t) : Option (ssd1309_t × List transport_call) :=
  match _ssd1309_write_data p.buffer p.bufsize with
  | none => none
  | some data_write =>
    some (p,
      _ssd1309_write_command SSD1309_setColumnAddress ++
      _ssd1309_write_command 0 ++
      _ssd1309_write_command (toU8 ((p.width : Int) - 1)) ++
      _ssd1309_write_command SSD1309_setPageAddress ++
      _ssd1309_write_command 0 ++
      _ssd1309_write_command (toU8 ((p.pages : Int) - 1)) ++
      data_write)

/-- The array `cmds` of `ssd1309_init` (lines 118-148). -/
def init_cmds : List Nat :=
  [SSD1309_setLowCSAinPAM, SSD1309_setHighCSAinPAM, SSD1309_setMemoryAddressingMode,
   SSD1309_default_memoryAddressingMode, SSD1309_setContrastControl,
   SSD1309_default_contrastControl, SSD1309_inversionOff, SSD1309_setMultiplexRatio,
   SSD1309_default_multiplexRatio, SSD1309_setDisplayOffset, SSD1309_default_displayOffset,
   SSD1309_setDisplayClockDivideRatio, SSD1309_default_displayClockDivideRatio,
   SSD1309_setPreChargePeriod, SSD1309_default_preChargePeriod, SSD1309_setCOMpinsHWconfig,
   SSD1309_default_COMpinsHWconfig, SSD1309_setVCOMHdeselectLevel,
   SSD1309_default_VCOMHdeselectLevel, SSD1309_followRAMcontent]

/-- `ssd1309_init` for the `uint16_t` arguments `width` and `height`: the
returned `bool`, the display and the transport calls.  `heap` is the outcome
of `malloc(p->bufsize + 1)`: `none` for `NULL`, otherwise the (indeterminate)
bytes at `p->buffer[0 .. bufsize)` after `++(p->buffer)`. -/
def ssd1309_init (width height : Nat) (heap : Option (List Nat)) :
    Option (Bool × ssd1309_t × List transport_call) :=
  match heap with
  | none =>
    some (false,
      { width := width % 256, height := height % 256, pages := (height / 8) % 256,
        buffer := [], bufsize := 0 }, [])
  | some mem =>
    match ssd1309_clear
        { width := width % 256, height := height % 256, pages := (height / 8) % 256,
          buffer := mem, bufsize := (height / 8) % 256 * (width % 256) } with
    | none => none
    | some cleared =>
      match ssd1309_show cleared with
      | none => none
      | some (shown, show_calls) =>
        some (true, shown,
          ssd1309_reset ++ ssd1309_power false ++ init_cmds.flatMap _ssd1309_write_command ++
            ssd1309_power true ++ show_calls)

/-- The transport calls of one command write of byte `v`: data/command low,
chip-select low, the one-byte write, chip-select high. -/
def command_frame (v : Nat) : List transport_call :=
  [transport_call.pin_cb ssd1309_pin_t.SSD1309_PIN_DC false,
   transport_call.pin_cb ssd1309_pin_t.SSD1309_PIN_CS false,
   transport_call.spi_cb [v],
   transport_call.pin_cb ssd1309_pin_t.SSD1309_PIN_CS true]

/-- The transport calls of one data write of `payload`: data/command high,
chip-select low, the write, chip-select high. -/
def data_frame (payload : List Nat) : List transport_call :=
  [transport_call.pin_cb ssd1309_pin_t.SSD1309_PIN_DC true,
   transport_call.pin_cb ssd1309_pin_t.SSD1309_PIN_CS false,
   transport_call.spi_cb payload,
   transport_call.pin_cb ssd1309_pin_t.SSD1309_PIN_CS true]

/-- The payloads of the serial writes (`spi_cb` calls) in a list of transport
calls, in order. -/
def spi_writes : List transport_call → List (List Nat)
  | [] => []
  | transport_call.spi_cb data :: rest => data :: spi_writes rest
  | _ :: rest => spi_writes rest

/-! ## Colour table of a 1-bit image (spec section 4.6) -/

/-- The colour-table entry that starts at byte `i` of the buffer is black: its
first three bytes are all zero. -/
def bmp_entry_black (data : List Nat) (i : Nat) : Bool :=
  data.getD i 0 == 0 && data.getD (i + 1) 0 == 0 && data.getD (i + 2) 0 == 0

/-- The ink value as the spec words it: the index of the first of the two
4-byte colour-table entries from byte `table_start` that is black, index 0 being
looked at before index 1, and 0 when neither entry is black. -/
def bmp_first_black (data : List Nat) (table_start : Nat) : Nat :=
  if bmp_entry_black data table_start then 0
  else if bmp_entry_black data (table_start + 4) then 1
  else 0

/-- The image `bmp2x2` with the colour table `{white, black}`. -/
def bmp2x2_white_first : List Nat :=
  [66, 77, 70, 0, 0, 0, 0, 0, 0, 0, 62, 0, 0, 0,
   40, 0, 0, 0, 2, 0, 0, 0, 2, 0, 0, 0, 1, 0, 1, 0, 0, 0, 0, 0, 8, 0, 0, 0,
   0, 0, 0, 0, 0, 0, 0, 0, 2, 0, 0, 0, 0, 0, 0, 0,
   255, 255, 255, 0, 0, 0, 0, 0,
   64, 0, 0, 0, 128, 0, 0, 0]

/-- The image `bmp2x2` with the colour table `{red, white}`, which has no black
entry. -/
def bmp2x2_no_black : List Nat :=
  [66, 77, 70, 0, 0, 0, 0, 0, 0, 0, 62, 0, 0, 0,
   40, 0, 0, 0, 2, 0, 0, 0, 2, 0, 0, 0, 1, 0, 1, 0, 0, 0, 0, 0, 8, 0, 0, 0,
   0, 0, 0, 0, 0, 0, 0, 0, 2, 0, 0, 0, 0, 0, 0, 0,
   0, 0, 255, 0, 255, 255, 255, 0,
   64, 0, 0, 0, 128, 0, 0, 0]

/-! ## Text cursor (`ssd1309.c`, lines 519-546) -/

/-- The `enum cursor_type` of `ssd1309.h`, lines 67-72. -/
inductive cursor_type where
  | CURSOR_NONE
  | CURSOR_UNDERSCORE
  | CURSOR_BLOCK
deriving DecidableEq, Repr

/-- `_ssd1309_get_char_position_size`: the values it leaves in `*x`, `*y`,
`*width`, `*height`, in this order; the products are `uint32_t` products. -/
def _ssd1309_get_char_position_size (x y scale : Nat) : Nat × Nat × Nat × Nat :=
  (mul32 (mul32 6 scale) x, mul32 (mul32 8 scale) y, mul32 6 scale, mul32 8 scale)

/-- `ssd1309_cursor`.  The arguments of `ssd1309_draw_line` are `uint32_t`
expressions converted to `int32_t`; an enumerator outside the three listed ones
takes the `default` branch, which does nothing, as `CURSOR_NONE` does. -/
def ssd1309_cursor (disp : ssd1309_t) (x y scale : Nat) (type : cursor_type) :
    Option ssd1309_t :=
  match _ssd1309_get_char_position_size x y scale with
  | (x, y, width, height) =>
    match type with
    | cursor_type.CURSOR_NONE => some disp
    | cursor_type.CURSOR_UNDERSCORE =>
      ssd1309_draw_line disp (toI32 x) (toI32 (sub32 (add32 y height) 1))
        (toI32 (sub32 (add32 x width) 2)) (toI32 (sub32 (add32 y height) 1))
    | cursor_type.CURSOR_BLOCK =>
      ssd1309_invert_square disp (sub32 x 1) (sub32 y 1) (add32 width 1) (add32 height 1)

end SSD1309

namespace SSD1309

/-! ## Lemmas and theorems -/

theorem and7 (y : Nat) : y &&& 7 = y % 8 := Nat.and_pow_two_sub_one_eq_mod y 3

theorem testBit_ge8 {b j : Nat} (hb : b < 256) (hj : 8 ≤ j) : b.testBit j = false := by
  apply Nat.testBit_lt_two_pow
  calc b < 2 ^ 8 := by simpa using hb
    _ ≤ 2 ^ j := Nat.pow_le_pow_right (by norm_num) hj

/-- Bits of the byte stored by `|=`. -/
theorem or_bit {b k : Nat} (hb : b < 256) (hk : k < 8) (j : Nat) :
    ((b ||| (1 <<< k)) % 256).testBit j = if j = k then true else b.testBit j := by
  have h256 : (256 : Nat) = 2 ^ 8 := by norm_num
  rw [h256, Nat.testBit_mod_two_pow, Nat.testBit_or, Nat.one_shiftLeft, Nat.testBit_two_pow]
  by_cases hjk : j = k
  · subst hjk; simp [hk]
  · have hkj : ¬ k = j := fun h => hjk h.symm
    by_cases hj : j < 8
    · simp [hjk, hkj, hj]
    · simp [hjk, hkj, hj, testBit_ge8 hb (Nat.le_of_not_lt hj)]

/-- Bits of the byte stored by `&= ~`. -/
theorem andnot_bit {b k : Nat} (hb : b < 256) (hk : k < 8) (j : Nat) :
    ((b &&& (4294967295 ^^^ (1 <<< k))) % 256).testBit j =
      if j = k then false else b.testBit j := by
  have h256 : (256 : Nat) = 2 ^ 8 := by norm_num
  have hff : (4294967295 : Nat) = 2 ^ 32 - 1 := by norm_num
  rw [h256, Nat.testBit_mod_two_pow, Nat.testBit_and, Nat.testBit_xor, hff,
    Nat.testBit_two_pow_sub_one, Nat.one_shiftLeft, Nat.testBit_two_pow]
  by_cases hjk : j = k
  · subst hjk
    have : j < 32 := by omega
    simp [hk, this]
  · have hkj : ¬ k = j := fun h => hjk h.symm
    by_cases hj : j < 8
    · have : j < 32 := by omega
      simp [hjk, hkj, hj, this]
    · simp [hjk, hkj, hj, testBit_ge8 hb (Nat.le_of_not_lt hj)]

/-- Bits of the byte stored by `^=`. -/
theorem xor_bit {b k : Nat} (hb : b < 256) (hk : k < 8) (j : Nat) :
    ((b ^^^ (1 <<< k)) % 256).testBit j = if j = k then !b.testBit j else b.testBit j := by
  have h256 : (256 : Nat) = 2 ^ 8 := by norm_num
  rw [h256, Nat.testBit_mod_two_pow, Nat.testBit_xor, Nat.one_shiftLeft, Nat.testBit_two_pow]
  by_cases hjk : j = k
  · subst hjk; simp [hk]
  · have hkj : ¬ k = j := fun h => hjk h.symm
    by_cases hj : j < 8
    · simp [hjk, hkj, hj]
    · simp [hjk, hkj, hj, testBit_ge8 hb (Nat.le_of_not_lt hj)]

theorem physIndex_lt {p : ssd1309_t} (hv : valid p) {x y : Nat} (hx : x < p.width)
    (hy : y < p.height) : physIndex p x y < p.buffer.length := by
  obtain ⟨⟨_, _, hp, hb, hl, _⟩, h8⟩ := hv
  unfold physIndex
  rw [hl, hb, hp]
  have h1 : (p.height - y - 1) / 8 + 1 ≤ p.height / 8 := by omega
  have h2 : ((p.height - y - 1) / 8 + 1) * p.width ≤ p.height / 8 * p.width :=
    Nat.mul_le_mul_right _ h1
  have h3 : ((p.height - y - 1) / 8 + 1) * p.width
      = (p.height - y - 1) / 8 * p.width + p.width := by ring
  omega

theorem divmod_unique {w xa xb qa qb : Nat} (ha : xa < w) (hb : xb < w)
    (h : xa + qa * w = xb + qb * w) : xa = xb ∧ qa = qb := by
  have hw : 0 < w := by omega
  have hm := congrArg (fun n => n % w) h
  have hd := congrArg (fun n => n / w) h
  simp only [Nat.add_mul_mod_self_right, Nat.add_mul_div_right _ _ hw,
    Nat.mod_eq_of_lt ha, Nat.mod_eq_of_lt hb, Nat.div_eq_of_lt ha, Nat.div_eq_of_lt hb,
    Nat.zero_add] at hm hd
  exact ⟨hm, hd⟩

theorem physIndex_inj {p : ssd1309_t} {a b x y : Nat} (ha : a < p.width) (hb : b < p.height)
    (hx : x < p.width) (hy : y < p.height)
    (hi : physIndex p a b = physIndex p x y) (hk : physBit p b = physBit p y) :
    a = x ∧ b = y := by
  unfold physIndex at hi
  unfold physBit at hk
  obtain ⟨h1, h2⟩ := divmod_unique (by omega) (by omega) hi
  constructor <;> omega

theorem pixel_eq {p : ssd1309_t} {a b : Nat} (ha : a < p.width) (hb : b < p.height) :
    pixel p a b = (p.buffer.getD (physIndex p a b) 0).testBit (physBit p b) := by
  simp [pixel, ha, hb, physIndex, physBit]

theorem pixel_out {p : ssd1309_t} {a b : Nat} (h : ¬ (a < p.width ∧ b < p.height)) :
    pixel p a b = false := by
  simp only [pixel, if_neg h]

/-- Reading a pixel after one byte of the buffer has been replaced. -/
theorem pixel_set {p : ssd1309_t} {i : Nat} (hi : i < p.buffer.length) (v a b : Nat) :
    pixel (storeByte p i v) a b =
      if a < p.width ∧ b < p.height ∧ physIndex p a b = i then v.testBit (physBit p b)
      else pixel p a b := by
  by_cases hr : a < p.width ∧ b < p.height
  · obtain ⟨ha, hb⟩ := hr
    rw [pixel_eq (p := storeByte p i v) ha hb, pixel_eq ha hb]
    simp only [storeByte, physIndex, physBit, ha, hb, true_and, List.getD_eq_getElem?_getD,
      List.getElem?_set]
    by_cases he : p.width - a - 1 + (p.height - b - 1) / 8 * p.width = i
    · subst he
      simp [hi]
    · have he2 : ¬ i = p.width - a - 1 + (p.height - b - 1) / 8 * p.width := fun h => he h.symm
      simp [he, he2]
  · rw [pixel_out (p := storeByte p i v) hr, pixel_out hr]
    have : ¬ (a < p.width ∧ b < p.height ∧ physIndex p a b = i) := fun h => hr ⟨h.1, h.2.1⟩
    simp only [if_neg this]

theorem valid_set {p : ssd1309_t} (hv : valid p) (i : Nat) {v : Nat} (hv256 : v < 256) :
    valid (storeByte p i v) := by
  obtain ⟨⟨h1, h2, h3, h4, h5, h6⟩, h8⟩ := hv
  refine ⟨⟨h1, h2, h3, h4, ?_, ?_⟩, h8⟩
  · simpa [storeByte] using h5
  · intro b hb
    simp only [storeByte] at hb
    rcases List.mem_or_eq_of_mem_set hb with h | h
    · exact h6 b h
    · exact h ▸ hv256

theorem byte_lt {p : ssd1309_t} (hv : valid p) (i : Nat) : p.buffer.getD i 0 < 256 := by
  rw [List.getD_eq_getElem?_getD]
  by_cases hi : i < p.buffer.length
  · rw [List.getElem?_eq_getElem hi]
    exact hv.1.2.2.2.2.2 _ (List.getElem_mem _)
  · rw [List.getElem?_eq_none (by omega)]
    simp

/-- The flipped coordinates and the byte index, free of wrap-around, for an
in-range pixel of a well-formed display. -/
theorem index_arith {p : ssd1309_t} (hv : valid p) {x y : Nat} (hx : x < p.width)
    (hy : y < p.height) :
    sub32 (sub32 p.width x) 1 = p.width - x - 1 ∧
    sub32 (sub32 p.height y) 1 = p.height - y - 1 ∧
    add32 (p.width - x - 1) (mul32 ((p.height - y - 1) / 8) p.width) = physIndex p x y := by
  obtain ⟨⟨h1, h2, h3, h4, h5, h6⟩, h8⟩ := hv
  have hm : (p.height - y - 1) / 8 * p.width < 32 * 256 := by
    have : (p.height - y - 1) / 8 < 32 := by omega
    exact Nat.mul_lt_mul'' this h1
  unfold sub32 add32 mul32 physIndex
  refine ⟨by omega, by omega, ?_⟩
  rw [Nat.mod_eq_of_lt (a := (p.height - y - 1) / 8 * p.width) (by omega)]
  omega

/-- Replacing the byte of an in-range pixel `(x, y)` by a byte that differs from
it at most in bit `physBit p y` changes that pixel only. -/
theorem modify_spec {p : ssd1309_t} (hv : valid p) {x y : Nat} (hx : x < p.width)
    (hy : y < p.height) (g : Bool → Bool) (v : Nat) (hv256 : v < 256)
    (hbits : ∀ j, v.testBit j =
      if j = physBit p y then g ((p.buffer.getD (physIndex p x y) 0).testBit j)
      else (p.buffer.getD (physIndex p x y) 0).testBit j) :
    valid (storeByte p (physIndex p x y) v) ∧
    ∀ a b, pixel (storeByte p (physIndex p x y) v) a b =
      if a = x ∧ b = y then g (pixel p a b) else pixel p a b := by
  refine ⟨valid_set hv _ hv256, ?_⟩
  intro a b
  rw [pixel_set (physIndex_lt hv hx hy)]
  by_cases hr : a < p.width ∧ b < p.height
  · obtain ⟨ha, hb⟩ := hr
    by_cases hi : physIndex p a b = physIndex p x y
    · rw [if_pos ⟨ha, hb, hi⟩, hbits, pixel_eq ha hb, hi]
      by_cases hk : physBit p b = physBit p y
      · obtain ⟨rfl, rfl⟩ := physIndex_inj ha hb hx hy hi hk
        simp
      · have hne : ¬ (a = x ∧ b = y) := fun h => hk (by rw [h.2])
        rw [if_neg hk, if_neg hne]
    · have hne : ¬ (a = x ∧ b = y) := fun h => hi (by rw [h.1, h.2])
      have hne2 : ¬ (a < p.width ∧ b < p.height ∧ physIndex p a b = physIndex p x y) :=
        fun h => hi h.2.2
      rw [if_neg hne, if_neg hne2]
  · have hne : ¬ (a = x ∧ b = y) := fun h => hr ⟨h.1 ▸ hx, h.2 ▸ hy⟩
    have hne2 : ¬ (a < p.width ∧ b < p.height ∧ physIndex p a b = physIndex p x y) :=
      fun h => hr ⟨h.1, h.2.1⟩
    rw [if_neg hne, if_neg hne2]

theorem physBit_lt (p : ssd1309_t) (y : Nat) : physBit p y < 8 := by
  unfold physBit; omega

theorem buffer_get {p : ssd1309_t} (hv : valid p) {x y : Nat} (hx : x < p.width)
    (hy : y < p.height) :
    p.buffer[physIndex p x y]? = some (p.buffer.getD (physIndex p x y) 0) := by
  rw [List.getD_eq_getElem?_getD, List.getElem?_eq_getElem (physIndex_lt hv hx hy)]
  rfl

/-- Closed form of `ssd1309_draw_pixel` on an in-range pixel. -/
theorem draw_pixel_in {p : ssd1309_t} (hv : valid p) {x y : Nat} (hx : x < p.width)
    (hy : y < p.height) :
    ssd1309_draw_pixel p x y = some (storeByte p (physIndex p x y)
      ((p.buffer.getD (physIndex p x y) 0 ||| (1 <<< physBit p y)) % 256)) := by
  obtain ⟨h1, h2, h3⟩ := index_arith hv hx hy
  have hn : ¬ (x ≥ p.width ∨ y ≥ p.height) := by omega
  simp only [ssd1309_draw_pixel, if_neg hn, h1, h2, h3, and7, buffer_get hv hx hy]
  rfl

/-- Closed form of `ssd1309_clear_pixel` on an in-range pixel. -/
theorem clear_pixel_in {p : ssd1309_t} (hv : valid p) {x y : Nat} (hx : x < p.width)
    (hy : y < p.height) :
    ssd1309_clear_pixel p x y = some (storeByte p (physIndex p x y)
      ((p.buffer.getD (physIndex p x y) 0 &&& (4294967295 ^^^ (1 <<< physBit p y))) % 256)) := by
  obtain ⟨h1, h2, h3⟩ := index_arith hv hx hy
  have hn : ¬ (x ≥ p.width ∨ y ≥ p.height) := by omega
  simp only [ssd1309_clear_pixel, if_neg hn, h1, h2, h3, and7, buffer_get hv hx hy]
  rfl

/-- Closed form of `ssd1309_invert_pixel` on an in-range pixel. -/
theorem invert_pixel_in {p : ssd1309_t} (hv : valid p) {x y : Nat} (hx : x < p.width)
    (hy : y < p.height) :
    ssd1309_invert_pixel p x y = some (storeByte p (physIndex p x y)
      ((p.buffer.getD (physIndex p x y) 0 ^^^ (1 <<< physBit p y)) % 256)) := by
  obtain ⟨h1, h2, h3⟩ := index_arith hv hx hy
  have hn : ¬ (x ≥ p.width ∨ y ≥ p.height) := by omega
  simp only [ssd1309_invert_pixel, if_neg hn, h1, h2, h3, and7, buffer_get hv hx hy]
  rfl

theorem draw_pixel_out {p : ssd1309_t} {x y : Nat} (h : x ≥ p.width ∨ y ≥ p.height) :
    ssd1309_draw_pixel p x y = some p := by
  simp only [ssd1309_draw_pixel, if_pos h]

theorem clear_pixel_out {p : ssd1309_t} {x y : Nat} (h : x ≥ p.width ∨ y ≥ p.height) :
    ssd1309_clear_pixel p x y = some p := by
  simp only [ssd1309_clear_pixel, if_pos h]

theorem invert_pixel_out {p : ssd1309_t} {x y : Nat} (h : x ≥ p.width ∨ y ≥ p.height) :
    ssd1309_invert_pixel p x y = some p := by
  simp only [ssd1309_invert_pixel, if_pos h]

/-- Pixel-level effect of `ssd1309_draw_pixel` on a valid display, for any
coordinates: it returns, keeps the display valid and its dimensions, and sets
pixel `(x, y)` when that pixel is in range. -/
theorem draw_pixel_spec {p : ssd1309_t} (hv : valid p) (x y : Nat) :
    ∃ q, ssd1309_draw_pixel p x y = some q ∧ valid q ∧ sameDims p q ∧
      ∀ a b, pixel q a b =
        (pixel p a b || decide (a = x ∧ b = y ∧ x < p.width ∧ y < p.height)) := by
  by_cases hr : x < p.width ∧ y < p.height
  · obtain ⟨hx, hy⟩ := hr
    have hb := byte_lt hv (physIndex p x y)
    obtain ⟨h1, h2⟩ := modify_spec hv hx hy (fun _ => true) _ (Nat.mod_lt _ (by norm_num))
      (or_bit hb (physBit_lt p y))
    refine ⟨_, draw_pixel_in hv hx hy, h1, ⟨rfl, rfl, rfl, rfl⟩, ?_⟩
    intro a b
    rw [h2]
    by_cases he : a = x ∧ b = y
    · simp [he, hx, hy]
    · have : ¬ (a = x ∧ b = y ∧ x < p.width ∧ y < p.height) := fun h => he ⟨h.1, h.2.1⟩
      simp [he, this]
  · refine ⟨p, draw_pixel_out (by omega), hv, ⟨rfl, rfl, rfl, rfl⟩, ?_⟩
    intro a b
    have : ¬ (a = x ∧ b = y ∧ x < p.width ∧ y < p.height) := fun h => hr h.2.2
    simp [this]

/-- Pixel-level effect of `ssd1309_clear_pixel` on a valid display. -/
theorem clear_pixel_spec {p : ssd1309_t} (hv : valid p) (x y : Nat) :
    ∃ q, ssd1309_clear_pixel p x y = some q ∧ valid q ∧ sameDims p q ∧
      ∀ a b, pixel q a b =
        (pixel p a b && !decide (a = x ∧ b = y ∧ x < p.width ∧ y < p.height)) := by
  by_cases hr : x < p.width ∧ y < p.height
  · obtain ⟨hx, hy⟩ := hr
    have hb := byte_lt hv (physIndex p x y)
    obtain ⟨h1, h2⟩ := modify_spec hv hx hy (fun _ => false) _ (Nat.mod_lt _ (by norm_num))
      (andnot_bit hb (physBit_lt p y))
    refine ⟨_, clear_pixel_in hv hx hy, h1, ⟨rfl, rfl, rfl, rfl⟩, ?_⟩
    intro a b
    rw [h2]
    by_cases he : a = x ∧ b = y
    · simp [he, hx, hy]
    · have : ¬ (a = x ∧ b = y ∧ x < p.width ∧ y < p.height) := fun h => he ⟨h.1, h.2.1⟩
      simp [he, this]
  · refine ⟨p, clear_pixel_out (by omega), hv, ⟨rfl, rfl, rfl, rfl⟩, ?_⟩
    intro a b
    have : ¬ (a = x ∧ b = y ∧ x < p.width ∧ y < p.height) := fun h => hr h.2.2
    simp [this]

/-- Pixel-level effect of `ssd1309_invert_pixel` on a valid display. -/
theorem invert_pixel_spec {p : ssd1309_t} (hv : valid p) (x y : Nat) :
    ∃ q, ssd1309_invert_pixel p x y = some q ∧ valid q ∧ sameDims p q ∧
      ∀ a b, pixel q a b =
        xor (pixel p a b) (decide (a = x ∧ b = y ∧ x < p.width ∧ y < p.height)) := by
  by_cases hr : x < p.width ∧ y < p.height
  · obtain ⟨hx, hy⟩ := hr
    have hb := byte_lt hv (physIndex p x y)
    obtain ⟨h1, h2⟩ := modify_spec hv hx hy (fun c => !c) _ (Nat.mod_lt _ (by norm_num))
      (xor_bit hb (physBit_lt p y))
    refine ⟨_, invert_pixel_in hv hx hy, h1, ⟨rfl, rfl, rfl, rfl⟩, ?_⟩
    intro a b
    rw [h2]
    by_cases he : a = x ∧ b = y
    · simp [he, hx, hy]
    · have : ¬ (a = x ∧ b = y ∧ x < p.width ∧ y < p.height) := fun h => he ⟨h.1, h.2.1⟩
      simp [he, this]
  · refine ⟨p, invert_pixel_out (by omega), hv, ⟨rfl, rfl, rfl, rfl⟩, ?_⟩
    intro a b
    have : ¬ (a = x ∧ b = y ∧ x < p.width ∧ y < p.height) := fun h => hr h.2.2
    simp [this]

theorem draws_refl {p : ssd1309_t} (hv : valid p) : Draws (fun _ _ => False) p p :=
  ⟨hv, ⟨rfl, rfl, rfl, rfl⟩, fun a b => by simp⟩

theorem draws_trans {S T : Nat → Nat → Prop} {p q r : ssd1309_t} (h1 : Draws S p q)
    (h2 : Draws T q r) : Draws (fun a b => S a b ∨ T a b) p r := by
  obtain ⟨_, hd1, hp1⟩ := h1
  obtain ⟨hv2, hd2, hp2⟩ := h2
  refine ⟨hv2, ⟨hd2.1.trans hd1.1, hd2.2.1.trans hd1.2.1, hd2.2.2.1.trans hd1.2.2.1,
    hd2.2.2.2.trans hd1.2.2.2⟩, ?_⟩
  intro a b
  rw [hp2, hp1, hd1.1, hd1.2.1]
  tauto

theorem draws_congr {S T : Nat → Nat → Prop} {p q : ssd1309_t} (h : Draws S p q)
    (hST : ∀ a b, a < p.width → b < p.height → (S a b ↔ T a b)) : Draws T p q := by
  obtain ⟨hv, hd, hp⟩ := h
  refine ⟨hv, hd, ?_⟩
  intro a b
  rw [hp]
  constructor
  · rintro (h | ⟨h1, h2, h3⟩)
    · exact Or.inl h
    · exact Or.inr ⟨(hST a b h2 h3).1 h1, h2, h3⟩
  · rintro (h | ⟨h1, h2, h3⟩)
    · exact Or.inl h
    · exact Or.inr ⟨(hST a b h2 h3).2 h1, h2, h3⟩

theorem draw_pixel_draws {p : ssd1309_t} (hv : valid p) (x y : Nat) :
    ∃ q, ssd1309_draw_pixel p x y = some q ∧ Draws (fun a b => a = x ∧ b = y) p q := by
  obtain ⟨q, hq, hvq, hd, hp⟩ := draw_pixel_spec hv x y
  refine ⟨q, hq, hvq, hd, ?_⟩
  intro a b
  rw [hp]
  simp only [Bool.or_eq_true, decide_eq_true_eq]
  constructor
  · rintro (h | ⟨h1, h2, h3, h4⟩)
    · exact Or.inl h
    · exact Or.inr ⟨⟨h1, h2⟩, h1 ▸ h3, h2 ▸ h4⟩
  · rintro (h | ⟨⟨h1, h2⟩, h3, h4⟩)
    · exact Or.inl h
    · exact Or.inr ⟨h1, h2, h1 ▸ h3, h2 ▸ h4⟩

/-- A loop whose every iteration draws a pixel set draws the union of the sets. -/
theorem foldlM_draws {α : Type} (body : ssd1309_t → α → Option ssd1309_t)
    (S : α → Nat → Nat → Prop) (L : List α)
    (hbody : ∀ s, valid s → ∀ e ∈ L, ∃ t, body s e = some t ∧ Draws (S e) s t)
    {p : ssd1309_t} (hv : valid p) :
    ∃ q, L.foldlM body p = some q ∧ Draws (fun a b => ∃ e ∈ L, S e a b) p q := by
  induction L generalizing p with
  | nil =>
    refine ⟨p, rfl, draws_congr (draws_refl hv) ?_⟩
    intro a b _ _
    simp
  | cons e L ih =>
    obtain ⟨t, ht, hdt⟩ := hbody p hv e (List.mem_cons_self e L)
    obtain ⟨q, hq, hdq⟩ := ih (fun s hs e2 he2 => hbody s hs e2 (List.mem_cons_of_mem e he2))
      hdt.1
    refine ⟨q, ?_, draws_congr (draws_trans hdt hdq) ?_⟩
    · rw [List.foldlM_cons, ht]
      exact hq
    · intro a b _ _
      simp

theorem mem_int_range {lo hi i : Int} :
    i ∈ (List.range (hi + 1 - lo).toNat).map (fun (k : Nat) => lo + (k : Int)) ↔ lo ≤ i ∧ i ≤ hi := by
  simp only [List.mem_map, List.mem_range]
  constructor
  · rintro ⟨k, hk, rfl⟩
    omega
  · rintro ⟨h1, h2⟩
    refine ⟨(i - lo).toNat, ?_, ?_⟩ <;> omega

/-- The `int32_t` loop, when its upper bound is below `INT32_MAX`, draws the
union of what its iterations draw. -/
theorem forI32_draws (lo hi : Int) (hhi : hi < 2147483647)
    (body : ssd1309_t → Int → Option ssd1309_t) (S : Int → Nat → Nat → Prop)
    (hbody : ∀ s, valid s → ∀ i, lo ≤ i → i ≤ hi → ∃ t, body s i = some t ∧ Draws (S i) s t)
    {p : ssd1309_t} (hv : valid p) :
    ∃ q, forI32 lo hi body p = some q ∧
      Draws (fun a b => ∃ i, lo ≤ i ∧ i ≤ hi ∧ S i a b) p q := by
  have hn : ¬ (lo ≤ hi ∧ 2147483647 ≤ hi) := by omega
  obtain ⟨q, hq, hd⟩ := foldlM_draws body S
    ((List.range (hi + 1 - lo).toNat).map (fun (k : Nat) => lo + (k : Int)))
    (fun s hs e he => hbody s hs e (mem_int_range.1 he).1 (mem_int_range.1 he).2) hv
  refine ⟨q, ?_, draws_congr hd ?_⟩
  · simp only [forI32, if_neg hn]
    exact hq
  · intro a b _ _
    constructor
    · rintro ⟨e, he, hs⟩
      exact ⟨e, (mem_int_range.1 he).1, (mem_int_range.1 he).2, hs⟩
    · rintro ⟨e, h1, h2, hs⟩
      exact ⟨e, mem_int_range.2 ⟨h1, h2⟩, hs⟩

theorem roundHalfEven_int (m : ℤ) : roundHalfEven (m : ℚ) = m := by
  simp [roundHalfEven]

theorem roundHalfEven_err (z : ℚ) : |(roundHalfEven z : ℚ) - z| ≤ 1 / 2 := by
  have h0 : (⌊z⌋ : ℚ) ≤ z := Int.floor_le z
  have h1 : z < ⌊z⌋ + 1 := Int.lt_floor_add_one z
  unfold roundHalfEven
  rw [abs_le]
  split_ifs with c1 c2 c3
  · constructor <;> linarith
  · constructor <;> push_cast <;> linarith
  · constructor <;> linarith
  · constructor <;> push_cast <;> linarith

theorem f32round_zero : f32round 0 = 0 := by
  simp [f32round]

theorem two_zpow_log_le {q : ℚ} (hq : q ≠ 0) : (2 : ℚ) ^ Int.log 2 |q| ≤ |q| := by
  have h := Int.zpow_log_le_self (b := 2) (r := |q|) (by norm_num) (abs_pos.2 hq)
  simpa using h

/-- Relative error of one binary32 rounding: at most `2^-24`. -/
theorem f32round_err (q : ℚ) : |f32round q - q| ≤ |q| / 16777216 := by
  by_cases hq : q = 0
  · subst hq
    simp [f32round_zero]
  · have hle := two_zpow_log_le hq
    have hu : (0 : ℚ) < 2 ^ (Int.log 2 |q| - 23) := zpow_pos (by norm_num) _
    have hsplit : (2 : ℚ) ^ (Int.log 2 |q| - 23) = 2 ^ Int.log 2 |q| / 8388608 := by
      rw [zpow_sub₀ (by norm_num : (2 : ℚ) ≠ 0)]
      norm_num
    have herr := roundHalfEven_err (q / 2 ^ (Int.log 2 |q| - 23))
    have hrw : f32round q - q =
        ((roundHalfEven (q / 2 ^ (Int.log 2 |q| - 23)) : ℚ) - q / 2 ^ (Int.log 2 |q| - 23)) *
          2 ^ (Int.log 2 |q| - 23) := by
      simp only [f32round, if_neg hq]
      field_simp
    rw [hrw, abs_mul, abs_of_pos hu]
    calc |((roundHalfEven (q / 2 ^ (Int.log 2 |q| - 23)) : ℚ) - q / 2 ^ (Int.log 2 |q| - 23))| *
          2 ^ (Int.log 2 |q| - 23)
        ≤ 1 / 2 * 2 ^ (Int.log 2 |q| - 23) := mul_le_mul_of_nonneg_right herr hu.le
      _ = 2 ^ Int.log 2 |q| / 16777216 := by rw [hsplit]; ring
      _ ≤ |q| / 16777216 := by
        apply div_le_div_of_nonneg_right hle (by norm_num)

/-- A rational with at most 24 significant bits is a binary32 value. -/
theorem f32round_exact (k j : ℤ) (hk : |k| < 16777216) :
    f32round ((k : ℚ) * 2 ^ j) = (k : ℚ) * 2 ^ j := by
  by_cases hk0 : k = 0
  · subst hk0
    simp [f32round_zero]
  · have h2j : (0 : ℚ) < 2 ^ j := zpow_pos (by norm_num) _
    have hq : (k : ℚ) * 2 ^ j ≠ 0 := mul_ne_zero (by exact_mod_cast hk0) h2j.ne'
    have habs : |(k : ℚ) * 2 ^ j| = |(k : ℚ)| * 2 ^ j := by
      rw [abs_mul, abs_of_pos h2j]
    have hlt : |(k : ℚ) * 2 ^ j| < ((2 : ℕ) : ℚ) ^ (24 + j) := by
      rw [habs, zpow_add₀ (by norm_num)]
      apply mul_lt_mul_of_pos_right _ h2j
      have : |(k : ℚ)| < 16777216 := by exact_mod_cast hk
      norm_num
      exact this
    have he : Int.log 2 |(k : ℚ) * 2 ^ j| < 24 + j :=
      (Int.lt_zpow_iff_log_lt (by norm_num) (abs_pos.2 hq)).1 hlt
    obtain ⟨n, hn⟩ : ∃ n : ℕ, (n : ℤ) = j - Int.log 2 |(k : ℚ) * 2 ^ j| + 23 :=
      ⟨(j - Int.log 2 |(k : ℚ) * 2 ^ j| + 23).toNat, by omega⟩
    have hj : j = (n : ℤ) + (Int.log 2 |(k : ℚ) * 2 ^ j| - 23) := by omega
    have hdiv : (k : ℚ) * 2 ^ j / 2 ^ (Int.log 2 |(k : ℚ) * 2 ^ j| - 23) =
        ((k * 2 ^ n : ℤ) : ℚ) := by
      have hu : (2 : ℚ) ^ (Int.log 2 |(k : ℚ) * 2 ^ j| - 23) ≠ 0 :=
        (zpow_pos (by norm_num) _).ne'
      rw [div_eq_iff hu]
      nth_rewrite 1 [hj]
      rw [zpow_add₀ (by norm_num : (2 : ℚ) ≠ 0)]
      push_cast
      rw [zpow_natCast]
      ring
    simp only [f32round, if_neg hq]
    rw [hdiv, roundHalfEven_int, ← hdiv]
    have hu : (2 : ℚ) ^ (Int.log 2 |(k : ℚ) * 2 ^ j| - 23) ≠ 0 :=
      (zpow_pos (by norm_num) _).ne'
    field_simp

/-- An integer below `2^24` in absolute value converts to `float` exactly. -/
theorem i32toF_exact (n : ℤ) (hn : |n| < 16777216) : i32toF n = n := by
  have h := f32round_exact n 0 hn
  simpa [i32toF] using h

theorem f32round_nonneg {q : ℚ} (hq : 0 ≤ q) : 0 ≤ f32round q := by
  have h := f32round_err q
  rw [abs_of_nonneg hq, abs_le] at h
  linarith [h.1]

theorem toU32_nonneg {i : Int} (h0 : 0 ≤ i) (h1 : i < 4294967296) : toU32 i = i.toNat := by
  unfold toU32
  rw [Int.emod_eq_of_lt h0 h1]

/-- The vertical branch of `ssd1309_draw_line` (lines 317-324) for non-negative
coordinates below `INT32_MAX`. -/
theorem draw_line_ordered_vertical {p : ssd1309_t} (hv : valid p) (x y1 y2 : Int)
    (hx : 0 ≤ x) (hx2 : x ≤ 2147483647) (h1 : 0 ≤ y1) (h2 : 0 ≤ y2)
    (h3 : y1 < 2147483647) (h4 : y2 < 2147483647) :
    ∃ q, draw_line_ordered p x y1 x y2 = some q ∧
      Draws (fun a b => (a : Int) = x ∧ min y1 y2 ≤ (b : Int) ∧ (b : Int) ≤ max y1 y2) p q := by
  have hlo : (if y1 > y2 then y2 else y1) = min y1 y2 := by
    split_ifs <;> omega
  have hhi : (if y1 > y2 then y1 else y2) = max y1 y2 := by
    split_ifs <;> omega
  obtain ⟨q, hq, hd⟩ := forI32_draws (min y1 y2) (max y1 y2) (by omega)
    (fun s i => ssd1309_draw_pixel s (toU32 x) (toU32 i))
    (fun i a b => a = toU32 x ∧ b = toU32 i)
    (fun s hs i _ _ => draw_pixel_draws hs (toU32 x) (toU32 i)) hv
  refine ⟨q, ?_, draws_congr hd ?_⟩
  · simp only [draw_line_ordered, if_true, hlo, hhi]
    exact hq
  · intro a b _ _
    rw [toU32_nonneg hx (by omega)]
    constructor
    · rintro ⟨i, hi1, hi2, ha, hb⟩
      rw [toU32_nonneg (by omega) (by omega)] at hb
      omega
    · rintro ⟨ha, hb1, hb2⟩
      refine ⟨(b : Int), hb1, hb2, by omega, ?_⟩
      rw [toU32_nonneg (by omega) (by omega)]
      omega

/-- The sloped branch of `ssd1309_draw_line` (lines 326-332), given that the
subtractions fit `int32_t` and every float-to-integer conversion is defined. -/
theorem draw_line_ordered_sloped {p : ssd1309_t} (hv : valid p) (x1 y1 x2 y2 : Int)
    (hx1 : 0 ≤ x1) (hlt : x1 < x2) (hx2 : x2 < 2147483647)
    (hsub : inI32 (y2 - y1) ∧ inI32 (x2 - x1))
    (hdef : ∀ i, x1 ≤ i → i ≤ x2 → ∃ b, line_y x1 y1 x2 y2 i = some b) :
    ∃ q, draw_line_ordered p x1 y1 x2 y2 = some q ∧
      Draws (fun a b => x1 ≤ (a : Int) ∧ (a : Int) ≤ x2 ∧
        line_y x1 y1 x2 y2 (a : Int) = some b) p q := by
  have hne : ¬ x1 = x2 := by omega
  obtain ⟨q, hq, hd⟩ := forI32_draws x1 x2 hx2
    (fun s i =>
        match line_y x1 y1 x2 y2 i with
        | none => none
        | some y => ssd1309_draw_pixel s (toU32 i) y)
    (fun i a b => (a : Int) = i ∧ line_y x1 y1 x2 y2 i = some b)
    (by
      intro s hs i hi1 hi2
      obtain ⟨y, hy⟩ := hdef i hi1 hi2
      obtain ⟨t, ht, hdt⟩ := draw_pixel_draws hs (toU32 i) y
      refine ⟨t, ?_, draws_congr hdt ?_⟩
      · simp only [hy]
        exact ht
      · intro a b _ _
        rw [toU32_nonneg (by omega) (by omega)]
        show a = i.toNat ∧ b = y ↔ (a : Int) = i ∧ line_y x1 y1 x2 y2 i = some b
        rw [hy]
        constructor
        · rintro ⟨ha, hb⟩
          exact ⟨by omega, by rw [hb]⟩
        · rintro ⟨ha, hb⟩
          exact ⟨by omega, (Option.some.inj hb).symm⟩) hv
  refine ⟨q, ?_, draws_congr hd ?_⟩
  · simp only [draw_line_ordered, if_neg hne, hsub, and_self, not_true_eq_false, if_false]
    exact hq
  · intro a b _ _
    constructor
    · rintro ⟨i, hi1, hi2, ha, hb⟩
      subst ha
      exact ⟨hi1, hi2, hb⟩
    · rintro ⟨h1, h2, h3⟩
      exact ⟨(a : Int), h1, h2, rfl, h3⟩

/-- On a horizontal line the slope is `0` and the computed ordinate is the
twice-rounded `y`, whatever the abscissa. -/
theorem line_y_horizontal (x1 y x2 i : Int) :
    line_y x1 y x2 y i = f32toU32 (f32round (f32round y)) := by
  simp [line_y, line_yf, f32add, f32mul, f32div, i32toF, f32round_zero]

theorem f32round_le (q : ℚ) (hq : 0 ≤ q) : f32round q ≤ q + q / 16777216 := by
  have h := f32round_err q
  rw [abs_of_nonneg hq, abs_le] at h
  linarith [h.2]

theorem f32round_ge (q : ℚ) (hq : 0 ≤ q) : q - q / 16777216 ≤ f32round q := by
  have h := f32round_err q
  rw [abs_of_nonneg hq, abs_le] at h
  linarith [h.1]

/-- The ordinate of a horizontal line at height `y`: it is `y` itself when
`y < 2^24`, and in any case at least 255 when `y >= 256`. -/
theorem line_y_horizontal_value (x1 x2 i : Int) {y : Int} (h0 : 0 ≤ y)
    (h1 : y ≤ 2147483647) :
    ∃ b : Nat, line_y x1 y x2 y i = some b ∧ (y < 256 → (b : Int) = y) ∧
      (256 ≤ y → 255 ≤ b) := by
  rw [line_y_horizontal]
  by_cases hs : y < 16777216
  · have he : f32round (y : ℚ) = y := by
      have := i32toF_exact y (by rw [abs_of_nonneg h0]; exact hs)
      simpa [i32toF] using this
    rw [he, he]
    have hy0 : (0 : ℚ) ≤ y := by exact_mod_cast h0
    have hy1 : (y : ℚ) < 4294967296 := by
      have : y < 4294967296 := by omega
      exact_mod_cast this
    refine ⟨y.toNat, ?_, ?_, ?_⟩
    · simp only [f32toU32]
      rw [if_pos ⟨by linarith, hy1⟩, Int.floor_intCast]
    · intro _
      omega
    · intro _
      omega
  · have hyq : (16777216 : ℚ) ≤ y := by
      have : (16777216 : Int) ≤ y := by omega
      exact_mod_cast this
    have hyq2 : (y : ℚ) ≤ 2147483647 := by exact_mod_cast h1
    have hr0 : (0 : ℚ) ≤ f32round y := f32round_nonneg (by linarith)
    have a1 := f32round_le (y : ℚ) (by linarith)
    have a2 := f32round_ge (y : ℚ) (by linarith)
    have b1 := f32round_le (f32round (y : ℚ)) hr0
    have b2 := f32round_ge (f32round (y : ℚ)) hr0
    have hlo : (255 : ℚ) ≤ f32round (f32round (y : ℚ)) := by linarith
    have hhi : f32round (f32round (y : ℚ)) < 4294967296 := by linarith
    refine ⟨⌊f32round (f32round (y : ℚ))⌋.toNat, ?_, ?_, ?_⟩
    · simp only [f32toU32]
      rw [if_pos ⟨by linarith, hhi⟩]
    · intro hc
      omega
    · intro _
      have hfl : (255 : Int) ≤ ⌊f32round (f32round (y : ℚ))⌋ := by
        rw [Int.le_floor]
        exact_mod_cast hlo
      omega

/-- A horizontal call `ssd1309_draw_line(x1, y, x2, y)` with
`0 <= x1 <= x2 < INT32_MAX` and `0 <= y < INT32_MAX` draws the in-range pixels
of row `y` between `x1` and `x2`. -/
theorem draw_line_horizontal {p : ssd1309_t} (hv : valid p) (x1 x2 y : Int) (hx1 : 0 ≤ x1)
    (hle : x1 ≤ x2) (hx2 : x2 < 2147483647) (hy0 : 0 ≤ y) (hy1 : y < 2147483647) :
    ∃ q, ssd1309_draw_line p x1 y x2 y = some q ∧
      Draws (fun a b => x1 ≤ (a : Int) ∧ (a : Int) ≤ x2 ∧ (b : Int) = y) p q := by
  have hgt : ¬ x1 > x2 := by omega
  simp only [ssd1309_draw_line, if_neg hgt]
  have hwf := hv.1
  by_cases he : x1 = x2
  · subst he
    obtain ⟨q, hq, hd⟩ := draw_line_ordered_vertical hv x1 y y hx1 (by omega) hy0 hy0 hy1 hy1
    refine ⟨q, hq, draws_congr hd ?_⟩
    intro a b _ _
    rw [min_self, max_self]
    constructor
    · rintro ⟨h1, h2, h3⟩
      exact ⟨by omega, by omega, by omega⟩
    · rintro ⟨h1, h2, h3⟩
      exact ⟨by omega, by omega, by omega⟩
  · obtain ⟨q, hq, hd⟩ := draw_line_ordered_sloped hv x1 y x2 y hx1 (by omega) hx2
      ⟨by unfold inI32; omega, by unfold inI32; omega⟩
      (fun i _ _ => by
        obtain ⟨b, hb, _⟩ := line_y_horizontal_value x1 x2 i hy0 (by omega)
        exact ⟨b, hb⟩)
    refine ⟨q, hq, draws_congr hd ?_⟩
    intro a b _ hb
    obtain ⟨b2, hb2, hs1, hs2⟩ := line_y_horizontal_value x1 x2 (a : Int) hy0 (by omega)
    rw [hb2]
    have hh : p.height < 256 := hwf.2.1
    constructor
    · rintro ⟨h1, h2, h3⟩
      have h4 : b2 = b := Option.some.inj h3
      refine ⟨h1, h2, ?_⟩
      by_cases hy : y < 256
      · have := hs1 hy
        omega
      · have := hs2 (by omega)
        omega
    · rintro ⟨h1, h2, h3⟩
      refine ⟨h1, h2, ?_⟩
      have := hs1 (by omega)
      congr 1
      omega

theorem add32_small {a b : Nat} (h : a + b < 4294967296) : add32 a b = a + b :=
  Nat.mod_eq_of_lt h

theorem toI32_small {n : Nat} (h : n < 2147483648) : toI32 n = (n : Int) := by
  unfold toI32
  have h1 : n % 4294967296 = n := Nat.mod_eq_of_lt (by omega)
  rw [h1, if_pos h]

theorem foldlM_id {α σ : Type} (L : List α) (s : σ) :
    L.foldlM (fun (t : σ) (_ : α) => (some t : Option σ)) s = some s := by
  induction L with
  | nil => rfl
  | cons e L ih => rw [List.foldlM_cons]; exact ih

/-- A vertical call `ssd1309_draw_line(x, y1, x, y2)` with non-negative
coordinates and ordinates below `INT32_MAX`. -/
theorem draw_line_vertical_draws {p : ssd1309_t} (hv : valid p) (x y1 y2 : Int)
    (hx : 0 ≤ x) (hx2 : x ≤ 2147483647) (h1 : 0 ≤ y1) (h2 : 0 ≤ y2)
    (h3 : y1 < 2147483647) (h4 : y2 < 2147483647) :
    ∃ q, ssd1309_draw_line p x y1 x y2 = some q ∧
      Draws (fun a b => (a : Int) = x ∧ min y1 y2 ≤ (b : Int) ∧ (b : Int) ≤ max y1 y2) p q := by
  obtain ⟨q, hq, hd⟩ := draw_line_ordered_vertical hv x y1 y2 hx hx2 h1 h2 h3 h4
  refine ⟨q, ?_, hd⟩
  simp only [ssd1309_draw_line, gt_iff_lt, lt_self_iff_false, if_false]
  exact hq

/-- `ssd1309_draw_square` draws the half-open rectangle. -/
theorem draw_square_draws {p : ssd1309_t} (hv : valid p) {x y w h : Nat}
    (hx : x + w < 4294967296) (hy : y + h < 4294967296) :
    ∃ q, ssd1309_draw_square p x y w h = some q ∧
      Draws (fun a b => x ≤ a ∧ a < x + w ∧ y ≤ b ∧ b < y + h) p q := by
  obtain ⟨q, hq, hd⟩ := foldlM_draws
    (fun s i => (List.range h).foldlM
      (fun s j => ssd1309_draw_pixel s (add32 x i) (add32 y j)) s)
    (fun i a b => ∃ j ∈ List.range h, a = add32 x i ∧ b = add32 y j) (List.range w)
    (fun s hs i _ => foldlM_draws (fun s j => ssd1309_draw_pixel s (add32 x i) (add32 y j))
      (fun j a b => a = add32 x i ∧ b = add32 y j) (List.range h)
      (fun t ht j _ => draw_pixel_draws ht (add32 x i) (add32 y j)) hs) hv
  refine ⟨q, hq, draws_congr hd ?_⟩
  intro a b _ _
  constructor
  · rintro ⟨i, hi, j, hj, ha, hb⟩
    rw [List.mem_range] at hi hj
    rw [add32_small (by omega)] at ha hb
    omega
  · rintro ⟨h1, h2, h3, h4⟩
    refine ⟨a - x, List.mem_range.2 (by omega), b - y, List.mem_range.2 (by omega), ?_, ?_⟩
    · rw [add32_small (by omega)]; omega
    · rw [add32_small (by omega)]; omega

/-- `ssd1309_draw_empty_square` draws the border of the closed rectangle
`[x, x+w] x [y, y+h]`, for far edges below `INT32_MAX`. -/
theorem draw_empty_square_draws {p : ssd1309_t} (hv : valid p) {x y w h : Nat}
    (hx : x + w < 2147483647) (hy : y + h < 2147483647) :
    ∃ q, ssd1309_draw_empty_square p x y w h = some q ∧
      Draws (fun a b => ((x ≤ a ∧ a ≤ x + w) ∧ (b = y ∨ b = y + h)) ∨
        ((a = x ∨ a = x + w) ∧ y ≤ b ∧ b ≤ y + h)) p q := by
  have ex : toI32 x = (x : Int) := toI32_small (by omega)
  have ey : toI32 y = (y : Int) := toI32_small (by omega)
  have exw : toI32 (add32 x w) = ((x + w : Nat) : Int) := by
    rw [add32_small (by omega), toI32_small (by omega)]
  have eyh : toI32 (add32 y h) = ((y + h : Nat) : Int) := by
    rw [add32_small (by omega), toI32_small (by omega)]
  obtain ⟨p1, hp1, hd1⟩ := draw_line_horizontal hv (x : Int) ((x + w : Nat) : Int)
    (y : Int) (by omega) (by omega) (by omega) (by omega) (by omega)
  obtain ⟨p2, hp2, hd2⟩ := draw_line_horizontal hd1.1 (x : Int)
    ((x + w : Nat) : Int) ((y + h : Nat) : Int)
    (by omega) (by omega) (by omega) (by omega) (by omega)
  obtain ⟨p3, hp3, hd3⟩ := draw_line_vertical_draws hd2.1 (x : Int) (y : Int)
    ((y + h : Nat) : Int) (by omega) (by omega) (by omega) (by omega) (by omega)
    (by omega)
  obtain ⟨p4, hp4, hd4⟩ := draw_line_vertical_draws hd3.1 ((x + w : Nat) : Int)
    (y : Int) ((y + h : Nat) : Int) (by omega) (by omega) (by omega)
    (by omega) (by omega) (by omega)
  refine ⟨p4, ?_, draws_congr (draws_trans (draws_trans (draws_trans hd1 hd2) hd3) hd4) ?_⟩
  · simp only [ssd1309_draw_empty_square, ex, ey, exw, eyh, hp1, hp2, hp3, hp4,
      Option.some_bind]
  · intro a b _ _
    have hmin : min (y : Int) ((y + h : Nat) : Int) = (y : Int) := by
      apply min_eq_left; omega
    have hmax : max (y : Int) ((y + h : Nat) : Int) = ((y + h : Nat) : Int) := by
      apply max_eq_right; omega
    simp only [hmin, hmax]
    constructor
    · rintro (((⟨h1, h2, h3⟩ | ⟨h1, h2, h3⟩) | ⟨h1, h2, h3⟩) | ⟨h1, h2, h3⟩)
      · left; exact ⟨⟨by omega, by omega⟩, Or.inl (by omega)⟩
      · left; exact ⟨⟨by omega, by omega⟩, Or.inr (by omega)⟩
      · right; exact ⟨Or.inl (by omega), by omega, by omega⟩
      · right; exact ⟨Or.inr (by omega), by omega, by omega⟩
    · rintro (⟨⟨h1, h2⟩, h3 | h3⟩ | ⟨h1 | h1, h2, h3⟩)
      · left; left; left; exact ⟨by omega, by omega, by omega⟩
      · left; left; right; exact ⟨by omega, by omega, by omega⟩
      · left; right; exact ⟨by omega, by omega, by omega⟩
      · right; exact ⟨by omega, by omega, by omega⟩

theorem line_y_eq (x1 y1 x2 y2 i : Int) :
    line_y x1 y1 x2 y2 i = f32toU32 (line_yf x1 y1 x2 y2 i) := rfl

theorem f32round_abs_le (q : ℚ) : |f32round q| ≤ |q| * (16777217 / 16777216) := by
  have h := f32round_err q
  have h2 := abs_sub_abs_le_abs_sub (f32round q) q
  linarith

/-- For endpoints in `[0, 2^20]` the float ordinate of a sloped line lies in
`(-1, 2^32)` at every abscissa between the endpoints. -/
theorem line_yf_bounds {x1 y1 x2 y2 i : Int} (hx1 : 0 ≤ x1) (hlt : x1 < x2)
    (hx2 : x2 ≤ 1048576) (hy1 : 0 ≤ y1) (hy1b : y1 ≤ 1048576) (hy2 : 0 ≤ y2)
    (hy2b : y2 ≤ 1048576) (hi1 : x1 ≤ i) (hi2 : i ≤ x2) :
    -1 < line_yf x1 y1 x2 y2 i ∧ line_yf x1 y1 x2 y2 i < 4294967296 := by
  have e1 : i32toF (y2 - y1) = ((y2 - y1 : Int) : ℚ) :=
    i32toF_exact _ (by rw [abs_lt]; constructor <;> omega)
  have e2 : i32toF (x2 - x1) = ((x2 - x1 : Int) : ℚ) :=
    i32toF_exact _ (by rw [abs_lt]; constructor <;> omega)
  have e3 : i32toF (i - x1) = ((i - x1 : Int) : ℚ) :=
    i32toF_exact _ (by rw [abs_lt]; constructor <;> omega)
  have e4 : i32toF y1 = (y1 : ℚ) :=
    i32toF_exact _ (by rw [abs_lt]; constructor <;> omega)
  unfold line_yf
  rw [e1, e2, e3, e4]
  unfold f32add f32mul f32div
  -- abbreviations
  obtain ⟨dy, hdy⟩ : ∃ dy : ℚ, dy = ((y2 - y1 : Int) : ℚ) := ⟨_, rfl⟩
  obtain ⟨dx, hdx⟩ : ∃ dx : ℚ, dx = ((x2 - x1 : Int) : ℚ) := ⟨_, rfl⟩
  obtain ⟨t, ht⟩ : ∃ t : ℚ, t = ((i - x1 : Int) : ℚ) := ⟨_, rfl⟩
  obtain ⟨Y, hY⟩ : ∃ Y : ℚ, Y = (y1 : ℚ) := ⟨_, rfl⟩
  rw [← hdy, ← hdx, ← ht, ← hY]
  have hdx0 : 0 < dx := by
    rw [hdx]
    have : (0 : Int) < x2 - x1 := by omega
    exact_mod_cast this
  have ht0 : 0 ≤ t := by
    rw [ht]
    have : (0 : Int) ≤ i - x1 := by omega
    exact_mod_cast this
  have htdx : t ≤ dx := by
    rw [ht, hdx]
    have : i - x1 ≤ x2 - x1 := by omega
    exact_mod_cast this
  have hY0 : 0 ≤ Y := by
    rw [hY]; exact_mod_cast hy1
  have hYB : Y ≤ 1048576 := by
    rw [hY]; exact_mod_cast hy1b
  have hdyY : -Y ≤ dy := by
    rw [hdy, hY]
    have : -y1 ≤ y2 - y1 := by omega
    exact_mod_cast this
  have hdyB : |dy| ≤ 1048576 := by
    rw [hdy, abs_le]
    constructor
    · have : (-1048576 : Int) ≤ y2 - y1 := by omega
      exact_mod_cast this
    · have : y2 - y1 ≤ (1048576 : Int) := by omega
      exact_mod_cast this
  -- the slope
  obtain ⟨m, hm⟩ : ∃ m : ℚ, m = f32round (dy / dx) := ⟨_, rfl⟩
  obtain ⟨pr, hpr⟩ : ∃ pr : ℚ, pr = f32round (m * t) := ⟨_, rfl⟩
  rw [← hm, ← hpr]
  have hdyabs : 0 ≤ |dy| := abs_nonneg dy
  have hrt : |dy / dx| * t ≤ |dy| := by
    rw [abs_div, abs_of_pos hdx0, div_mul_eq_mul_div, div_le_iff₀ hdx0]
    exact mul_le_mul_of_nonneg_left htdx hdyabs
  have hm1 : |m| ≤ |dy / dx| * (16777217 / 16777216) := by
    rw [hm]; exact f32round_abs_le _
  have hmt : |m * t| ≤ |dy| * (16777217 / 16777216) := by
    rw [abs_mul, abs_of_nonneg ht0]
    calc |m| * t ≤ |dy / dx| * (16777217 / 16777216) * t :=
          mul_le_mul_of_nonneg_right hm1 ht0
      _ = |dy / dx| * t * (16777217 / 16777216) := by ring
      _ ≤ |dy| * (16777217 / 16777216) :=
          mul_le_mul_of_nonneg_right hrt (by norm_num)
  have hpr1 : |pr| ≤ |dy| * (16777217 / 16777216) * (16777217 / 16777216) := by
    rw [hpr]
    calc |f32round (m * t)| ≤ |m * t| * (16777217 / 16777216) := f32round_abs_le _
      _ ≤ |dy| * (16777217 / 16777216) * (16777217 / 16777216) :=
          mul_le_mul_of_nonneg_right hmt (by norm_num)
  have hprlo : -(Y * (16777217 / 16777216) * (16777217 / 16777216)) ≤ pr := by
    by_cases hs : 0 ≤ dy
    · have hm0 : 0 ≤ m := by
        rw [hm]; exact f32round_nonneg (div_nonneg hs hdx0.le)
      have hp0 : 0 ≤ pr := by
        rw [hpr]; exact f32round_nonneg (mul_nonneg hm0 ht0)
      have : 0 ≤ Y * (16777217 / 16777216) * (16777217 / 16777216) := by positivity
      linarith
    · have hneg : dy < 0 := lt_of_not_ge hs
      have habs : |dy| = -dy := abs_of_neg hneg
      have hle : |dy| ≤ Y := by rw [habs]; linarith
      have h1 : |dy| * (16777217 / 16777216) * (16777217 / 16777216) ≤
          Y * (16777217 / 16777216) * (16777217 / 16777216) :=
        mul_le_mul_of_nonneg_right (mul_le_mul_of_nonneg_right hle (by norm_num))
          (by norm_num)
      have h2 := neg_abs_le pr
      linarith
  have hprhi : pr ≤ 1048576 * (16777217 / 16777216) * (16777217 / 16777216) := by
    have h1 : |dy| * (16777217 / 16777216) * (16777217 / 16777216) ≤
        1048576 * (16777217 / 16777216) * (16777217 / 16777216) :=
      mul_le_mul_of_nonneg_right (mul_le_mul_of_nonneg_right hdyB (by norm_num))
        (by norm_num)
    have h2 := le_abs_self pr
    linarith
  have herr := f32round_err (pr + Y)
  rw [abs_le] at herr
  have hsabs : |pr + Y| ≤ 4194304 := by
    rw [abs_le]
    constructor
    · nlinarith
    · nlinarith
  constructor
  · nlinarith [herr.1]
  · nlinarith [herr.2]

theorem line_y_defined {x1 y1 x2 y2 i : Int} (hx1 : 0 ≤ x1) (hlt : x1 < x2)
    (hx2 : x2 ≤ 1048576) (hy1 : 0 ≤ y1) (hy1b : y1 ≤ 1048576) (hy2 : 0 ≤ y2)
    (hy2b : y2 ≤ 1048576) (hi1 : x1 ≤ i) (hi2 : i ≤ x2) :
    line_y x1 y1 x2 y2 i = some ⌊line_yf x1 y1 x2 y2 i⌋.toNat := by
  rw [line_y_eq]
  simp only [f32toU32, if_pos (line_yf_bounds hx1 hlt hx2 hy1 hy1b hy2 hy2b hi1 hi2)]

theorem roundHalfEven_down {z : ℚ} {f : ℤ} (h1 : (f : ℚ) ≤ z) (h2 : z < f + 1 / 2) :
    roundHalfEven z = f := by
  have hf : ⌊z⌋ = f := by
    rw [Int.floor_eq_iff]
    exact ⟨h1, by linarith⟩
  unfold roundHalfEven
  rw [hf, if_pos (by linarith)]

theorem int_log_eq {q : ℚ} {e : ℤ} (h1 : (2 : ℚ) ^ e ≤ q) (h2 : q < 2 ^ (e + 1)) :
    Int.log 2 |q| = e := by
  have hq : 0 < q := lt_of_lt_of_le (zpow_pos (by norm_num) e) h1
  rw [abs_of_pos hq]
  apply le_antisymm
  · have := (Int.lt_zpow_iff_log_lt (b := 2) (by norm_num) hq (x := e + 1)).1
      (by simpa using h2)
    omega
  · exact (Int.zpow_le_iff_le_log (b := 2) (by norm_num) hq).1 (by simpa using h1)

/-- Evaluation of one rounding that rounds the significand down. -/
theorem f32round_down {q : ℚ} (e f : ℤ) (h1 : (2 : ℚ) ^ e ≤ q) (h2 : q < 2 ^ (e + 1))
    (h3 : (f : ℚ) ≤ q / 2 ^ (e - 23)) (h4 : q / 2 ^ (e - 23) < f + 1 / 2) :
    f32round q = f * 2 ^ (e - 23) := by
  have hq : 0 < q := lt_of_lt_of_le (zpow_pos (by norm_num) e) h1
  simp only [f32round, if_neg hq.ne', int_log_eq h1 h2, roundHalfEven_down h3 h4]

/-- The slope of the line from `(0,0)` to `(41,1)`: `1/41` rounded to binary32. -/
theorem f32div_1_41 : f32div 1 41 = 3273603 / 134217728 := by
  unfold f32div
  rw [f32round_down (-6) 13094412 (by norm_num) (by norm_num) (by norm_num) (by norm_num)]
  norm_num

/-- The product `fl(1/41) * 41` rounded to binary32 is `1 - 2^-24`. -/
theorem f32mul_slope_41 : f32mul (3273603 / 134217728) 41 = 16777215 / 16777216 := by
  unfold f32mul
  rw [f32round_down (-1) 16777215 (by norm_num) (by norm_num) (by norm_num) (by norm_num)]
  norm_num

theorem line_yf_0_0_41_1_41 : line_yf 0 0 41 1 41 = 16777215 / 16777216 := by
  have e1 : i32toF (1 - 0) = 1 := by
    have := i32toF_exact 1 (by norm_num)
    simpa using this
  have e41 : i32toF (41 - 0) = 41 := by
    have := i32toF_exact 41 (by norm_num)
    simpa using this
  have e0 : i32toF 0 = 0 := by
    have := i32toF_exact 0 (by norm_num)
    simpa using this
  have e5 : f32round (16777215 / 16777216) = 16777215 / 16777216 := by
    have := f32round_exact 16777215 (-24) (by norm_num)
    norm_num at this
    exact this
  unfold line_yf
  rw [e1, e41, e0, f32div_1_41, f32mul_slope_41]
  unfold f32add
  rw [add_zero, e5]

/-- C1: on a display with height a multiple of 8 and an in-range `(x, y)`,
`ssd1309_draw_pixel` returns the display whose byte at index
`(width-1-x) + ((height-1-y) / 8) * width` is the old byte ORed with bit
`(height-1-y) % 8`; every other byte, every other bit of that byte and the
dimension fields are unchanged. -/
theorem draw_pixel_ors_bit (p : ssd1309_t) (x y : Nat) (hwf : wellFormed p)
    (h8 : p.height % 8 = 0) (hx : x < p.width) (hy : y < p.height) :
    ∃ old q,
      p.buffer[(p.width - 1 - x) + ((p.height - 1 - y) / 8) * p.width]? = some old ∧
      ssd1309_draw_pixel p x y = some q ∧
      sameDims p q ∧ q.buffer.length = p.buffer.length ∧
      q.buffer[(p.width - 1 - x) + ((p.height - 1 - y) / 8) * p.width]? =
        some (old ||| 2 ^ ((p.height - 1 - y) % 8)) ∧
      (∀ i, i ≠ (p.width - 1 - x) + ((p.height - 1 - y) / 8) * p.width →
        q.buffer[i]? = p.buffer[i]?) ∧
      (∀ j, (old ||| 2 ^ ((p.height - 1 - y) % 8)).testBit j =
        (old.testBit j || decide (j = (p.height - 1 - y) % 8))) := by
  have hv : valid p := ⟨hwf, h8⟩
  have e1 : p.width - 1 - x = p.width - x - 1 := by omega
  have e2 : p.height - 1 - y = p.height - y - 1 := by omega
  rw [e1, e2]
  have hlt := physIndex_lt hv hx hy
  have hb := byte_lt hv (physIndex p x y)
  have hk := physBit_lt p y
  have hval : (p.buffer.getD (physIndex p x y) 0 ||| (1 <<< physBit p y)) % 256 =
      p.buffer.getD (physIndex p x y) 0 ||| 2 ^ physBit p y := by
    rw [Nat.one_shiftLeft]
    apply Nat.mod_eq_of_lt
    have h2 : (2 : Nat) ^ physBit p y < 2 ^ 8 := Nat.pow_lt_pow_right (by norm_num) hk
    exact Nat.or_lt_two_pow (n := 8) (by simpa using hb) h2
  refine ⟨p.buffer.getD (physIndex p x y) 0, _, buffer_get hv hx hy, draw_pixel_in hv hx hy,
    ⟨rfl, rfl, rfl, rfl⟩, ?_, ?_, ?_, ?_⟩
  · simp [storeByte]
  · rw [hval]
    simp only [storeByte, List.getElem?_set]
    change (if physIndex p x y = physIndex p x y then _ else _) = _
    simp [hlt, physBit]
  · intro i hi
    simp only [storeByte, List.getElem?_set]
    change (if physIndex p x y = i then _ else _) = _
    rw [if_neg (fun h => hi h.symm)]
  · intro j
    rw [Nat.testBit_or, Nat.testBit_two_pow]
    by_cases hj : j = (p.height - y - 1) % 8
    · simp [hj]
    · have : ¬ (p.height - y - 1) % 8 = j := fun h => hj h.symm
      simp [hj, this]

/-- C1 at pixel `(3, 2)` of the blank 16 x 8 display. -/
theorem draw_pixel_ors_bit_witness :
    ∃ old q,
      blank16x8.buffer[(blank16x8.width - 1 - 3) +
        ((blank16x8.height - 1 - 2) / 8) * blank16x8.width]? = some old ∧
      ssd1309_draw_pixel blank16x8 3 2 = some q ∧
      sameDims blank16x8 q ∧ q.buffer.length = blank16x8.buffer.length ∧
      q.buffer[(blank16x8.width - 1 - 3) +
        ((blank16x8.height - 1 - 2) / 8) * blank16x8.width]? =
        some (old ||| 2 ^ ((blank16x8.height - 1 - 2) % 8)) ∧
      (∀ i, i ≠ (blank16x8.width - 1 - 3) + ((blank16x8.height - 1 - 2) / 8) * blank16x8.width →
        q.buffer[i]? = blank16x8.buffer[i]?) ∧
      (∀ j, (old ||| 2 ^ ((blank16x8.height - 1 - 2) % 8)).testBit j =
        (old.testBit j || decide (j = (blank16x8.height - 1 - 2) % 8))) :=
  draw_pixel_ors_bit blank16x8 3 2 (by decide) (by decide) (by decide) (by decide)

/-- C2: for every buffer state of a valid display and every in-range `(x, y)`:
after `ssd1309_draw_pixel` pixel `(x, y)` reads set, after a following
`ssd1309_clear_pixel` it reads clear, and every other logical pixel has, after
each of the two calls, the value it had at the start. -/
theorem draw_then_clear_pixel (p : ssd1309_t) (x y : Nat) (hv : valid p)
    (hx : x < p.width) (hy : y < p.height) :
    ∃ q r, ssd1309_draw_pixel p x y = some q ∧ pixel q x y = true ∧
      (∀ a b, (a, b) ≠ (x, y) → pixel q a b = pixel p a b) ∧
      ssd1309_clear_pixel q x y = some r ∧ pixel r x y = false ∧
      (∀ a b, (a, b) ≠ (x, y) → pixel r a b = pixel p a b) := by
  obtain ⟨q, hq, hvq, hd, hpq⟩ := draw_pixel_spec hv x y
  obtain ⟨r, hr, _, _, hpr⟩ := clear_pixel_spec hvq x y
  have hne : ∀ a b, (a, b) ≠ (x, y) → ¬ (a = x ∧ b = y ∧ x < p.width ∧ y < p.height) := by
    intro a b h hc
    exact h (by rw [hc.1, hc.2.1])
  refine ⟨q, r, hq, ?_, ?_, hr, ?_, ?_⟩
  · rw [hpq]; simp [hx, hy]
  · intro a b h
    rw [hpq]; simp [hne a b h]
  · rw [hpr, hd.1, hd.2.1]; simp [hx, hy]
  · intro a b h
    rw [hpr, hpq, hd.1, hd.2.1]; simp [hne a b h]

/-- C2 at pixel `(3, 2)` of the blank 16 x 8 display. -/
theorem draw_then_clear_pixel_witness :
    ∃ q r, ssd1309_draw_pixel blank16x8 3 2 = some q ∧ pixel q 3 2 = true ∧
      (∀ a b, (a, b) ≠ (3, 2) → pixel q a b = pixel blank16x8 a b) ∧
      ssd1309_clear_pixel q 3 2 = some r ∧ pixel r 3 2 = false ∧
      (∀ a b, (a, b) ≠ (3, 2) → pixel r a b = pixel blank16x8 a b) :=
  draw_then_clear_pixel blank16x8 3 2 (by decide) (by decide) (by decide)

theorem xor_twice {b k : Nat} (hb : b < 256) (hk : k < 8) :
    (((b ^^^ (1 <<< k)) % 256) ^^^ (1 <<< k)) % 256 = b := by
  apply Nat.eq_of_testBit_eq
  intro j
  rw [xor_bit (Nat.mod_lt _ (by norm_num)) hk, xor_bit hb hk]
  by_cases hj : j = k <;> simp [hj]

/-- C3: for every buffer state of a valid display and every `(x, y)`, in range
or not, two calls of `ssd1309_invert_pixel(x, y)` return the display with
exactly its original buffer and fields. -/
theorem invert_pixel_twice (p : ssd1309_t) (x y : Nat) (hv : valid p) :
    (ssd1309_invert_pixel p x y).bind (fun q => ssd1309_invert_pixel q x y) = some p := by
  by_cases hr : x < p.width ∧ y < p.height
  · obtain ⟨hx, hy⟩ := hr
    have hb := byte_lt hv (physIndex p x y)
    have hlt := physIndex_lt hv hx hy
    have hvq := valid_set hv (physIndex p x y)
      (Nat.mod_lt (p.buffer.getD (physIndex p x y) 0 ^^^ (1 <<< physBit p y))
        (by norm_num : 0 < 256))
    rw [invert_pixel_in hv hx hy, Option.some_bind, invert_pixel_in hvq hx hy]
    have hi : physIndex (storeByte p (physIndex p x y)
        ((p.buffer.getD (physIndex p x y) 0 ^^^ (1 <<< physBit p y)) % 256)) x y =
        physIndex p x y := rfl
    have hk : physBit (storeByte p (physIndex p x y)
        ((p.buffer.getD (physIndex p x y) 0 ^^^ (1 <<< physBit p y)) % 256)) y =
        physBit p y := rfl
    rw [hi, hk]
    have hget : (storeByte p (physIndex p x y)
        ((p.buffer.getD (physIndex p x y) 0 ^^^ (1 <<< physBit p y)) % 256)).buffer.getD
          (physIndex p x y) 0 =
        (p.buffer.getD (physIndex p x y) 0 ^^^ (1 <<< physBit p y)) % 256 := by
      simp [storeByte, List.getD_eq_getElem?_getD, List.getElem?_set, hlt]
    rw [hget, xor_twice hb (physBit_lt p y)]
    have hbuf : (p.buffer.set (physIndex p x y)
        ((p.buffer.getD (physIndex p x y) 0 ^^^ (1 <<< physBit p y)) % 256)).set
          (physIndex p x y) (p.buffer.getD (physIndex p x y) 0) = p.buffer := by
      rw [List.set_set]
      apply List.ext_getElem?
      intro i
      rw [List.getElem?_set]
      by_cases hi : physIndex p x y = i
      · subst hi
        simp [hlt, List.getD_eq_getElem?_getD]
      · simp [hi]
    cases p
    simp only [storeByte] at hbuf ⊢
    simp only [hbuf]
  · rw [invert_pixel_out (by omega), Option.some_bind, invert_pixel_out (by omega)]

/-- C3 at pixel `(3, 2)` of the blank 16 x 8 display. -/
theorem invert_pixel_twice_witness :
    (ssd1309_invert_pixel blank16x8 3 2).bind (fun q => ssd1309_invert_pixel q 3 2) =
      some blank16x8 :=
  invert_pixel_twice blank16x8 3 2 (by decide)

/-- C4: for every `(x, y)` with `x >= width` or `y >= height`, each of
`ssd1309_draw_pixel`, `ssd1309_clear_pixel` and `ssd1309_invert_pixel` returns
the display unchanged (buffer and dimension fields). -/
theorem pixel_ops_out_of_range (p : ssd1309_t) (x y : Nat)
    (h : x ≥ p.width ∨ y ≥ p.height) :
    ssd1309_draw_pixel p x y = some p ∧ ssd1309_clear_pixel p x y = some p ∧
      ssd1309_invert_pixel p x y = some p :=
  ⟨draw_pixel_out h, clear_pixel_out h, invert_pixel_out h⟩

/-- C4 at `(4294967295, 0)`, the largest `uint32_t` abscissa. -/
theorem pixel_ops_out_of_range_witness :
    ssd1309_draw_pixel blank16x8 4294967295 0 = some blank16x8 ∧
      ssd1309_clear_pixel blank16x8 4294967295 0 = some blank16x8 ∧
      ssd1309_invert_pixel blank16x8 4294967295 0 = some blank16x8 :=
  pixel_ops_out_of_range blank16x8 4294967295 0 (by decide)

theorem pixel_of_zero_buffer {p : ssd1309_t} (h : ∀ v ∈ p.buffer, v = 0) (a b : Nat) :
    pixel p a b = false := by
  unfold pixel
  split_ifs
  · rw [List.getD_eq_getElem?_getD]
    cases hget : p.buffer[p.width - a - 1 + (p.height - b - 1) / 8 * p.width]? with
    | none => simp
    | some v =>
      have hv := h v (List.getElem?_mem hget)
      subst hv
      simp
  · rfl

theorem pixel_blank16x8 (a b : Nat) : pixel blank16x8 a b = false :=
  pixel_of_zero_buffer (by decide) a b

/-- C5 (amended): for every vertical line (`x1 == x2`) with non-negative
coordinates whose ordinates are below `INT32_MAX`, `ssd1309_draw_line` returns,
and afterwards a pixel is set exactly when it was set before or is an in-range
pixel `(x1, y)` with `min(y1,y2) <= y <= max(y1,y2)`. -/
theorem draw_line_vertical (p : ssd1309_t) (x y1 y2 : Int) (hv : valid p)
    (hx : 0 ≤ x) (hx2 : x ≤ 2147483647) (h1 : 0 ≤ y1) (h2 : 0 ≤ y2)
    (h3 : y1 < 2147483647) (h4 : y2 < 2147483647) :
    ∃ q, ssd1309_draw_line p x y1 x y2 = some q ∧ valid q ∧ sameDims p q ∧
      ∀ a b, pixel q a b = true ↔
        (pixel p a b = true ∨
          ((a : Int) = x ∧ min y1 y2 ≤ (b : Int) ∧ (b : Int) ≤ max y1 y2 ∧
            a < p.width ∧ b < p.height)) := by
  obtain ⟨q, hq, hvq, hd, hp⟩ := draw_line_vertical_draws hv x y1 y2 hx hx2 h1 h2 h3 h4
  refine ⟨q, hq, hvq, hd, ?_⟩
  intro a b
  rw [hp]
  tauto

/-- C5, the instance of the claim: `draw_line(0,0,0,5)` on an all-zero buffer
sets exactly the pixels `(0,0)..(0,5)`. -/
theorem draw_line_vertical_witness :
    ∃ q, ssd1309_draw_line blank16x8 0 0 0 5 = some q ∧
      ∀ a b, pixel q a b = true ↔ (a = 0 ∧ b ≤ 5) := by
  obtain ⟨q, hq, _, _, hp⟩ := draw_line_vertical blank16x8 0 0 5 (by decide) (by decide)
    (by decide) (by decide) (by decide) (by decide) (by decide)
  refine ⟨q, hq, ?_⟩
  intro a b
  rw [hp, pixel_blank16x8]
  simp only [blank16x8]
  constructor
  · rintro (h | ⟨h1, h2, h3, h4, h5⟩)
    · exact absurd h (by simp)
    · omega
  · rintro ⟨h1, h2⟩
    right
    omega

/-- C5 fails as stated: the ordinate `INT32_MAX` is a non-negative coordinate,
and there the loop `for (i = y1; i <= y2; ++i)` cannot leave (its counter
overflows), so `draw_line(0, 0, 0, 2147483647)` yields no display. -/
theorem draw_line_vertical_int_max :
    ssd1309_draw_line blank16x8 0 0 0 2147483647 = none := by
  rfl

/-- C7: for `x + w` and `y + h` not overflowing 32 bits, `ssd1309_draw_square`
returns, and afterwards a logical pixel `(a, b)` is set if and only if it was
set before or lies in `[x, x+w) x [y, y+h)` and on the display; with `w = 0` or
`h = 0` the display is returned unchanged. -/
theorem draw_square_fills (p : ssd1309_t) (x y w h : Nat) (hv : valid p)
    (hx : x + w < 4294967296) (hy : y + h < 4294967296) :
    ∃ q, ssd1309_draw_square p x y w h = some q ∧ valid q ∧ sameDims p q ∧
      (∀ a b, pixel q a b = true ↔
        (pixel p a b = true ∨
          (x ≤ a ∧ a < x + w ∧ y ≤ b ∧ b < y + h ∧ a < p.width ∧ b < p.height))) ∧
      (w = 0 ∨ h = 0 → q = p) := by
  obtain ⟨q, hq, hvq, hd, hp⟩ := draw_square_draws hv hx hy
  refine ⟨q, hq, hvq, hd, ?_, ?_⟩
  · intro a b
    rw [hp]
    tauto
  · intro h0
    have hq2 : ssd1309_draw_square p x y w h = some p := by
      rcases h0 with h0 | h0
      · subst h0
        rfl
      · subst h0
        exact foldlM_id (List.range w) p
    rw [hq2] at hq
    exact (Option.some.inj hq).symm

/-- C7 on the blank 16 x 8 display: `draw_square(1, 1, 3, 2)`. -/
theorem draw_square_fills_witness :
    ∃ q, ssd1309_draw_square blank16x8 1 1 3 2 = some q ∧ valid q ∧ sameDims blank16x8 q ∧
      (∀ a b, pixel q a b = true ↔
        (pixel blank16x8 a b = true ∨
          (1 ≤ a ∧ a < 1 + 3 ∧ 1 ≤ b ∧ b < 1 + 2 ∧ a < blank16x8.width ∧
            b < blank16x8.height))) ∧
      (3 = 0 ∨ 2 = 0 → q = blank16x8) :=
  draw_square_fills blank16x8 1 1 3 2 (by decide) (by decide) (by decide)

theorem invert_square_calls (p : ssd1309_t) (x y w h : Nat) :
    ssd1309_invert_square p x y w h =
      (square_calls x y w h).foldlM (fun s c => ssd1309_invert_pixel s c.1 c.2) p := by
  unfold ssd1309_invert_square square_calls
  induction (List.range w) generalizing p with
  | nil => rfl
  | cons i I ih =>
    rw [List.foldlM_cons, List.flatMap_cons, List.foldlM_append, List.foldlM_map]
    congr 1
    funext t
    exact ih t

theorem mem_square_calls {x y w h : Nat} (hx : x + w < 4294967296) (hy : y + h < 4294967296)
    (a b : Nat) :
    (a, b) ∈ square_calls x y w h ↔ x ≤ a ∧ a < x + w ∧ y ≤ b ∧ b < y + h := by
  simp only [square_calls, List.mem_flatMap, List.mem_map, List.mem_range, Prod.mk.injEq]
  constructor
  · rintro ⟨i, hi, j, hj, ha, hb⟩
    rw [add32_small (by omega)] at ha hb
    omega
  · rintro ⟨h1, h2, h3, h4⟩
    refine ⟨a - x, by omega, b - y, by omega, ?_, ?_⟩
    · rw [add32_small (by omega)]; omega
    · rw [add32_small (by omega)]; omega

theorem nodup_square_calls {x y w h : Nat} (hx : x + w < 4294967296)
    (hy : y + h < 4294967296) : (square_calls x y w h).Nodup := by
  unfold square_calls
  rw [List.nodup_flatMap]
  constructor
  · intro i _
    apply List.Nodup.map_on _ (List.nodup_range h)
    intro j hj j2 hj2 he
    rw [List.mem_range] at hj hj2
    have := (Prod.mk.inj he).2
    rw [add32_small (by omega), add32_small (by omega)] at this
    omega
  · apply List.Pairwise.imp_of_mem _ (List.pairwise_lt_range w)
    intro i i2 hi hi2 hlt
    rw [List.mem_range] at hi hi2
    intro c hc hc2
    simp only [List.mem_map, List.mem_range] at hc hc2
    obtain ⟨j, _, rfl⟩ := hc
    obtain ⟨j2, _, he⟩ := hc2
    have := (Prod.mk.inj he).1
    rw [add32_small (by omega), add32_small (by omega)] at this
    omega

/-- Inverting the pixels of a duplicate-free coordinate list flips exactly the
in-range pixels of the list. -/
theorem foldlM_invert_nodup (L : List (Nat × Nat)) (hnd : L.Nodup) {p : ssd1309_t}
    (hv : valid p) :
    ∃ q, L.foldlM (fun s c => ssd1309_invert_pixel s c.1 c.2) p = some q ∧ valid q ∧
      sameDims p q ∧
      ∀ a b, pixel q a b =
        xor (pixel p a b) (decide ((a, b) ∈ L ∧ a < p.width ∧ b < p.height)) := by
  induction L generalizing p with
  | nil =>
    refine ⟨p, rfl, hv, ⟨rfl, rfl, rfl, rfl⟩, ?_⟩
    intro a b
    simp
  | cons c L ih =>
    obtain ⟨hc, hL⟩ := List.nodup_cons.1 hnd
    obtain ⟨t, ht, hvt, hdt, hpt⟩ := invert_pixel_spec hv c.1 c.2
    obtain ⟨q, hq, hvq, hdq, hpq⟩ := ih hL hvt
    refine ⟨q, ?_, hvq, ⟨hdq.1.trans hdt.1, hdq.2.1.trans hdt.2.1, hdq.2.2.1.trans hdt.2.2.1,
      hdq.2.2.2.trans hdt.2.2.2⟩, ?_⟩
    · rw [List.foldlM_cons, ht]
      exact hq
    · intro a b
      rw [hpq, hpt, hdt.1, hdt.2.1]
      by_cases h1 : (a, b) = c
      · subst h1
        by_cases hr : a < p.width ∧ b < p.height
        · simp [hc, hr.1, hr.2]
        · have h2 : ¬ (a < p.width ∧ b < p.height) := hr
          simp [hc]
      · have h2 : ¬ (a = c.1 ∧ b = c.2 ∧ c.1 < p.width ∧ c.2 < p.height) := by
          intro h
          exact h1 (Prod.ext h.1 h.2.1)
        simp [h1, h2]

/-- C9: for `x + w` and `y + h` not overflowing 32 bits, `ssd1309_invert_square`
calls `ssd1309_invert_pixel` exactly once for each coordinate of
`[x, x+w) x [y, y+h)` and for no other; it returns, and afterwards every
in-range pixel of that rectangle is flipped and every other pixel unchanged. -/
theorem invert_square_flips (p : ssd1309_t) (x y w h : Nat) (hv : valid p)
    (hx : x + w < 4294967296) (hy : y + h < 4294967296) :
    (ssd1309_invert_square p x y w h =
        (square_calls x y w h).foldlM (fun s c => ssd1309_invert_pixel s c.1 c.2) p ∧
      (square_calls x y w h).Nodup ∧
      ∀ a b, (a, b) ∈ square_calls x y w h ↔ x ≤ a ∧ a < x + w ∧ y ≤ b ∧ b < y + h) ∧
    ∃ q, ssd1309_invert_square p x y w h = some q ∧ valid q ∧ sameDims p q ∧
      ∀ a b, pixel q a b =
        xor (pixel p a b)
          (decide (x ≤ a ∧ a < x + w ∧ y ≤ b ∧ b < y + h ∧ a < p.width ∧ b < p.height)) := by
  refine ⟨⟨invert_square_calls p x y w h, nodup_square_calls hx hy, mem_square_calls hx hy⟩, ?_⟩
  obtain ⟨q, hq, hvq, hd, hp⟩ := foldlM_invert_nodup _ (nodup_square_calls hx hy) hv
  refine ⟨q, (invert_square_calls p x y w h).trans hq, hvq, hd, ?_⟩
  intro a b
  rw [hp]
  have hiff : ((a, b) ∈ square_calls x y w h ∧ a < p.width ∧ b < p.height) ↔
      (x ≤ a ∧ a < x + w ∧ y ≤ b ∧ b < y + h ∧ a < p.width ∧ b < p.height) := by
    rw [mem_square_calls hx hy]
    tauto
  simp only [hiff]

/-- C9 on the blank 16 x 8 display: `invert_square(1, 1, 3, 2)`. -/
theorem invert_square_flips_witness :
    (ssd1309_invert_square blank16x8 1 1 3 2 =
        (square_calls 1 1 3 2).foldlM (fun s c => ssd1309_invert_pixel s c.1 c.2) blank16x8 ∧
      (square_calls 1 1 3 2).Nodup ∧
      ∀ a b, (a, b) ∈ square_calls 1 1 3 2 ↔ 1 ≤ a ∧ a < 1 + 3 ∧ 1 ≤ b ∧ b < 1 + 2) ∧
    ∃ q, ssd1309_invert_square blank16x8 1 1 3 2 = some q ∧ valid q ∧ sameDims blank16x8 q ∧
      ∀ a b, pixel q a b =
        xor (pixel blank16x8 a b)
          (decide (1 ≤ a ∧ a < 1 + 3 ∧ 1 ≤ b ∧ b < 1 + 2 ∧ a < blank16x8.width ∧
            b < blank16x8.height)) :=
  invert_square_flips blank16x8 1 1 3 2 (by decide) (by decide) (by decide)

/-- C10: for every font, position, scale and every character `c` with
`c < font.first` or `c > font.last`, `ssd1309_draw_char_with_font` returns 0 and
leaves the display (framebuffer and fields) unchanged. -/
theorem draw_char_outside_range (p : ssd1309_t) (x y scale : Nat) (font : GFXfont) (c : Int)
    (h : c < (font.first : Int) ∨ c > (font.last : Int)) :
    ssd1309_draw_char_with_font p x y scale font c = some (p, 0) := by
  simp only [ssd1309_draw_char_with_font, if_pos h]

/-- C10 for the character `'C'` (67) of a font covering `'A'..'B'`. -/
theorem draw_char_outside_range_witness :
    ssd1309_draw_char_with_font blank16x8 2 1 1 tinyFont 67 = some (blank16x8, 0) :=
  draw_char_outside_range blank16x8 2 1 1 tinyFont 67 (by decide)

/-- C8 (amended): for `x + w` and `y + h` below `INT32_MAX`,
`ssd1309_draw_empty_square` returns, and afterwards a pixel is set exactly when
it was set before or is an in-range pixel on the border of the closed rectangle
`[x, x+w] x [y, y+h]` (rows `y` and `y+h` for `x <= a <= x+w`, columns `x` and
`x+w` for `y <= b <= y+h`).  The footprint is one pixel wider and taller than
that of `ssd1309_draw_square(x, y, w, h)`: the in-range border pixels of column
`x+w` and of row `y+h` that were clear are set by the empty square and left
clear by the filled one. -/
theorem draw_empty_square_border (p : ssd1309_t) (x y w h : Nat) (hv : valid p)
    (hx : x + w < 2147483647) (hy : y + h < 2147483647) :
    ∃ q, ssd1309_draw_empty_square p x y w h = some q ∧ valid q ∧ sameDims p q ∧
      (∀ a b, pixel q a b = true ↔
        (pixel p a b = true ∨
          ((((x ≤ a ∧ a ≤ x + w) ∧ (b = y ∨ b = y + h)) ∨
            ((a = x ∨ a = x + w) ∧ y ≤ b ∧ b ≤ y + h)) ∧ a < p.width ∧ b < p.height))) ∧
      ∃ r, ssd1309_draw_square p x y w h = some r ∧
        ∀ a b, (a = x + w ∨ b = y + h) → x ≤ a → a ≤ x + w → y ≤ b → b ≤ y + h →
          a < p.width → b < p.height → pixel p a b = false →
          pixel q a b = true ∧ pixel r a b = false := by
  obtain ⟨q, hq, hvq, hd, hp⟩ := draw_empty_square_draws hv hx hy
  obtain ⟨r, hr, _, _, hpr⟩ := draw_square_draws (p := p) hv (x := x) (y := y) (w := w) (h := h)
    (by omega) (by omega)
  refine ⟨q, hq, hvq, hd, hp, r, hr, ?_⟩
  intro a b hab h1 h2 h3 h4 h5 h6 hclear
  constructor
  · rw [hp]
    right
    refine ⟨?_, h5, h6⟩
    rcases hab with hab | hab
    · right; exact ⟨Or.inr hab, h3, h4⟩
    · left; exact ⟨⟨h1, h2⟩, Or.inr hab⟩
  · cases hc : pixel r a b with
    | false => rfl
    | true =>
      rcases (hpr a b).1 hc with h | ⟨⟨_, k2, _, k4⟩, _⟩
      · rw [hclear] at h
        exact absurd h (by simp)
      · omega

/-- C8 on the blank 16 x 8 display: `draw_empty_square(1, 1, 3, 2)` sets the
border of `[1, 4] x [1, 3]`. -/
theorem draw_empty_square_border_witness :
    ∃ q, ssd1309_draw_empty_square blank16x8 1 1 3 2 = some q ∧
      ∀ a b, pixel q a b = true ↔
        (((1 ≤ a ∧ a ≤ 4) ∧ (b = 1 ∨ b = 3)) ∨ ((a = 1 ∨ a = 4) ∧ 1 ≤ b ∧ b ≤ 3)) := by
  obtain ⟨q, hq, _, _, hp, _⟩ := draw_empty_square_border blank16x8 1 1 3 2 (by decide)
    (by decide) (by decide)
  refine ⟨q, hq, ?_⟩
  intro a b
  rw [hp, pixel_blank16x8]
  simp only [blank16x8]
  constructor
  · rintro (h | ⟨h1, _, _⟩)
    · exact absurd h (by simp)
    · omega
  · intro h
    right
    omega

/-- C8 fails as stated: `x + w = INT32_MAX` fits a non-negative `int32_t`, and
there the first `ssd1309_draw_line` call runs its loop up to `INT32_MAX` and
cannot leave it, so `draw_empty_square(0, 0, 2147483647, 0)` yields no display. -/
theorem draw_empty_square_int_max :
    ssd1309_draw_empty_square blank16x8 0 0 2147483647 0 = none := by
  rfl

/-- A sloped call `ssd1309_draw_line(x1, y1, x2, y2)` with `x1 < x2` and all
coordinates in `[0, 2^20]`. -/
theorem draw_line_sloped_draws {p : ssd1309_t} (hv : valid p) (x1 y1 x2 y2 : Int)
    (hx1 : 0 ≤ x1) (hlt : x1 < x2) (hx2 : x2 ≤ 1048576) (hy1 : 0 ≤ y1) (hy1b : y1 ≤ 1048576)
    (hy2 : 0 ≤ y2) (hy2b : y2 ≤ 1048576) :
    ∃ q, ssd1309_draw_line p x1 y1 x2 y2 = some q ∧
      Draws (fun a b => x1 ≤ (a : Int) ∧ (a : Int) ≤ x2 ∧
        b = ⌊line_yf x1 y1 x2 y2 (a : Int)⌋.toNat) p q := by
  obtain ⟨q, hq, hd⟩ := draw_line_ordered_sloped hv x1 y1 x2 y2 hx1 hlt (by omega)
    ⟨by unfold inI32; omega, by unfold inI32; omega⟩
    (fun i hi1 hi2 => ⟨_, line_y_defined hx1 hlt hx2 hy1 hy1b hy2 hy2b hi1 hi2⟩)
  refine ⟨q, ?_, draws_congr hd ?_⟩
  · have hgt : ¬ x1 > x2 := by omega
    simp only [ssd1309_draw_line, if_neg hgt]
    exact hq
  · intro a b _ _
    constructor
    · rintro ⟨h1, h2, h3⟩
      rw [line_y_defined hx1 hlt hx2 hy1 hy1b hy2 hy2b h1 h2] at h3
      exact ⟨h1, h2, (Option.some.inj h3).symm⟩
    · rintro ⟨h1, h2, h3⟩
      rw [line_y_defined hx1 hlt hx2 hy1 hy1b hy2 hy2b h1 h2, h3]
      exact ⟨h1, h2, rfl⟩

theorem draw_line_swap (p : ssd1309_t) {x1 x2 : Int} (y1 y2 : Int) (hlt : x1 < x2) :
    ssd1309_draw_line p x2 y2 x1 y1 = ssd1309_draw_line p x1 y1 x2 y2 := by
  have h1 : x2 > x1 := hlt
  have h2 : ¬ x1 > x2 := by omega
  simp only [ssd1309_draw_line, if_pos h1, if_neg h2]

/-- C6 (amended): for a non-vertical line whose endpoint coordinates lie in
`[0, 2^20]`, named so that `x1 < x2` (the call with the endpoints exchanged is
the same call), `ssd1309_draw_line` returns, and afterwards a pixel is set
exactly when it was set before or is an in-range pixel `(x, trunc(y_x))` for an
integer `x` in `[x1, x2]`, where `y_x = m * (x - x1) + y1`, `m = (y2 - y1) / (x2 - x1)`
is evaluated in single precision (`line_yf`: the quotient, the product and the
sum are each rounded to binary32), `y_x` lies in `(-1, 2^32)` and `trunc` rounds
toward zero. -/
theorem draw_line_sloped (p : ssd1309_t) (x1 y1 x2 y2 : Int) (hv : valid p)
    (hx1 : 0 ≤ x1) (hlt : x1 < x2) (hx2 : x2 ≤ 1048576) (hy1 : 0 ≤ y1) (hy1b : y1 ≤ 1048576)
    (hy2 : 0 ≤ y2) (hy2b : y2 ≤ 1048576) :
    ssd1309_draw_line p x2 y2 x1 y1 = ssd1309_draw_line p x1 y1 x2 y2 ∧
    (∀ i, x1 ≤ i → i ≤ x2 →
      -1 < line_yf x1 y1 x2 y2 i ∧ line_yf x1 y1 x2 y2 i < 4294967296 ∧
      line_yf x1 y1 x2 y2 i =
        f32round (f32round (f32round (((y2 - y1 : Int) : ℚ) / ((x2 - x1 : Int) : ℚ)) *
          ((i - x1 : Int) : ℚ)) + (y1 : ℚ))) ∧
    ∃ q, ssd1309_draw_line p x1 y1 x2 y2 = some q ∧ valid q ∧ sameDims p q ∧
      ∀ a b, pixel q a b = true ↔
        (pixel p a b = true ∨
          (x1 ≤ (a : Int) ∧ (a : Int) ≤ x2 ∧ b = ⌊line_yf x1 y1 x2 y2 (a : Int)⌋.toNat ∧
            a < p.width ∧ b < p.height)) := by
  refine ⟨draw_line_swap p y1 y2 hlt, ?_, ?_⟩
  · intro i hi1 hi2
    obtain ⟨b1, b2⟩ := line_yf_bounds hx1 hlt hx2 hy1 hy1b hy2 hy2b hi1 hi2
    refine ⟨b1, b2, ?_⟩
    have e1 : i32toF (y2 - y1) = ((y2 - y1 : Int) : ℚ) :=
      i32toF_exact _ (by rw [abs_lt]; constructor <;> omega)
    have e2 : i32toF (x2 - x1) = ((x2 - x1 : Int) : ℚ) :=
      i32toF_exact _ (by rw [abs_lt]; constructor <;> omega)
    have e3 : i32toF (i - x1) = ((i - x1 : Int) : ℚ) :=
      i32toF_exact _ (by rw [abs_lt]; constructor <;> omega)
    have e4 : i32toF y1 = (y1 : ℚ) :=
      i32toF_exact _ (by rw [abs_lt]; constructor <;> omega)
    simp only [line_yf, e1, e2, e3, e4, f32add, f32mul, f32div]
  · obtain ⟨q, hq, hvq, hd, hp⟩ := draw_line_sloped_draws hv x1 y1 x2 y2 hx1 hlt hx2 hy1 hy1b hy2 hy2b
    refine ⟨q, hq, hvq, hd, ?_⟩
    intro a b
    rw [hp]
    tauto

theorem line_yf_0_0_4_2 (a : Nat) (ha : a ≤ 4) : line_yf 0 0 4 2 (a : Int) = (a : ℚ) / 2 := by
  have e2 : i32toF (2 - 0) = 2 := by
    have := i32toF_exact 2 (by norm_num)
    simpa using this
  have e4 : i32toF (4 - 0) = 4 := by
    have := i32toF_exact 4 (by norm_num)
    simpa using this
  have e0 : i32toF 0 = 0 := by
    have := i32toF_exact 0 (by norm_num)
    simpa using this
  have ea : i32toF ((a : Int) - 0) = (a : ℚ) := by
    have := i32toF_exact (a : Int) (by rw [abs_lt]; constructor <;> omega)
    simpa using this
  have hhalf : f32round (1 / 2) = 1 / 2 := by
    have := f32round_exact 1 (-1) (by norm_num)
    norm_num at this
    exact this
  have hah : f32round ((a : ℚ) / 2) = (a : ℚ) / 2 := by
    have := f32round_exact (a : Int) (-1) (by rw [abs_lt]; constructor <;> omega)
    have h2 : ((a : Int) : ℚ) * 2 ^ (-1 : ℤ) = (a : ℚ) / 2 := by
      rw [zpow_neg_one]; push_cast; ring
    rw [h2] at this
    exact this
  unfold line_yf
  rw [e2, e4, e0, ea]
  unfold f32add f32mul f32div
  have h24 : (2 : ℚ) / 4 = 1 / 2 := by norm_num
  rw [h24, hhalf]
  have h3 : (1 : ℚ) / 2 * (a : ℚ) = (a : ℚ) / 2 := by ring
  rw [h3, hah, add_zero, hah]

/-- C6, the instance of the claim: `draw_line(0,0,4,2)` on an all-zero buffer
sets exactly `(0,0)`, `(1,0)`, `(2,1)`, `(3,1)`, `(4,2)`. -/
theorem draw_line_sloped_witness :
    ∃ q, ssd1309_draw_line blank16x8 0 0 4 2 = some q ∧
      ∀ a b, pixel q a b = true ↔
        ((a = 0 ∧ b = 0) ∨ (a = 1 ∧ b = 0) ∨ (a = 2 ∧ b = 1) ∨ (a = 3 ∧ b = 1) ∨
          (a = 4 ∧ b = 2)) := by
  obtain ⟨_, _, q, hq, _, _, hp⟩ := draw_line_sloped blank16x8 0 0 4 2 (by decide) (by decide)
    (by decide) (by decide) (by decide) (by decide) (by decide) (by decide)
  refine ⟨q, hq, ?_⟩
  intro a b
  rw [hp, pixel_blank16x8]
  simp only [blank16x8]
  have hfl : ∀ n : Nat, n ≤ 4 → ⌊line_yf 0 0 4 2 (n : Int)⌋.toNat = n / 2 := by
    intro n hn
    rw [line_yf_0_0_4_2 n hn]
    interval_cases n <;> norm_num [Int.floor_eq_iff]
    rfl
  constructor
  · rintro (h | ⟨h1, h2, h3, _, _⟩)
    · exact absurd h (by simp)
    · have ha : a ≤ 4 := by omega
      rw [hfl a ha] at h3
      omega
  · intro h
    right
    have ha : a ≤ 4 := by omega
    rw [hfl a ha]
    omega

theorem valid_blank128x64 : valid blank128x64 := by
  refine ⟨⟨by decide, by decide, by decide, by decide, List.length_replicate 1024 0, ?_⟩,
    by decide⟩
  intro b hb
  simp only [blank128x64, List.mem_replicate] at hb
  omega

theorem pixel_blank128x64 (a b : Nat) : pixel blank128x64 a b = false :=
  pixel_of_zero_buffer (fun v hv => by
    simp only [blank128x64, List.mem_replicate] at hv
    exact hv.2) a b

/-- C6 fails as stated.  With `m = (y2-y1)/(x2-x1)` and `m*(x-x1) + y1` read as
exact arithmetic, `draw_line(0,0,41,1)` would have to plot `(41, 1)`
(`line_y_exact 0 0 41 1 41 = 1`); the code plots `(41, 0)` and leaves `(41, 1)`
clear, because the binary32 slope is below `1/41` and `fl(m * 41) = 1 - 2^-24`.
And `x2 = INT32_MAX` is a non-negative coordinate at which the loop over `x`
cannot leave, so `draw_line(0, 0, 2147483647, 1)` yields no display. -/
theorem draw_line_sloped_not_exact :
    (∃ q, ssd1309_draw_line blank128x64 0 0 41 1 = some q ∧
      line_y_exact 0 0 41 1 41 = 1 ∧ pixel q 41 1 = false ∧ pixel q 41 0 = true) ∧
    ssd1309_draw_line blank128x64 0 0 2147483647 1 = none := by
  refine ⟨?_, rfl⟩
  obtain ⟨q, hq, _, _, hp⟩ := draw_line_sloped_draws valid_blank128x64 0 0 41 1
    (by decide) (by decide) (by decide) (by decide) (by decide)
    (by decide) (by decide)
  have hfl : ⌊line_yf 0 0 41 1 ((41 : Nat) : Int)⌋.toNat = 0 := by
    have : ((41 : Nat) : Int) = 41 := rfl
    rw [this, line_yf_0_0_41_1_41]
    norm_num [Int.floor_eq_iff]
  refine ⟨q, hq, ?_, ?_, ?_⟩
  · unfold line_y_exact
    norm_num
  · cases hc : pixel q 41 1 with
    | false => rfl
    | true =>
      rcases (hp 41 1).1 hc with h | ⟨⟨_, _, h3⟩, _⟩
      · rw [pixel_blank128x64] at h
        exact absurd h (by simp)
      · rw [hfl] at h3
        exact absurd h3 (by decide)
  · rw [hp]
    right
    refine ⟨⟨by decide, by decide, ?_⟩, by decide, by decide⟩
    rw [hfl]

theorem and_one_shiftLeft_ne_zero (b k : Nat) : b &&& (1 <<< k) ≠ 0 ↔ b.testBit k = true := by
  rw [Nat.one_shiftLeft, Nat.and_two_pow]
  cases h : b.testBit k
  · simp
  · simp

/-- `ssd1309_draw_square` for arbitrary arguments: the coordinates wrap
modulo `2^32`. -/
theorem draw_square_draws_wrap {p : ssd1309_t} (hv : valid p) (x y w h : Nat) :
    ∃ q, ssd1309_draw_square p x y w h = some q ∧
      Draws (fun a b => ∃ i j, i < w ∧ j < h ∧ a = add32 x i ∧ b = add32 y j) p q := by
  obtain ⟨q, hq, hd⟩ := foldlM_draws
    (fun s i => (List.range h).foldlM
      (fun s j => ssd1309_draw_pixel s (add32 x i) (add32 y j)) s)
    (fun i a b => ∃ j ∈ List.range h, a = add32 x i ∧ b = add32 y j) (List.range w)
    (fun s hs i _ => foldlM_draws (fun s j => ssd1309_draw_pixel s (add32 x i) (add32 y j))
      (fun j a b => a = add32 x i ∧ b = add32 y j) (List.range h)
      (fun t ht j _ => draw_pixel_draws ht (add32 x i) (add32 y j)) hs) hv
  refine ⟨q, hq, draws_congr hd ?_⟩
  intro a b _ _
  constructor
  · rintro ⟨i, hi, j, hj, ha, hb⟩
    exact ⟨i, j, List.mem_range.1 hi, List.mem_range.1 hj, ha, hb⟩
  · rintro ⟨i, j, hi, hj, ha, hb⟩
    exact ⟨i, List.mem_range.2 hi, j, List.mem_range.2 hj, ha, hb⟩

/-- The `uint32_t` sum `x + pos + off` of an unsigned and a signed offset. -/
theorem add32_offset (x pos : Nat) (off : Int) :
    ((add32 (add32 x pos) (toU32 off) : Nat) : Int) =
      ((x : Int) + (pos : Int) + off) % 4294967296 := by
  unfold add32 toU32
  omega

/-- The `uint32_t` value `x + (pos + off) * scale + i`. -/
theorem add32_scaled (x pos scale i : Nat) (off : Int) :
    ((add32 (add32 x (mul32 (toU32 ((pos : Int) + off)) scale)) i : Nat) : Int) =
      ((x : Int) + ((pos : Int) + off) * (scale : Int) + (i : Int)) % 4294967296 := by
  have h1 : ((toU32 ((pos : Int) + off) : Nat) : Int) = ((pos : Int) + off) % 4294967296 := by
    unfold toU32
    omega
  have h2 : ((mul32 (toU32 ((pos : Int) + off)) scale : Nat) : Int) =
      (((pos : Int) + off) * (scale : Int)) % 4294967296 := by
    unfold mul32
    push_cast
    rw [h1, Int.mul_emod, Int.emod_emod_of_dvd _ (dvd_refl _), ← Int.mul_emod]
  unfold add32
  push_cast
  rw [h2]
  omega

theorem glyph_byte_index_lt {g : GFXglyph} {n col row : Nat}
    (hb : g.bitmapOffset + (g.width * g.height + 7) / 8 ≤ n) (hc : col < g.width)
    (hr : row < g.height) : g.bitmapOffset + (row * g.width + col) / 8 < n := by
  have h1 : row * g.width + col < g.width * g.height := by
    have : (row + 1) * g.width ≤ g.height * g.width := Nat.mul_le_mul_right _ hr
    have h3 : (row + 1) * g.width = row * g.width + g.width := by ring
    have h4 : g.height * g.width = g.width * g.height := Nat.mul_comm _ _
    omega
  omega

/-- One iteration of the inner loop of `ssd1309_draw_char_with_font`. -/
theorem draw_char_bit_draws {p : ssd1309_t} (hv : valid p) (x y scale : Nat) (font : GFXfont)
    (g : GFXglyph) {col row : Nat}
    (hi : g.bitmapOffset + (row * g.width + col) / 8 < font.bitmap.length) :
    ∃ q, draw_char_bit p x y scale g font.bitmap col row = some q ∧
      Draws (fun a b => glyph_bit font g col row = true ∧
        glyph_pixels x y scale g col row a b) p q := by
  have hget : font.bitmap[g.bitmapOffset + (row * g.width + col) / 8]? =
      some (font.bitmap.getD (g.bitmapOffset + (row * g.width + col) / 8) 0) := by
    rw [List.getD_eq_getElem?_getD, List.getElem?_eq_getElem hi]
    rfl
  unfold draw_char_bit
  rw [hget]
  simp only [and_one_shiftLeft_ne_zero]
  by_cases hbit : glyph_bit font g col row = true
  · have hbit2 : (font.bitmap.getD (g.bitmapOffset + (row * g.width + col) / 8) 0).testBit
        (7 - (row * g.width + col) % 8) = true := hbit
    rw [if_pos hbit2]
    by_cases hs : scale = 1
    · rw [if_pos hs]
      obtain ⟨q, hq, hd⟩ := draw_pixel_draws hv (add32 (add32 x col) (toU32 g.xOffset))
        (add32 (add32 y row) (toU32 g.yOffset))
      refine ⟨q, hq, draws_congr hd ?_⟩
      intro a b _ _
      simp only [glyph_pixels, if_pos hs, hbit, true_and]
      rw [← add32_offset, ← add32_offset]
      constructor
      · rintro ⟨h1, h2⟩
        exact ⟨by rw [h1], by rw [h2]⟩
      · rintro ⟨h1, h2⟩
        exact ⟨by exact_mod_cast h1, by exact_mod_cast h2⟩
    · rw [if_neg hs]
      obtain ⟨q, hq, hd⟩ := draw_square_draws_wrap hv
        (add32 x (mul32 (toU32 ((col : Int) + g.xOffset)) scale))
        (add32 y (mul32 (toU32 ((row : Int) + g.yOffset)) scale)) scale scale
      refine ⟨q, hq, draws_congr hd ?_⟩
      intro a b _ _
      simp only [glyph_pixels, if_neg hs, hbit, true_and]
      constructor
      · rintro ⟨i, j, h1, h2, h3, h4⟩
        refine ⟨i, j, h1, h2, ?_, ?_⟩
        · rw [← add32_scaled, h3]
        · rw [← add32_scaled, h4]
      · rintro ⟨i, j, h1, h2, h3, h4⟩
        refine ⟨i, j, h1, h2, ?_, ?_⟩
        · rw [← add32_scaled] at h3
          exact_mod_cast h3
        · rw [← add32_scaled] at h4
          exact_mod_cast h4
  · have hbit2 : ¬ (font.bitmap.getD (g.bitmapOffset + (row * g.width + col) / 8) 0).testBit
        (7 - (row * g.width + col) % 8) = true := hbit
    rw [if_neg hbit2]
    refine ⟨p, rfl, draws_congr (draws_refl hv) ?_⟩
    intro a b _ _
    simp [hbit]

/-- `ssd1309_draw_char_with_font` for a character of the font's range: the
returned advance and the pixel set. -/
theorem draw_char_draws {p : ssd1309_t} (hv : valid p) (x y scale : Nat) (font : GFXfont)
    (c : Int) (g : GFXglyph) (hc1 : (font.first : Int) ≤ c) (hc2 : c ≤ (font.last : Int))
    (hc3 : c ≤ 255) (hg : font.glyph[(c - (font.first : Int)).toNat]? = some g)
    (hb : g.bitmapOffset + (g.width * g.height + 7) / 8 ≤ font.bitmap.length) :
    ∃ q, ssd1309_draw_char_with_font p x y scale font c = some (q, g.xAdvance) ∧
      Draws (fun a b => ∃ col row, col < g.width ∧ row < g.height ∧
        glyph_bit font g col row = true ∧ glyph_pixels x y scale g col row a b) p q := by
  obtain ⟨q, hq, hd⟩ := foldlM_draws
    (fun s col => (List.range g.height).foldlM
      (fun s row => draw_char_bit s x y scale g font.bitmap col row) s)
    (fun col a b => ∃ row ∈ List.range g.height, glyph_bit font g col row = true ∧
      glyph_pixels x y scale g col row a b) (List.range g.width)
    (fun s hs col hcol => foldlM_draws
      (fun s row => draw_char_bit s x y scale g font.bitmap col row)
      (fun row a b => glyph_bit font g col row = true ∧ glyph_pixels x y scale g col row a b)
      (List.range g.height)
      (fun t ht row hrow => draw_char_bit_draws ht x y scale font g
        (glyph_byte_index_lt hb (List.mem_range.1 hcol) (List.mem_range.1 hrow))) hs) hv
  refine ⟨q, ?_, draws_congr hd ?_⟩
  · have hn : ¬ (c < (font.first : Int) ∨ c > (font.last : Int)) := by omega
    have hm : c % 256 = c := Int.emod_eq_of_lt (by omega) (by omega)
    have hn2 : ¬ (c - (font.first : Int) < 0) := by omega
    simp only [ssd1309_draw_char_with_font, if_neg hn, hm, if_neg hn2, hg]
    rw [hq]
    rfl
  · intro a b _ _
    constructor
    · rintro ⟨col, hcol, row, hrow, h1, h2⟩
      exact ⟨col, row, List.mem_range.1 hcol, List.mem_range.1 hrow, h1, h2⟩
    · rintro ⟨col, row, hcol, hrow, h1, h2⟩
      exact ⟨col, List.mem_range.2 hcol, row, List.mem_range.2 hrow, h1, h2⟩

/-- C11: for a character `c` of the font's range with glyph
`g = font.glyph[c - font.first]` whose bits the bitmap blob holds,
`ssd1309_draw_char_with_font(x, y, scale, font, c)` returns `g.xAdvance` (not
multiplied by `scale`), and afterwards a pixel is set exactly when it was set
before or is an in-range pixel of `glyph_pixels` for some position
`(col, row)`, `col < g.width`, `row < g.height`, whose bit `row * g.width + col`
(`glyph_bit`: MSB-first, counted from `g.bitmapOffset`) is 1: the single pixel
`(x+col+xOffset, y+row+yOffset)` when `scale = 1`, otherwise the
`scale x scale` block at `(x+(col+xOffset)*scale, y+(row+yOffset)*scale)`, with
coordinates modulo `2^32`. -/
theorem draw_char_renders (p : ssd1309_t) (x y scale : Nat) (font : GFXfont) (c : Int)
    (g : GFXglyph) (hv : valid p) (hc1 : (font.first : Int) ≤ c) (hc2 : c ≤ (font.last : Int))
    (hc3 : c ≤ 255) (hg : font.glyph[(c - (font.first : Int)).toNat]? = some g)
    (hb : g.bitmapOffset + (g.width * g.height + 7) / 8 ≤ font.bitmap.length) :
    ∃ q, ssd1309_draw_char_with_font p x y scale font c = some (q, g.xAdvance) ∧
      valid q ∧ sameDims p q ∧
      ∀ a b, pixel q a b = true ↔
        (pixel p a b = true ∨
          ((∃ col row, col < g.width ∧ row < g.height ∧ glyph_bit font g col row = true ∧
              glyph_pixels x y scale g col row a b) ∧
            a < p.width ∧ b < p.height)) := by
  obtain ⟨q, hq, hvq, hd, hp⟩ := draw_char_draws hv x y scale font c g hc1 hc2 hc3 hg hb
  exact ⟨q, hq, hvq, hd, hp⟩

/-- C11 for the glyph `'A'` (bits `101` / `010`) of `tinyFont` drawn at `(2, 1)`
with scale 1 on the blank 16 x 8 display: the advance is 4 and exactly the
pixels `(2,1)`, `(4,1)`, `(3,2)` are set. -/
theorem draw_char_renders_witness :
    ∃ q, ssd1309_draw_char_with_font blank16x8 2 1 1 tinyFont 65 = some (q, 4) ∧
      ∀ a b, pixel q a b = true ↔ ((a = 2 ∧ b = 1) ∨ (a = 4 ∧ b = 1) ∨ (a = 3 ∧ b = 2)) := by
  obtain ⟨q, hq, _, _, hp⟩ := draw_char_renders blank16x8 2 1 1 tinyFont 65
    { bitmapOffset := 0, width := 3, height := 2, xAdvance := 4, xOffset := 0, yOffset := 0 }
    (by decide) (by decide) (by decide) (by decide) (by decide) (by decide)
  refine ⟨q, hq, ?_⟩
  intro a b
  rw [hp, pixel_blank16x8]
  constructor
  · rintro (h | ⟨⟨col, row, hc, hr, hbit, hpix⟩, _, _⟩)
    · exact absurd h (by simp)
    · simp only [glyph_pixels, if_true] at hpix
      simp only at hc hr
      interval_cases col <;> interval_cases row <;> first
        | (exfalso; revert hbit; decide)
        | omega
  · intro h
    right
    simp only [blank16x8]
    rcases h with ⟨rfl, rfl⟩ | ⟨rfl, rfl⟩ | ⟨rfl, rfl⟩
    · exact ⟨⟨0, 0, by decide, by decide, by decide, by norm_num [glyph_pixels]⟩, by decide,
        by decide⟩
    · exact ⟨⟨2, 0, by decide, by decide, by decide, by norm_num [glyph_pixels]⟩, by decide,
        by decide⟩
    · exact ⟨⟨1, 1, by decide, by decide, by decide, by norm_num [glyph_pixels]⟩, by decide,
        by decide⟩

/-- `ssd1309_draw_char_with_font` returns for every `char` value when the font
data are well formed. -/
theorem draw_char_total {p : ssd1309_t} (hv : valid p) (x y scale : Nat) {font : GFXfont}
    (hf : fontOK font) {c : Int} (hc : c ≤ 255) :
    ∃ q adv, ssd1309_draw_char_with_font p x y scale font c = some (q, adv) ∧ valid q ∧
      sameDims p q := by
  by_cases hr : c < (font.first : Int) ∨ c > (font.last : Int)
  · refine ⟨p, 0, ?_, hv, ⟨rfl, rfl, rfl, rfl⟩⟩
    simp only [ssd1309_draw_char_with_font, if_pos hr]
  · obtain ⟨_, hlen, _, hgl⟩ := hf
    have hidx : (c - (font.first : Int)).toNat < font.glyph.length := by omega
    have hg : font.glyph[(c - (font.first : Int)).toNat]? =
        some (font.glyph[(c - (font.first : Int)).toNat]) := List.getElem?_eq_getElem hidx
    obtain ⟨q, hq, hvq, hd, _⟩ := draw_char_draws hv x y scale font c _ (by omega) (by omega) hc hg
      (hgl _ (List.getElem_mem _)).2.2.2
    exact ⟨q, _, hq, hvq, hd⟩

theorem draw_string_loop_total (x_n y scale : Nat) {font : GFXfont} (hf : fontOK font)
    (s : List Int) (hs : ∀ c ∈ s, c ≤ 255) {p : ssd1309_t} (hv : valid p) :
    ∃ q, draw_string_loop p x_n y scale font s = some q ∧ valid q ∧ sameDims p q := by
  induction s generalizing p x_n with
  | nil => exact ⟨p, rfl, hv, ⟨rfl, rfl, rfl, rfl⟩⟩
  | cons c s ih =>
    obtain ⟨t, adv, ht, hvt, hdt⟩ := draw_char_total hv x_n y scale hf
      (hs c (List.mem_cons_self c s))
    obtain ⟨q, hq, hvq, hdq⟩ := ih ((x_n + mul32 adv scale) % 256)
      (fun d hd => hs d (List.mem_cons_of_mem c hd)) hvt
    refine ⟨q, ?_, hvq, ⟨hdq.1.trans hdt.1, hdq.2.1.trans hdt.2.1, hdq.2.2.1.trans hdt.2.2.1,
      hdq.2.2.2.trans hdt.2.2.2⟩⟩
    simp only [draw_string_loop, ht]
    exact hq

/-- The 8-bit cursor of the loop is `(x + scale * sum) mod 256`, `sum` being the
sum of the advances returned so far. -/
theorem draw_string_loop_eq (x y scale : Nat) (font : GFXfont) (s : List Int) (sum : Nat)
    (p : ssd1309_t) :
    draw_string_loop p ((x + scale * sum) % 256) y scale font s =
      draw_chars_at p x y scale font sum s := by
  induction s generalizing p sum with
  | nil => rfl
  | cons c s ih =>
    simp only [draw_string_loop, draw_chars_at]
    cases hch : ssd1309_draw_char_with_font p ((x + scale * sum) % 256) y scale font c with
    | none => rfl
    | some r =>
      obtain ⟨q, adv⟩ := r
      simp only
      have hcur : ((x + scale * sum) % 256 + mul32 adv scale) % 256 =
          (x + scale * (sum + adv)) % 256 := by
        have h1 : scale * (sum + adv) = scale * sum + adv * scale := by ring
        unfold mul32
        rw [h1]
        omega
      rw [hcur]
      exact ih (sum + adv) q

/-- C12: `ssd1309_draw_string_with_font` is the left-to-right drawing of the
characters by `ssd1309_draw_char_with_font` at row `y`, the k-th character at
x-cursor `(x + scale * (sum of the values returned for characters 0..k-1)) mod 256`
(`draw_chars_at`), so the cursor, its initial value `x` included, is cut to 8
bits; and on a valid display with well-formed font data it returns a display. -/
theorem draw_string_cursor (p : ssd1309_t) (x y scale : Nat) (font : GFXfont) (s : List Int) :
    ssd1309_draw_string_with_font p x y scale font s = draw_chars_at p x y scale font 0 s ∧
    (valid p → fontOK font → (∀ c ∈ s, c ≤ 255) →
      ∃ q, ssd1309_draw_string_with_font p x y scale font s = some q ∧ valid q ∧
        sameDims p q) := by
  constructor
  · have h := draw_string_loop_eq x y scale font s 0 p
    simp only [Nat.mul_zero, Nat.add_zero] at h
    exact h
  · intro hv hf hs
    exact draw_string_loop_total (x % 256) y scale hf s hs hv

/-- C12 for the string `"ABA"` drawn at `(250, 1)` with `tinyFont`, scale 1, on
the blank 16 x 8 display: the second and third cursor are `254` and
`(250 + 4 + 3) mod 256 = 1`. -/
theorem draw_string_cursor_witness :
    ssd1309_draw_string_with_font blank16x8 250 1 1 tinyFont [65, 66, 65] =
      draw_chars_at blank16x8 250 1 1 tinyFont 0 [65, 66, 65] ∧
    ∃ q, ssd1309_draw_string_with_font blank16x8 250 1 1 tinyFont [65, 66, 65] = some q ∧
      valid q ∧ sameDims blank16x8 q :=
  ⟨(draw_string_cursor blank16x8 250 1 1 tinyFont [65, 66, 65]).1,
    (draw_string_cursor blank16x8 250 1 1 tinyFont [65, 66, 65]).2 (by decide) (by decide)
      (by decide)⟩

/-- C13 fails on the code: the assignment `size.height = font.yAdvance` stands
inside the loop over the characters, so for the empty string the function
returns the initial value `{0, 0}`; for `tinyFont`, whose line advance is 8, the
height is 0 and not 8. -/
theorem get_string_size_empty :
    (∀ font : GFXfont,
      ssd1309_get_string_size_with_font font [] = some { width := 0, height := 0 }) ∧
    tinyFont.yAdvance = 8 ∧
    ssd1309_get_string_size_with_font tinyFont [] ≠
      some { width := 0, height := tinyFont.yAdvance } := by
  refine ⟨fun _ => rfl, rfl, by decide⟩

theorem xor_low_bits (b : Nat) : b ^^^ (b &&& 3) = b - b % 4 := by
  have h3 : b &&& 3 = b % 2 ^ 2 := Nat.and_pow_two_sub_one_eq_mod b 2
  have h4 : b - b % 4 = (b >>> 2) <<< 2 := by
    rw [Nat.shiftRight_eq_div_pow, Nat.shiftLeft_eq]
    omega
  rw [h3, h4]
  apply Nat.eq_of_testBit_eq
  intro i
  rw [Nat.testBit_xor, Nat.testBit_mod_two_pow, Nat.testBit_shiftLeft, Nat.testBit_shiftRight]
  by_cases hi : i < 2
  · have : ¬ i ≥ 2 := by omega
    simp [hi, this]
  · have h2 : i ≥ 2 := by omega
    have h5 : 2 + (i - 2) = i := by omega
    simp [hi, h2, h5]

theorem toU32_natCast {n : Nat} (h : n < 4294967296) : toU32 (n : Int) = n := by
  unfold toU32
  omega

/-- The first stage of the stride, `w / 8 + (w & 7 ? 1 : 0)`, is `ceil(w / 8)`. -/
theorem bytes_per_line_stage1 {w : Nat} (hw : w < 2147483648) :
    toU32 (Int.tdiv (w : Int) 8 + (if toU32 (w : Int) &&& 7 ≠ 0 then 1 else 0)) = (w + 7) / 8 := by
  rw [toU32_natCast (by omega), and7]
  have htd : Int.tdiv (w : Int) 8 = ((w / 8 : Nat) : Int) := by
    rw [Int.tdiv_eq_ediv (by omega) (by omega)]
    norm_cast
  rw [htd]
  by_cases h : w % 8 ≠ 0
  · rw [if_pos h]
    unfold toU32
    omega
  · rw [if_neg h]
    unfold toU32
    omega

theorem bmp_bytes_per_line_eq {w : Nat} (hw : w < 2147483648) :
    bmp_bytes_per_line (w : Int) = 4 * (((w + 7) / 8 + 3) / 4) := by
  unfold bmp_bytes_per_line
  rw [bytes_per_line_stage1 hw, xor_low_bits]
  have h3 : (w + 7) / 8 &&& 3 = (w + 7) / 8 % 4 := Nat.and_pow_two_sub_one_eq_mod _ 2
  rw [h3]
  by_cases h : (w + 7) / 8 % 4 ≠ 0
  · rw [if_pos h]
    unfold add32
    omega
  · rw [if_neg h]
    omega

/-- C18: for every image width `w >= 0` (an `int32_t`), the row stride computed
in lines 595-597, `w / 8 + (w & 7 ? 1 : 0)` followed by `(b ^ (b & 3)) + 4` when
`b & 3 != 0`, is `ceil(w / 8)` rounded up to the next multiple of 4, that is
`4 * ceil(ceil(w / 8) / 4)`; its first stage is `ceil(w / 8)`, and the stride is
`ceil(w / 8)` itself when that is a multiple of 4. -/
theorem bmp_row_stride (w : Nat) (hw : w < 2147483648) :
    bmp_bytes_per_line (w : Int) = 4 * (((w + 7) / 8 + 3) / 4) ∧
    toU32 (Int.tdiv (w : Int) 8 + (if toU32 (w : Int) &&& 7 ≠ 0 then 1 else 0)) = (w + 7) / 8 ∧
    (w + 7) / 8 ≤ bmp_bytes_per_line (w : Int) ∧
    bmp_bytes_per_line (w : Int) < (w + 7) / 8 + 4 ∧
    bmp_bytes_per_line (w : Int) % 4 = 0 ∧
    ((w + 7) / 8 % 4 = 0 → bmp_bytes_per_line (w : Int) = (w + 7) / 8) := by
  have h := bmp_bytes_per_line_eq hw
  refine ⟨h, bytes_per_line_stage1 hw, ?_, ?_, ?_, ?_⟩ <;> omega

/-- C18 for the widths 2 (stride 4) and 33 (5 bytes of pixels, stride 8). -/
theorem bmp_row_stride_witness :
    bmp_bytes_per_line 2 = 4 ∧ bmp_bytes_per_line 33 = 8 := by
  have h1 := (bmp_row_stride 2 (by decide)).1
  have h2 := (bmp_row_stride 33 (by decide)).1
  exact ⟨h1, h2⟩

theorem or_shift8 {b0 b1 : Nat} (h0 : b0 < 256) : b0 ||| (b1 <<< 8) = b0 + 256 * b1 := by
  rw [Nat.shiftLeft_eq, Nat.or_comm, Nat.mul_comm b1, ← Nat.mul_add_lt_is_or (by omega)]
  omega

theorem or_shift32 {b0 b1 b2 b3 : Nat} (h0 : b0 < 256) (h1 : b1 < 256) (h2 : b2 < 256) :
    b0 ||| (b1 <<< 8) ||| (b2 <<< 16) ||| (b3 <<< 24) =
      b0 + 256 * b1 + 65536 * b2 + 16777216 * b3 := by
  rw [or_shift8 h0]
  have e1 : b0 + 256 * b1 ||| (b2 <<< 16) = b0 + 256 * b1 + 65536 * b2 := by
    rw [Nat.shiftLeft_eq, Nat.or_comm, Nat.mul_comm b2, ← Nat.mul_add_lt_is_or (by omega)]
    omega
  rw [e1, Nat.shiftLeft_eq, Nat.or_comm, Nat.mul_comm b3, ← Nat.mul_add_lt_is_or (by omega)]
  omega

theorem getElem?_eq_getD {data : List Nat} {i : Nat} (h : i < data.length) :
    data[i]? = some (data.getD i 0) := by
  rw [List.getD_eq_getElem?_getD, List.getElem?_eq_getElem h]
  rfl

theorem getD_lt_256 {data : List Nat} (hb : ∀ b ∈ data, b < 256) (i : Nat) :
    data.getD i 0 < 256 := by
  rw [List.getD_eq_getElem?_getD]
  by_cases hi : i < data.length
  · rw [List.getElem?_eq_getElem hi]
    exact hb _ (List.getElem_mem _)
  · rw [List.getElem?_eq_none (by omega)]
    simp

/-- A 4-byte read inside a buffer of bytes is the little-endian value. -/
theorem bmp_get_val_4 {data : List Nat} (hb : ∀ b ∈ data, b < 256) {off : Nat}
    (h : off + 3 < data.length) : _ssd1309_bmp_get_val data off 4 = some (le32 data off) := by
  have g0 := getD_lt_256 hb off
  have g1 := getD_lt_256 hb (off + 1)
  have g2 := getD_lt_256 hb (off + 2)
  have g3 := getD_lt_256 hb (off + 3)
  simp only [_ssd1309_bmp_get_val, getElem?_eq_getD (by omega : off < data.length),
    getElem?_eq_getD (by omega : off + 1 < data.length),
    getElem?_eq_getD (by omega : off + 2 < data.length), getElem?_eq_getD h,
    or_shift32 g0 g1 g2, le32]
  simp only [OfNat.ofNat_ne_one, if_false, Nat.reduceEqDiff, if_true]
  congr 1
  omega

/-- A 2-byte read inside a buffer of bytes is the little-endian value. -/
theorem bmp_get_val_2 {data : List Nat} (hb : ∀ b ∈ data, b < 256) {off : Nat}
    (h : off + 1 < data.length) : _ssd1309_bmp_get_val data off 2 = some (le16 data off) := by
  have g0 := getD_lt_256 hb off
  have g1 := getD_lt_256 hb (off + 1)
  simp only [_ssd1309_bmp_get_val, getElem?_eq_getD (by omega : off < data.length),
    getElem?_eq_getD h, or_shift8 g0, le16]
  simp only [OfNat.ofNat_ne_one, if_false, if_true]
  congr 1
  omega

theorem le16_lt {data : List Nat} (hb : ∀ b ∈ data, b < 256) (off : Nat) :
    le16 data off < 65536 := by
  have g0 := getD_lt_256 hb off
  have g1 := getD_lt_256 hb (off + 1)
  unfold le16
  omega

theorem le32_lt {data : List Nat} (hb : ∀ b ∈ data, b < 256) (off : Nat) :
    le32 data off < 4294967296 := by
  have g0 := getD_lt_256 hb off
  have g1 := getD_lt_256 hb (off + 1)
  have g2 := getD_lt_256 hb (off + 2)
  have g3 := getD_lt_256 hb (off + 3)
  unfold le32
  omega

/-- The header reads and the two format checks of lines 570-581, for a buffer
of at least 54 bytes. -/
theorem bmp_show_header {data : List Nat} (hb : ∀ b ∈ data, b < 256) (hlen : 54 ≤ data.length)
    (p : ssd1309_t) {size : Int} (hsize : 54 ≤ size) (x_offset y_offset : Nat) :
    ssd1309_bmp_show_image_with_offset p data size x_offset y_offset =
      if le16 data 28 ≠ 1 then some p
      else if le32 data 30 ≠ 0 then some p
      else
        match bmp_color_val data (toI32 (add32 14 (le32 data 14))) with
        | none => none
        | some color_val =>
          bmp_draw_rows p data (le32 data 10) (toI32 (le32 data 18)) (toI32 (le32 data 22))
            (bmp_bytes_per_line (toI32 (le32 data 18))) color_val x_offset y_offset := by
  have hn : ¬ size < 54 := by omega
  simp only [ssd1309_bmp_show_image_with_offset, if_neg hn,
    bmp_get_val_4 hb (by omega : 10 + 3 < data.length),
    bmp_get_val_4 hb (by omega : 14 + 3 < data.length),
    bmp_get_val_4 hb (by omega : 18 + 3 < data.length),
    bmp_get_val_4 hb (by omega : 22 + 3 < data.length),
    bmp_get_val_2 hb (by omega : 28 + 1 < data.length),
    bmp_get_val_4 hb (by omega : 30 + 3 < data.length),
    Nat.mod_eq_of_lt (le16_lt hb 28)]

theorem shift_and_one (byte k : Nat) : (byte >>> k) &&& 1 = (byte.testBit k).toNat := by
  rw [Nat.and_one_is_mod, Nat.shiftRight_eq_div_pow, Nat.toNat_testBit]

/-- One row of the image: the inner loop of lines 605-609. -/
theorem bmp_draw_row_draws {p : ssd1309_t} (hv : valid p) (data : List Nat)
    (base count cv xo yo y : Nat) (hread : ∀ x, x < count → base + x / 8 < data.length) :
    ∃ q, bmp_draw_row p data base count cv xo yo y = some q ∧
      Draws (fun a b => ∃ x, x < count ∧
        ((data.getD (base + x / 8) 0).testBit (7 - x % 8)).toNat = cv ∧
        a = add32 xo x ∧ b = add32 yo y) p q := by
  obtain ⟨q, hq, hd⟩ := foldlM_draws
    (fun s x =>
      match data[base + (x >>> 3)]? with
      | none => none
      | some byte =>
        if (byte >>> (7 - (x &&& 7))) &&& 1 = cv then
          ssd1309_draw_pixel s (add32 xo x) (add32 yo y)
        else some s)
    (fun x a b => ((data.getD (base + x / 8) 0).testBit (7 - x % 8)).toNat = cv ∧
        a = add32 xo x ∧ b = add32 yo y) (List.range count)
    (by
      intro s hs x hx
      have h3 : x >>> 3 = x / 8 := by
        rw [Nat.shiftRight_eq_div_pow]
      have hlt := hread x (List.mem_range.1 hx)
      simp only [h3, getElem?_eq_getD hlt, and7, shift_and_one]
      by_cases hbit : ((data.getD (base + x / 8) 0).testBit (7 - x % 8)).toNat = cv
      · rw [if_pos hbit]
        obtain ⟨t, ht, hdt⟩ := draw_pixel_draws hs (add32 xo x) (add32 yo y)
        refine ⟨t, ht, draws_congr hdt ?_⟩
        intro a b _ _
        exact ⟨fun h => ⟨hbit, h⟩, fun h => h.2⟩
      · rw [if_neg hbit]
        refine ⟨s, rfl, draws_congr (draws_refl hs) ?_⟩
        intro a b _ _
        exact ⟨fun h => h.elim, fun h => hbit h.1⟩) hv
  refine ⟨q, hq, draws_congr hd ?_⟩
  intro a b _ _
  constructor
  · rintro ⟨x, hx, h1, h2, h3⟩
    exact ⟨x, List.mem_range.1 hx, h1, h2, h3⟩
  · rintro ⟨x, hx, h1, h2, h3⟩
    exact ⟨x, List.mem_range.2 hx, h1, h2, h3⟩

theorem bmp_row_count_pos {h : Nat} (h0 : 0 < h) (h1 : h < 2147483648) :
    bmp_row_count (h : Int) = h := by
  have hp : (h : Int) > 0 := by omega
  have e1 : toU32 (-1) = 4294967295 := by decide
  have e2 : toU32 ((h : Int) - 1) = h - 1 := by
    unfold toU32
    omega
  simp only [bmp_row_count, if_pos hp, e1, e2]
  unfold sub32
  omega

theorem bmp_row_y_pos {h k : Nat} (hk : k < h) (h1 : h < 2147483648) :
    bmp_row_y (h : Int) k = h - 1 - k := by
  have hp : (h : Int) > 0 := by omega
  have e1 : toU32 (-1) = 4294967295 := by decide
  have e2 : toU32 ((h : Int) - 1) = h - 1 := by
    unfold toU32
    omega
  simp only [bmp_row_y, if_pos hp, e1, e2]
  unfold add32 mul32
  omega

/-- The row loop for a positive height `h`: the stored row `k` is drawn at
`y = h - 1 - k`. -/
theorem bmp_draw_rows_pos {p : ssd1309_t} (hv : valid p) (data : List Nat)
    (off w h bpl cv xo yo : Nat) (hw : w < 2147483648) (h0 : 0 < h) (h1 : h < 2147483648)
    (hbpl : (w + 7) / 8 ≤ bpl) (hrows : off + h * bpl ≤ data.length) :
    ∃ q, bmp_draw_rows p data off (w : Int) (h : Int) bpl cv xo yo = some q ∧
      Draws (fun a b => ∃ x y, x < w ∧ y < h ∧ a = (xo + x) % 4294967296 ∧
        b = (yo + y) % 4294967296 ∧ bmp_bit data off bpl (h - 1 - y) x = cv) p q := by
  have hread : ∀ k, k < h → ∀ x, x < w → off + k * bpl + x / 8 < data.length := by
    intro k hk x hx
    have h2 : (k + 1) * bpl ≤ h * bpl := Nat.mul_le_mul_right _ hk
    have h3 : (k + 1) * bpl = k * bpl + bpl := by ring
    omega
  obtain ⟨q, hq, hd⟩ := foldlM_draws
    (fun s k =>
      bmp_draw_row s data (off + k * bpl) (toU32 (w : Int)) cv xo yo (bmp_row_y (h : Int) k))
    (fun k a b => ∃ x, x < w ∧
        ((data.getD (off + k * bpl + x / 8) 0).testBit (7 - x % 8)).toNat = cv ∧
        a = add32 xo x ∧ b = add32 yo (h - 1 - k)) (List.range h)
    (by
      intro s hs k hk
      have hk2 := List.mem_range.1 hk
      have e1 : toU32 (w : Int) = w := toU32_natCast (by omega)
      have e2 := bmp_row_y_pos hk2 h1
      simp only [e1, e2]
      exact bmp_draw_row_draws hs data (off + k * bpl) w cv xo yo (h - 1 - k) (hread k hk2)) hv
  refine ⟨q, ?_, draws_congr hd ?_⟩
  · simp only [bmp_draw_rows, bmp_row_count_pos h0 h1]
    exact hq
  · intro a b _ _
    simp only [bmp_bit, add32]
    constructor
    · rintro ⟨k, hk, x, hx, hbit, ha, hb⟩
      have hk2 := List.mem_range.1 hk
      refine ⟨x, h - 1 - k, hx, by omega, ha, hb, ?_⟩
      have e : h - 1 - (h - 1 - k) = k := by omega
      rw [e]
      exact hbit
    · rintro ⟨x, y, hx, hy, ha, hb, hbit⟩
      refine ⟨h - 1 - y, List.mem_range.2 (by omega), x, hx, hbit, ha, ?_⟩
      have e : h - 1 - (h - 1 - y) = y := by omega
      rw [e]
      exact hb

theorem bmp_entry_is_black_some (data : List Nat) (i : Nat) (h : i + 2 < data.length) :
    ∃ c, bmp_entry_is_black data (i : Int) = some c := by
  have hn : ¬ ((i : Int) < 0) := by omega
  simp only [bmp_entry_is_black, if_neg hn, Int.toNat_ofNat,
    getElem?_eq_getD (by omega : i < data.length),
    getElem?_eq_getD (by omega : i + 1 < data.length), getElem?_eq_getD h]
  exact ⟨_, rfl⟩

/-- The ink value is defined, and is 0 or 1, when the two colour-table entries
lie in the buffer. -/
theorem bmp_color_val_some (data : List Nat) (ts : Nat) (h : ts + 8 ≤ data.length) :
    ∃ ink, bmp_color_val data (ts : Int) = some ink ∧ ink ≤ 1 := by
  obtain ⟨c0, h0⟩ := bmp_entry_is_black_some data ts (by omega)
  obtain ⟨c1, h1⟩ := bmp_entry_is_black_some data (ts + 4) (by omega)
  have h1b : bmp_entry_is_black data ((ts : Int) + 4) = some c1 := by
    have : ((ts + 4 : Nat) : Int) = (ts : Int) + 4 := by omega
    rw [← this]
    exact h1
  unfold bmp_color_val
  rw [h0]
  cases c0
  · simp only [h1b]
    cases c1
    · exact ⟨0, rfl, by omega⟩
    · exact ⟨1, rfl, by omega⟩
  · exact ⟨0, rfl, by omega⟩

theorem or_eq_zero {a b : Nat} (h : a ||| b = 0) : a = 0 ∧ b = 0 := by
  have hbit : ∀ i, a.testBit i = false ∧ b.testBit i = false := by
    intro i
    have hi := congrArg (fun n => Nat.testBit n i) h
    simp only [Nat.testBit_or, Nat.zero_testBit, Bool.or_eq_false_iff] at hi
    exact hi
  constructor
  · apply Nat.eq_of_testBit_eq
    intro i
    rw [(hbit i).1, Nat.zero_testBit]
  · apply Nat.eq_of_testBit_eq
    intro i
    rw [(hbit i).2, Nat.zero_testBit]

theorem or3_eq_zero (c0 c1 c2 : Nat) :
    ((c0 <<< 16) ||| (c1 <<< 8) ||| c2) = 0 ↔ (c0 = 0 ∧ c1 = 0 ∧ c2 = 0) := by
  constructor
  · intro h
    obtain ⟨h01, h2⟩ := or_eq_zero h
    obtain ⟨h0, h1⟩ := or_eq_zero h01
    rw [Nat.shiftLeft_eq] at h0 h1
    omega
  · rintro ⟨rfl, rfl, rfl⟩
    rfl

/-- The test of line 588 is the test that the first three bytes of the entry
are all zero. -/
theorem bmp_entry_is_black_eq (data : List Nat) (i : Nat) (h : i + 2 < data.length) :
    bmp_entry_is_black data (i : Int) = some (bmp_entry_black data i) := by
  have hn : ¬ ((i : Int) < 0) := by omega
  simp only [bmp_entry_is_black, if_neg hn, Int.toNat_ofNat,
    getElem?_eq_getD (by omega : i < data.length),
    getElem?_eq_getD (by omega : i + 1 < data.length), getElem?_eq_getD h, bmp_entry_black]
  congr 1
  rw [Bool.eq_iff_iff]
  simp only [decide_eq_true_eq, Bool.and_eq_true, beq_iff_eq, or3_eq_zero]
  tauto

/-- The loop of lines 584-593 computes the index of the first black entry. -/
theorem bmp_color_val_eq (data : List Nat) (ts : Nat) (h : ts + 8 ≤ data.length) :
    bmp_color_val data (ts : Int) = some (bmp_first_black data ts) := by
  have h0 := bmp_entry_is_black_eq data ts (by omega)
  have h1 : bmp_entry_is_black data ((ts : Int) + 4) = some (bmp_entry_black data (ts + 4)) := by
    have e : ((ts + 4 : Nat) : Int) = (ts : Int) + 4 := by omega
    rw [← e]
    exact bmp_entry_is_black_eq data (ts + 4) (by omega)
  unfold bmp_color_val bmp_first_black
  rw [h0]
  cases bmp_entry_black data ts
  · simp only [h1]
    cases bmp_entry_black data (ts + 4) <;> rfl
  · rfl

/-- The table start `(int)(14 + bi_size)` of line 583 for a header size that
leaves the table inside a buffer of at most `2^31 - 1` bytes. -/
theorem table_start_eq {n len : Nat} (h : 14 + n + 8 ≤ len) (hmax : len ≤ 2147483647) :
    toI32 (add32 14 n) = ((14 + n : Nat) : Int) := by
  rw [add32_small (by omega), toI32_small (by omega)]

/-- C15: `ssd1309_bmp_show_image_with_offset` returns the display unchanged
whenever `size < 54`, or (for a buffer of `size >= 54` bytes) the 16-bit
little-endian bit depth at byte 28 is not 1 or the 32-bit little-endian
compression field at byte 30 is not 0. -/
theorem bmp_show_rejects (p : ssd1309_t) (data : List Nat) (size : Int) (x_offset y_offset : Nat)
    (h : size < 54 ∨
      ((∀ b ∈ data, b < 256) ∧ (data.length : Int) = size ∧
        (le16 data 28 ≠ 1 ∨ le32 data 30 ≠ 0))) :
    ssd1309_bmp_show_image_with_offset p data size x_offset y_offset = some p := by
  by_cases hs : size < 54
  · simp only [ssd1309_bmp_show_image_with_offset, if_pos hs]
  · rcases h with h | ⟨hb, hlen, hrej⟩
    · exact absurd h hs
    · rw [bmp_show_header hb (by omega) p (by omega)]
      by_cases hd : le16 data 28 ≠ 1
      · rw [if_pos hd]
      · rw [if_neg hd]
        rcases hrej with h1 | h1
        · exact absurd h1 hd
        · rw [if_pos h1]

/-- C15, the instance of the claim: the 1-bit 2 x 2 image `bmp2x2` with its
bit-depth field changed to 8 draws nothing. -/
theorem bmp_show_rejects_witness :
    ssd1309_bmp_show_image_with_offset blank16x8 bmp2x2_depth8 70 3 2 = some blank16x8 :=
  bmp_show_rejects blank16x8 bmp2x2_depth8 70 3 2 (by decide)

/-- The decoder on a well-formed bottom-up image: the ink value is the index of
the first black colour-table entry. -/
theorem bmp_show_draws {p : ssd1309_t} (hv : valid p) (data : List Nat) (size : Int)
    (xo yo : Nat) (hb : ∀ v ∈ data, v < 256) (hlen : (data.length : Int) = size)
    (hsize : 54 ≤ size) (hmax : size ≤ 2147483647) (hdepth : le16 data 28 = 1)
    (hcomp : le32 data 30 = 0) (hw1 : le32 data 18 < 2147483648)
    (hh0 : 0 < le32 data 22) (hh1 : le32 data 22 < 2147483648)
    (htab : 14 + le32 data 14 + 8 ≤ data.length)
    (hrows : le32 data 10 + le32 data 22 * (4 * (((le32 data 18 + 7) / 8 + 3) / 4)) ≤
      data.length) :
    ∃ q, ssd1309_bmp_show_image_with_offset p data size xo yo = some q ∧
      Draws (fun a b => ∃ x y, x < le32 data 18 ∧ y < le32 data 22 ∧
        a = (xo + x) % 4294967296 ∧ b = (yo + y) % 4294967296 ∧
        bmp_bit data (le32 data 10) (4 * (((le32 data 18 + 7) / 8 + 3) / 4))
          (le32 data 22 - 1 - y) x = bmp_first_black data (14 + le32 data 14)) p q := by
  have hink := bmp_color_val_eq data (14 + le32 data 14) htab
  have hts : toI32 (add32 14 (le32 data 14)) = ((14 + le32 data 14 : Nat) : Int) :=
    table_start_eq htab (by omega)
  have hwi : toI32 (le32 data 18) = ((le32 data 18 : Nat) : Int) := toI32_small hw1
  have hhi : toI32 (le32 data 22) = ((le32 data 22 : Nat) : Int) := toI32_small hh1
  have hbpl := bmp_bytes_per_line_eq hw1
  obtain ⟨q, hq, hd⟩ := bmp_draw_rows_pos hv data (le32 data 10) (le32 data 18) (le32 data 22)
    (4 * (((le32 data 18 + 7) / 8 + 3) / 4)) (bmp_first_black data (14 + le32 data 14)) xo yo
    hw1 hh0 hh1 (by omega) hrows
  refine ⟨q, ?_, hd⟩
  rw [bmp_show_header hb (by omega) p hsize]
  have hd1 : ¬ le16 data 28 ≠ 1 := by omega
  have hc1 : ¬ le32 data 30 ≠ 0 := by omega
  rw [if_neg hd1, if_neg hc1, hts, hink]
  simp only [hwi, hhi, hbpl]
  exact hq

/-- C16: for a well-formed 1-bit uncompressed image with width `w > 0` and
height `h > 0` (a buffer of `size` bytes holding the header fields at their
fixed offsets, the two colour-table entries from `14 + header_size` and `h`
rows of `bytes_per_row` bytes from the pixel-data offset),
`ssd1309_bmp_show_image_with_offset` returns, and afterwards a pixel is set
exactly when it was set before or is an in-range pixel
`(x_offset + x, y_offset + y)` (`uint32_t` sums) with `x < w`, `y < h` and bit
`7 - x mod 8` of byte `pixel_offset + (h-1-y) * bytes_per_row + x div 8` equal to
the ink value: the first stored row lands on the highest `y`.  The ink value is
`bmp_first_black`, spelled out in the first part: 0 if the first three bytes of
colour-table entry 0 are zero, otherwise 1 if those of entry 1 are zero,
otherwise 0. -/
theorem bmp_show_bottom_up (p : ssd1309_t) (data : List Nat) (size : Int) (xo yo w h off : Nat)
    (hv : valid p) (hb : ∀ v ∈ data, v < 256) (hlen : (data.length : Int) = size)
    (hsize : 54 ≤ size) (hmax : size ≤ 2147483647) (hdepth : le16 data 28 = 1)
    (hcomp : le32 data 30 = 0) (hoff : le32 data 10 = off)
    (hw : le32 data 18 = w) (hw0 : 0 < w) (hw1 : w < 2147483648)
    (hh : le32 data 22 = h) (hh0 : 0 < h) (hh1 : h < 2147483648)
    (htab : 14 + le32 data 14 + 8 ≤ data.length)
    (hrows : off + h * (4 * (((w + 7) / 8 + 3) / 4)) ≤ data.length) :
    bmp_first_black data (14 + le32 data 14) =
      (if data.getD (14 + le32 data 14) 0 = 0 ∧ data.getD (14 + le32 data 14 + 1) 0 = 0 ∧
          data.getD (14 + le32 data 14 + 2) 0 = 0 then 0
        else if data.getD (14 + le32 data 14 + 4) 0 = 0 ∧
          data.getD (14 + le32 data 14 + 4 + 1) 0 = 0 ∧
          data.getD (14 + le32 data 14 + 4 + 2) 0 = 0 then 1
        else 0) ∧
    ∃ q, ssd1309_bmp_show_image_with_offset p data size xo yo = some q ∧ valid q ∧
      sameDims p q ∧
      ∀ a b, pixel q a b = true ↔
        (pixel p a b = true ∨
          ((∃ x y, x < w ∧ y < h ∧ a = (xo + x) % 4294967296 ∧
              b = (yo + y) % 4294967296 ∧
              bmp_bit data off (4 * (((w + 7) / 8 + 3) / 4)) (h - 1 - y) x =
                bmp_first_black data (14 + le32 data 14)) ∧
            a < p.width ∧ b < p.height)) := by
  subst hoff hw hh
  refine ⟨?_, ?_⟩
  · simp only [bmp_first_black, bmp_entry_black, Bool.and_eq_true, beq_iff_eq, and_assoc]
  · obtain ⟨q, hq, hvq, hd, hp⟩ := bmp_show_draws hv data size xo yo hb hlen
      hsize hmax hdepth hcomp hw1 hh0 hh1 htab hrows
    exact ⟨q, hq, hvq, hd, hp⟩

theorem bmp2x2_bit (r x : Nat) (hr : r < 2) (hx : x < 2) :
    bmp_bit bmp2x2 62 4 r x = if r = x then 0 else 1 := by
  interval_cases r <;> interval_cases x <;> decide

theorem bmp2x2_white_first_bit (r x : Nat) (hr : r < 2) (hx : x < 2) :
    bmp_bit bmp2x2_white_first 62 4 r x = if r = x then 0 else 1 := by
  interval_cases r <;> interval_cases x <;> decide

/-- C16, the instance of the claim: the hand-built 2 x 2 image `bmp2x2` (black
at colour index 0, stored rows `0 1` and `1 0`) drawn at offset `(3, 2)` on the
blank 16 x 8 display sets exactly the pixels `(3, 3)` and `(4, 2)`; the same
pixel data with the colour table `{white, black}` (`bmp2x2_white_first`, ink
value 1) sets exactly the other two, `(4, 3)` and `(3, 2)`. -/
theorem bmp_show_bottom_up_witness :
    (∃ q, ssd1309_bmp_show_image_with_offset blank16x8 bmp2x2 70 3 2 = some q ∧
      ∀ a b, pixel q a b = true ↔ ((a = 3 ∧ b = 3) ∨ (a = 4 ∧ b = 2))) ∧
    (∃ q, ssd1309_bmp_show_image_with_offset blank16x8 bmp2x2_white_first 70 3 2 = some q ∧
      ∀ a b, pixel q a b = true ↔ ((a = 4 ∧ b = 3) ∨ (a = 3 ∧ b = 2))) := by
  constructor
  · obtain ⟨_, q, hq, _, _, hp⟩ := bmp_show_bottom_up blank16x8 bmp2x2 70 3 2 2 2 62
      (by decide) (by decide) (by decide) (by decide) (by decide) (by decide) (by decide)
      (by decide) (by decide) (by decide) (by decide) (by decide) (by decide) (by decide)
      (by decide) (by decide)
    have hink0 : bmp_first_black bmp2x2 (14 + le32 bmp2x2 14) = 0 := by decide
    rw [hink0] at hp
    refine ⟨q, hq, ?_⟩
    intro a b
    rw [hp, pixel_blank16x8]
    simp only [blank16x8]
    constructor
    · rintro (h | ⟨⟨x, y, hx, hy, ha, hb, hbit⟩, _, _⟩)
      · exact absurd h (by simp)
      · rw [bmp2x2_bit (2 - 1 - y) x (by omega) hx] at hbit
        by_cases he : 2 - 1 - y = x
        · omega
        · rw [if_neg he] at hbit
          exact absurd hbit (by decide)
    · rintro (⟨rfl, rfl⟩ | ⟨rfl, rfl⟩)
      · exact Or.inr ⟨⟨0, 1, by decide, by decide, by decide, by decide, by decide⟩, by decide,
          by decide⟩
      · exact Or.inr ⟨⟨1, 0, by decide, by decide, by decide, by decide, by decide⟩, by decide,
          by decide⟩
  · obtain ⟨_, q, hq, _, _, hp⟩ := bmp_show_bottom_up blank16x8 bmp2x2_white_first 70 3 2 2 2 62
      (by decide) (by decide) (by decide) (by decide) (by decide) (by decide) (by decide)
      (by decide) (by decide) (by decide) (by decide) (by decide) (by decide) (by decide)
      (by decide) (by decide)
    have hink1 : bmp_first_black bmp2x2_white_first (14 + le32 bmp2x2_white_first 14) = 1 := by
      decide
    rw [hink1] at hp
    refine ⟨q, hq, ?_⟩
    intro a b
    rw [hp, pixel_blank16x8]
    simp only [blank16x8]
    constructor
    · rintro (h | ⟨⟨x, y, hx, hy, ha, hb, hbit⟩, _, _⟩)
      · exact absurd h (by simp)
      · rw [bmp2x2_white_first_bit (2 - 1 - y) x (by omega) hx] at hbit
        by_cases he : 2 - 1 - y = x
        · rw [if_pos he] at hbit
          exact absurd hbit (by decide)
        · omega
    · rintro (⟨rfl, rfl⟩ | ⟨rfl, rfl⟩)
      · exact Or.inr ⟨⟨1, 1, by decide, by decide, by decide, by decide, by decide⟩, by decide,
          by decide⟩
      · exact Or.inr ⟨⟨0, 0, by decide, by decide, by decide, by decide, by decide⟩, by decide,
          by decide⟩

/-- A counting loop has no result when one of its iterations has none. -/
theorem foldlM_range_none {σ : Type} (body : σ → Nat → Option σ) (n k : Nat) (hk : k < n)
    (hnone : ∀ s, body s k = none) (s : σ) : (List.range n).foldlM body s = none := by
  obtain ⟨m, rfl⟩ : ∃ m, n = k + (m + 1) := ⟨n - k - 1, by omega⟩
  rw [List.range_add, List.range_succ_eq_map, List.map_cons, List.foldlM_append]
  cases h : (List.range k).foldlM body s with
  | none => rfl
  | some t =>
    simp only [Option.bind_eq_bind, Option.some_bind, List.foldlM_cons, Nat.add_zero, hnone,
      Option.none_bind]

/-- C17 fails on the code.  For the top-down image `bmp2x2_topdown` (height
field -2, two stored rows) the row loop `for (y = 0; y != border; y += 1)`
compares the `uint32_t` `y` with `border = bi_height`, that is with
`2^32 - 2`: it runs 4294967294 times, not `|height| = 2` times, and its third
run reads byte 70 of the 70-byte buffer, beyond the stored rows, so the call
has no defined result. -/
theorem bmp_show_top_down_overrun :
    toI32 (le32 bmp2x2_topdown 22) = -2 ∧ bmp_row_count (-2) = 4294967294 ∧
    bmp2x2_topdown.length = 70 ∧
    ssd1309_bmp_show_image_with_offset blank16x8 bmp2x2_topdown 70 3 2 = none := by
  refine ⟨by decide, by decide, by decide, ?_⟩
  rw [bmp_show_header (by decide) (by decide) blank16x8 (by decide)]
  have hd1 : ¬ le16 bmp2x2_topdown 28 ≠ 1 := by decide
  have hc1 : ¬ le32 bmp2x2_topdown 30 ≠ 0 := by decide
  have hcv : bmp_color_val bmp2x2_topdown (toI32 (add32 14 (le32 bmp2x2_topdown 14))) =
      some 0 := by decide
  have hh : toI32 (le32 bmp2x2_topdown 22) = -2 := by decide
  have hcount : bmp_row_count (-2) = 4294967294 := by decide
  have hbpl : bmp_bytes_per_line (toI32 (le32 bmp2x2_topdown 18)) = 4 := by decide
  have hoff : le32 bmp2x2_topdown 10 = 62 := by decide
  have hw : toU32 (toI32 (le32 bmp2x2_topdown 18)) = 2 := by decide
  rw [if_neg hd1, if_neg hc1, hcv]
  simp only [bmp_draw_rows, hh, hcount, hbpl, hoff, hw]
  apply foldlM_range_none _ 4294967294 2 (by decide)
  intro s
  rfl

theorem write_command_eq (v : Nat) : _ssd1309_write_command v = command_frame v := rfl

theorem write_data_full {data : List Nat} {size : Nat} (h : data.length = size) :
    _ssd1309_write_data data size = some (data_frame data) := by
  have hle : size ≤ data.length := by omega
  simp only [_ssd1309_write_data, if_pos hle, data_frame]
  rw [List.take_of_length_le (by omega)]

/-- The calls of `ssd1309_show` on a display whose buffer has `bufsize` bytes. -/
theorem show_calls {p : ssd1309_t} (h : p.buffer.length = p.bufsize) :
    ssd1309_show p = some (p,
      command_frame 0x21 ++ command_frame 0 ++ command_frame (toU8 ((p.width : Int) - 1)) ++
      command_frame 0x22 ++ command_frame 0 ++ command_frame (toU8 ((p.pages : Int) - 1)) ++
      data_frame p.buffer) := by
  simp only [ssd1309_show, write_data_full h, write_command_eq, SSD1309_setColumnAddress,
    SSD1309_setPageAddress]

/-- C19: on a well-formed display, `ssd1309_show` makes, in this order, the
command writes of the bytes `0x21`, `0`, `width-1`, `0x22`, `0`, `pages-1` (each a
one-byte write with the data/command line low, framed by chip-select low then
high), followed by one data write (data/command line high) whose payload is the
whole framebuffer, of length `pages * width`; these seven are its only serial
writes, and the display is returned unchanged.  The two end addresses are `int`
values converted to `uint8_t`; they are `width-1` and `pages-1` for non-zero
`width` and `pages`. -/
theorem show_transport (p : ssd1309_t) (hwf : wellFormed p) :
    (∃ calls, ssd1309_show p = some (p, calls) ∧
      calls = command_frame 0x21 ++ command_frame 0 ++
        command_frame (toU8 ((p.width : Int) - 1)) ++ command_frame 0x22 ++ command_frame 0 ++
        command_frame (toU8 ((p.pages : Int) - 1)) ++ data_frame p.buffer ∧
      spi_writes calls = [[0x21], [0], [toU8 ((p.width : Int) - 1)], [0x22], [0],
        [toU8 ((p.pages : Int) - 1)], p.buffer]) ∧
    p.buffer.length = p.pages * p.width ∧
    (1 ≤ p.width → toU8 ((p.width : Int) - 1) = p.width - 1) ∧
    (1 ≤ p.pages → toU8 ((p.pages : Int) - 1) = p.pages - 1) := by
  obtain ⟨h1, h2, h3, h4, h5, _⟩ := hwf
  refine ⟨⟨_, show_calls h5, rfl, rfl⟩, by rw [h5, h4], ?_, ?_⟩
  · intro hw
    unfold toU8
    omega
  · intro hp
    have : p.pages < 256 := by omega
    unfold toU8
    omega

/-- C19 on the blank 16 x 8 display: the end addresses are 15 and 0 and the
payload is the 16 buffer bytes. -/
theorem show_transport_witness :
    ∃ calls, ssd1309_show blank16x8 = some (blank16x8, calls) ∧
      spi_writes calls = [[0x21], [0], [15], [0x22], [0], [0], List.replicate 16 0] := by
  obtain ⟨⟨calls, h1, _, h3⟩, _⟩ := show_transport blank16x8 (by decide)
  exact ⟨calls, h1, h3⟩

/-- C20: for `width <= 255` and `height <= 255` and a successful allocation,
`ssd1309_init` returns `true`, sets `pages = height / 8` and a framebuffer of
`pages * width` zero bytes, and makes exactly these transport calls: the reset
pulse (reset low, 5 us, reset high, 10000 us), the command writes of `0xAE`,
then `0x00 0x10 0x20 0x00 0x81 0xFF 0xA6 0xA8 0x3F 0xD3 0x00 0xD5 0x80 0xD9 0x22
0xDA 0x12 0xDB 0x40 0xA4`, then `0xAF`, and the flush of `ssd1309_show`, whose
data payload is `pages * width` zero bytes. -/
theorem init_sequence (width height : Nat) (mem : List Nat) (hw : width ≤ 255)
    (hh : height ≤ 255) (hmem : mem.length = height / 8 * width) :
    ssd1309_init width height (some mem) =
      some (true,
        { width := width, height := height, pages := height / 8,
          buffer := List.replicate (height / 8 * width) 0, bufsize := height / 8 * width },
        [transport_call.pin_cb ssd1309_pin_t.SSD1309_PIN_RST false, transport_call.delay 5,
         transport_call.pin_cb ssd1309_pin_t.SSD1309_PIN_RST true, transport_call.delay 10000] ++
        [0xAE, 0x00, 0x10, 0x20, 0x00, 0x81, 0xFF, 0xA6, 0xA8, 0x3F, 0xD3, 0x00, 0xD5, 0x80,
          0xD9, 0x22, 0xDA, 0x12, 0xDB, 0x40, 0xA4, 0xAF].flatMap command_frame ++
        (command_frame 0x21 ++ command_frame 0 ++ command_frame (toU8 ((width : Int) - 1)) ++
          command_frame 0x22 ++ command_frame 0 ++
          command_frame (toU8 (((height / 8 : Nat) : Int) - 1)) ++
          data_frame (List.replicate (height / 8 * width) 0))) := by
  have e1 : width % 256 = width := Nat.mod_eq_of_lt (by omega)
  have e2 : height % 256 = height := Nat.mod_eq_of_lt (by omega)
  have e3 : height / 8 % 256 = height / 8 := Nat.mod_eq_of_lt (by omega)
  have hclear : ssd1309_clear
      { width := width, height := height, pages := height / 8, buffer := mem,
        bufsize := height / 8 * width } =
      some { width := width, height := height, pages := height / 8,
             buffer := List.replicate (height / 8 * width) 0,
             bufsize := height / 8 * width } := by
    have hle : height / 8 * width ≤ mem.length := by omega
    simp only [ssd1309_clear, if_pos hle]
    rw [List.drop_of_length_le (by omega), List.append_nil]
  have hshow := show_calls
    (p := { width := width, height := height, pages := height / 8,
            buffer := List.replicate (height / 8 * width) 0,
            bufsize := height / 8 * width })
    (List.length_replicate _ _)
  simp only [ssd1309_init, e1, e2, e3, hclear, hshow]
  rfl

/-- C20 for a 128 x 64 display: 8 pages, a framebuffer of 1024 zero bytes, and
the end addresses 127 and 7 in the flush. -/
theorem init_sequence_witness :
    ∃ calls, ssd1309_init 128 64 (some (List.replicate 1024 170)) =
        some (true, blank128x64, calls) ∧
      spi_writes calls =
        [[0xAE], [0x00], [0x10], [0x20], [0x00], [0x81], [0xFF], [0xA6], [0xA8], [0x3F],
         [0xD3], [0x00], [0xD5], [0x80], [0xD9], [0x22], [0xDA], [0x12], [0xDB], [0x40],
         [0xA4], [0xAF], [0x21], [0], [127], [0x22], [0], [7], List.replicate 1024 0] :=
  ⟨_, init_sequence 128 64 (List.replicate 1024 170) (by decide) (by decide)
    (List.length_replicate _ _), rfl⟩

/-- C21: for a buffer of `size` bytes that passes the size, bit-depth and
compression checks and holds the two 4-byte colour-table entries from byte
`14 + header_size`, the ink value `color_val` that
`ssd1309_bmp_show_image_with_offset` computes is `bmp_first_black`, the index of
the first of the two entries whose first three bytes are all zero (0 if entry 0
is black, otherwise 1 if entry 1 is black, and 0 when neither is), and the call
is the row loop run with that ink value. -/
theorem bmp_ink_value (p : ssd1309_t) (data : List Nat) (size : Int) (x_offset y_offset : Nat)
    (hb : ∀ v ∈ data, v < 256) (hlen : (data.length : Int) = size) (hsize : 54 ≤ size)
    (hmax : size ≤ 2147483647) (hdepth : le16 data 28 = 1) (hcomp : le32 data 30 = 0)
    (htab : 14 + le32 data 14 + 8 ≤ data.length) :
    bmp_color_val data (toI32 (add32 14 (le32 data 14))) =
      some (bmp_first_black data (14 + le32 data 14)) ∧
    bmp_first_black data (14 + le32 data 14) =
      (if data.getD (14 + le32 data 14) 0 = 0 ∧ data.getD (14 + le32 data 14 + 1) 0 = 0 ∧
          data.getD (14 + le32 data 14 + 2) 0 = 0 then 0
        else if data.getD (14 + le32 data 14 + 4) 0 = 0 ∧
          data.getD (14 + le32 data 14 + 4 + 1) 0 = 0 ∧
          data.getD (14 + le32 data 14 + 4 + 2) 0 = 0 then 1
        else 0) ∧
    ssd1309_bmp_show_image_with_offset p data size x_offset y_offset =
      bmp_draw_rows p data (le32 data 10) (toI32 (le32 data 18)) (toI32 (le32 data 22))
        (bmp_bytes_per_line (toI32 (le32 data 18))) (bmp_first_black data (14 + le32 data 14))
        x_offset y_offset := by
  have hcv : bmp_color_val data (toI32 (add32 14 (le32 data 14))) =
      some (bmp_first_black data (14 + le32 data 14)) := by
    rw [table_start_eq htab (by omega)]
    exact bmp_color_val_eq data (14 + le32 data 14) htab
  refine ⟨hcv, ?_, ?_⟩
  · simp only [bmp_first_black, bmp_entry_black, Bool.and_eq_true, beq_iff_eq, and_assoc]
  · rw [bmp_show_header hb (by omega) p hsize, if_neg (by omega), if_neg (by omega), hcv]

/-- C21 for three colour tables of the 2 x 2 image: `{white, black}` gives the
ink value 1 (the theorem at `bmp2x2_white_first`), `{black, white}` gives 0 and
`{red, white}`, where neither entry is black, gives 0. -/
theorem bmp_ink_value_witness :
    (bmp_color_val bmp2x2_white_first (toI32 (add32 14 (le32 bmp2x2_white_first 14))) =
        some (bmp_first_black bmp2x2_white_first (14 + le32 bmp2x2_white_first 14)) ∧
      bmp_first_black bmp2x2_white_first (14 + le32 bmp2x2_white_first 14) =
        (if bmp2x2_white_first.getD (14 + le32 bmp2x2_white_first 14) 0 = 0 ∧
            bmp2x2_white_first.getD (14 + le32 bmp2x2_white_first 14 + 1) 0 = 0 ∧
            bmp2x2_white_first.getD (14 + le32 bmp2x2_white_first 14 + 2) 0 = 0 then 0
          else if bmp2x2_white_first.getD (14 + le32 bmp2x2_white_first 14 + 4) 0 = 0 ∧
            bmp2x2_white_first.getD (14 + le32 bmp2x2_white_first 14 + 4 + 1) 0 = 0 ∧
            bmp2x2_white_first.getD (14 + le32 bmp2x2_white_first 14 + 4 + 2) 0 = 0 then 1
          else 0) ∧
      ssd1309_bmp_show_image_with_offset blank16x8 bmp2x2_white_first 70 3 2 =
        bmp_draw_rows blank16x8 bmp2x2_white_first (le32 bmp2x2_white_first 10)
          (toI32 (le32 bmp2x2_white_first 18)) (toI32 (le32 bmp2x2_white_first 22))
          (bmp_bytes_per_line (toI32 (le32 bmp2x2_white_first 18)))
          (bmp_first_black bmp2x2_white_first (14 + le32 bmp2x2_white_first 14)) 3 2) ∧
    bmp_first_black bmp2x2_white_first 54 = 1 ∧
    bmp_color_val bmp2x2_white_first 54 = some 1 ∧
    bmp_color_val bmp2x2 54 = some 0 ∧
    bmp_color_val bmp2x2_no_black 54 = some 0 :=
  ⟨bmp_ink_value blank16x8 bmp2x2_white_first 70 3 2 (by decide) (by decide) (by decide)
    (by decide) (by decide) (by decide) (by decide), by decide, by decide, by decide, by decide⟩

theorem mem_square_calls_wrap (x y w h a b : Nat) :
    (a, b) ∈ square_calls x y w h ↔
      ∃ i, i < w ∧ ∃ j, j < h ∧ add32 x i = a ∧ add32 y j = b := by
  simp only [square_calls, List.mem_flatMap, List.mem_map, List.mem_range, Prod.mk.injEq]

/-- The loops of `ssd1309_invert_square` visit no coordinate twice, also when
`x + i` or `y + j` wraps around. -/
theorem nodup_square_calls_wrap (x y : Nat) {w h : Nat} (hw : w ≤ 4294967296)
    (hh : h ≤ 4294967296) : (square_calls x y w h).Nodup := by
  unfold square_calls
  rw [List.nodup_flatMap]
  constructor
  · intro i _
    apply List.Nodup.map_on _ (List.nodup_range h)
    intro j hj j2 hj2 he
    rw [List.mem_range] at hj hj2
    have := (Prod.mk.inj he).2
    unfold add32 at this
    omega
  · apply List.Pairwise.imp_of_mem _ (List.pairwise_lt_range w)
    intro i i2 hi hi2 hlt
    rw [List.mem_range] at hi hi2
    intro c hc hc2
    simp only [List.mem_map, List.mem_range] at hc hc2
    obtain ⟨j, _, rfl⟩ := hc
    obtain ⟨j2, _, he⟩ := hc2
    have := (Prod.mk.inj he).1
    unfold add32 at this
    omega

/-- The coordinates `(X - 1) + i`, `i < W + 1`, in `uint32_t` arithmetic: the
integers of `[X - 1, X + W)`, where `-1` is `2^32 - 1`. -/
theorem cursor_span {X W a : Nat} (h : X + W < 4294967296) (ha : a < 4294967295) :
    (∃ i, i < W + 1 ∧ add32 (sub32 X 1) i = a) ↔ (X ≤ a + 1 ∧ a < X + W) := by
  unfold add32 sub32
  constructor
  · rintro ⟨i, hi, he⟩
    omega
  · intro hr
    refine ⟨a + 1 - X, by omega, ?_⟩
    omega

/-- The block cursor: `ssd1309_invert_square(x - 1, y - 1, width + 1, height + 1)`
flips the in-range pixels of `[X - 1, X + W) x [Y - 1, Y + H)`, where
`X = 6 * scale * x`, `W = 6 * scale`, `Y = 8 * scale * y`, `H = 8 * scale`. -/
theorem cursor_block_flips {p : ssd1309_t} (hv : valid p) (x y scale : Nat)
    (hx : 6 * scale * x + 6 * scale < 4294967296)
    (hy : 8 * scale * y + 8 * scale < 4294967296) :
    ∃ q, ssd1309_cursor p x y scale cursor_type.CURSOR_BLOCK = some q ∧ valid q ∧
      sameDims p q ∧
      ∀ a b, pixel q a b =
        xor (pixel p a b)
          (decide (6 * scale * x ≤ a + 1 ∧ a < 6 * scale * x + 6 * scale ∧
            8 * scale * y ≤ b + 1 ∧ b < 8 * scale * y + 8 * scale ∧
            a < p.width ∧ b < p.height)) := by
  have eW : mul32 6 scale = 6 * scale := by unfold mul32; omega
  have eH : mul32 8 scale = 8 * scale := by unfold mul32; omega
  have eX : mul32 (6 * scale) x = 6 * scale * x := by
    unfold mul32; exact Nat.mod_eq_of_lt (by omega)
  have eY : mul32 (8 * scale) y = 8 * scale * y := by
    unfold mul32; exact Nat.mod_eq_of_lt (by omega)
  have eW1 : add32 (6 * scale) 1 = 6 * scale + 1 := add32_small (by omega)
  have eH1 : add32 (8 * scale) 1 = 8 * scale + 1 := add32_small (by omega)
  have hcall : ssd1309_cursor p x y scale cursor_type.CURSOR_BLOCK =
      ssd1309_invert_square p (sub32 (6 * scale * x) 1) (sub32 (8 * scale * y) 1)
        (6 * scale + 1) (8 * scale + 1) := by
    simp only [ssd1309_cursor, _ssd1309_get_char_position_size, eW, eH, eX, eY, eW1, eH1]
  obtain ⟨q, hq, hvq, hd, hp⟩ := foldlM_invert_nodup _
    (nodup_square_calls_wrap (sub32 (6 * scale * x) 1) (sub32 (8 * scale * y) 1)
      (by omega : 6 * scale + 1 ≤ 4294967296) (by omega : 8 * scale + 1 ≤ 4294967296)) hv
  refine ⟨q, by rw [hcall, invert_square_calls]; exact hq, hvq, hd, ?_⟩
  intro a b
  rw [hp]
  congr 1
  rw [decide_eq_decide, mem_square_calls_wrap]
  have hw := hv.1.1
  have hh := hv.1.2.1
  constructor
  · rintro ⟨⟨i, hi, j, hj, hia, hjb⟩, ha, hb⟩
    have h1 := (cursor_span hx (by omega : a < 4294967295)).1 ⟨i, hi, hia⟩
    have h2 := (cursor_span hy (by omega : b < 4294967295)).1 ⟨j, hj, hjb⟩
    exact ⟨h1.1, h1.2, h2.1, h2.2, ha, hb⟩
  · rintro ⟨h1, h2, h3, h4, ha, hb⟩
    obtain ⟨i, hi, hia⟩ := (cursor_span hx (by omega : a < 4294967295)).2 ⟨h1, h2⟩
    obtain ⟨j, hj, hjb⟩ := (cursor_span hy (by omega : b < 4294967295)).2 ⟨h3, h4⟩
    exact ⟨⟨i, hi, j, hj, hia, hjb⟩, ha, hb⟩

/-- C22 (amended): for every cell position `(x_cell, y_cell)` and scale with
`6*scale*x_cell + 6*scale` and `8*scale*y_cell + 8*scale` below `2^32`,
`ssd1309_cursor` with kind `CURSOR_BLOCK` is the call
`ssd1309_invert_square(X - 1, Y - 1, 6*scale + 1, 8*scale + 1)`,
`X = 6*scale*x_cell`, `Y = 8*scale*y_cell`; it returns, and it inverts exactly
the in-range pixels of `[X - 1, X + 6*scale) x [Y - 1, Y + 8*scale)`, the cell
rectangle expanded by one pixel to the left and to the top only, and changes no
other pixel. -/
theorem cursor_block_inverts (p : ssd1309_t) (x_cell y_cell scale : Nat) (hv : valid p)
    (hx : 6 * scale * x_cell + 6 * scale < 4294967296)
    (hy : 8 * scale * y_cell + 8 * scale < 4294967296) :
    ssd1309_cursor p x_cell y_cell scale cursor_type.CURSOR_BLOCK =
      ssd1309_invert_square p (sub32 (6 * scale * x_cell) 1) (sub32 (8 * scale * y_cell) 1)
        (6 * scale + 1) (8 * scale + 1) ∧
    ∃ q, ssd1309_cursor p x_cell y_cell scale cursor_type.CURSOR_BLOCK = some q ∧ valid q ∧
      sameDims p q ∧
      ∀ a b, pixel q a b =
        xor (pixel p a b)
          (decide (6 * scale * x_cell ≤ a + 1 ∧ a < 6 * scale * x_cell + 6 * scale ∧
            8 * scale * y_cell ≤ b + 1 ∧ b < 8 * scale * y_cell + 8 * scale ∧
            a < p.width ∧ b < p.height)) := by
  refine ⟨?_, cursor_block_flips hv x_cell y_cell scale hx hy⟩
  have eW : mul32 6 scale = 6 * scale := by unfold mul32; omega
  have eH : mul32 8 scale = 8 * scale := by unfold mul32; omega
  have eX : mul32 (6 * scale) x_cell = 6 * scale * x_cell := by
    unfold mul32; exact Nat.mod_eq_of_lt (by omega)
  have eY : mul32 (8 * scale) y_cell = 8 * scale * y_cell := by
    unfold mul32; exact Nat.mod_eq_of_lt (by omega)
  simp only [ssd1309_cursor, _ssd1309_get_char_position_size, eW, eH, eX, eY,
    add32_small (by omega : 6 * scale + 1 < 4294967296),
    add32_small (by omega : 8 * scale + 1 < 4294967296)]

/-- C22 (amended) for the cell `(1, 1)` at scale 1 on the blank 128 x 64
display: the pixels of `[5, 12) x [7, 16)` are inverted. -/
theorem cursor_block_inverts_witness :
    ssd1309_cursor blank128x64 1 1 1 cursor_type.CURSOR_BLOCK =
      ssd1309_invert_square blank128x64 (sub32 (6 * 1 * 1) 1) (sub32 (8 * 1 * 1) 1)
        (6 * 1 + 1) (8 * 1 + 1) ∧
    ∃ q, ssd1309_cursor blank128x64 1 1 1 cursor_type.CURSOR_BLOCK = some q ∧ valid q ∧
      sameDims blank128x64 q ∧
      ∀ a b, pixel q a b =
        xor (pixel blank128x64 a b)
          (decide (6 * 1 * 1 ≤ a + 1 ∧ a < 6 * 1 * 1 + 6 * 1 ∧
            8 * 1 * 1 ≤ b + 1 ∧ b < 8 * 1 * 1 + 8 * 1 ∧
            a < blank128x64.width ∧ b < blank128x64.height)) :=
  cursor_block_inverts blank128x64 1 1 1 valid_blank128x64 (by decide) (by decide)

/-- C22 as stated fails: for the cell `(1, 1)` at scale 1 the cell rectangle is
`[6, 12) x [8, 16)`, and its expansion by one pixel on every side contains the
column `x = 12` and the row `y = 16`.  On the blank 128 x 64 display the block
cursor inverts the pixels `(5, 7)` (top-left corner of the expansion) and
`(11, 15)`, but leaves `(12, 8)`, in the column right of the cell, and
`(6, 16)`, in the row below it, clear. -/
theorem cursor_block_right_bottom_not_expanded :
    ∃ q, ssd1309_cursor blank128x64 1 1 1 cursor_type.CURSOR_BLOCK = some q ∧
      pixel q 5 7 = true ∧ pixel q 11 15 = true ∧
      pixel q 12 8 = false ∧ pixel q 6 16 = false := by
  obtain ⟨q, hq, _, _, hp⟩ := cursor_block_flips valid_blank128x64 1 1 1 (by decide) (by decide)
  refine ⟨q, hq, ?_, ?_, ?_, ?_⟩
  · rw [hp, pixel_blank128x64]; decide
  · rw [hp, pixel_blank128x64]; decide
  · rw [hp, pixel_blank128x64]; decide
  · rw [hp, pixel_blank128x64]; decide

/-- C23: on a display whose height is a multiple of 8, with `pages = height / 8`
and a buffer of `pages * width` bytes (`width` and `height` being `uint8_t`
values), for every `(x, y)` with `x < width` and `y < height` the byte index
that `ssd1309_draw_pixel`, `ssd1309_clear_pixel` and `ssd1309_invert_pixel`
compute is `(width-1-x) + ((height-1-y) div 8) * width`, it is strictly below
`pages * width`, the buffer access at it is defined, and none of the three
operations takes the out-of-bounds branch. -/
theorem pixel_index_in_bounds (p : ssd1309_t) (x y : Nat) (hw : p.width < 256)
    (hh : p.height < 256) (h8 : p.height % 8 = 0) (hp : p.pages = p.height / 8)
    (hlen : p.buffer.length = p.pages * p.width) (hx : x < p.width) (hy : y < p.height) :
    add32 (sub32 (sub32 p.width x) 1) (mul32 (sub32 (sub32 p.height y) 1 / 8) p.width) =
      (p.width - 1 - x) + ((p.height - 1 - y) / 8) * p.width ∧
    (p.width - 1 - x) + ((p.height - 1 - y) / 8) * p.width < p.pages * p.width ∧
    (∃ b, p.buffer[(p.width - 1 - x) + ((p.height - 1 - y) / 8) * p.width]? = some b) ∧
    ssd1309_draw_pixel p x y ≠ none ∧ ssd1309_clear_pixel p x y ≠ none ∧
    ssd1309_invert_pixel p x y ≠ none := by
  have hm : (p.height - 1 - y) / 8 * p.width < 32 * 256 := by
    have : (p.height - 1 - y) / 8 < 32 := by omega
    exact Nat.mul_lt_mul'' this hw
  have e1 : sub32 (sub32 p.width x) 1 = p.width - 1 - x := by unfold sub32; omega
  have e2 : sub32 (sub32 p.height y) 1 = p.height - 1 - y := by unfold sub32; omega
  have e3 : add32 (p.width - 1 - x) (mul32 ((p.height - 1 - y) / 8) p.width) =
      (p.width - 1 - x) + ((p.height - 1 - y) / 8) * p.width := by
    unfold add32 mul32
    rw [Nat.mod_eq_of_lt (a := (p.height - 1 - y) / 8 * p.width) (by omega)]
    omega
  have hlt : (p.width - 1 - x) + ((p.height - 1 - y) / 8) * p.width < p.pages * p.width := by
    rw [hp]
    have h1 : (p.height - 1 - y) / 8 + 1 ≤ p.height / 8 := by omega
    have h2 : ((p.height - 1 - y) / 8 + 1) * p.width ≤ p.height / 8 * p.width :=
      Nat.mul_le_mul_right _ h1
    have h3 : ((p.height - 1 - y) / 8 + 1) * p.width
        = (p.height - 1 - y) / 8 * p.width + p.width := by ring
    omega
  have hget : p.buffer[(p.width - 1 - x) + ((p.height - 1 - y) / 8) * p.width]? =
      some (p.buffer.getD ((p.width - 1 - x) + ((p.height - 1 - y) / 8) * p.width) 0) :=
    getElem?_eq_getD (by omega)
  have hn : ¬ (x ≥ p.width ∨ y ≥ p.height) := by omega
  refine ⟨by rw [e1, e2, e3], hlt, ⟨_, hget⟩, ?_, ?_, ?_⟩
  · simp only [ssd1309_draw_pixel, if_neg hn, e1, e2, e3, hget]
    exact Option.some_ne_none _
  · simp only [ssd1309_clear_pixel, if_neg hn, e1, e2, e3, hget]
    exact Option.some_ne_none _
  · simp only [ssd1309_invert_pixel, if_neg hn, e1, e2, e3, hget]
    exact Option.some_ne_none _

/-- C23 for the pixel `(0, 0)` of the 128 x 64 display, whose byte index is the
last one, 1023. -/
theorem pixel_index_in_bounds_witness :
    add32 (sub32 (sub32 blank128x64.width 0) 1)
        (mul32 (sub32 (sub32 blank128x64.height 0) 1 / 8) blank128x64.width) =
      (blank128x64.width - 1 - 0) + ((blank128x64.height - 1 - 0) / 8) * blank128x64.width ∧
    (blank128x64.width - 1 - 0) + ((blank128x64.height - 1 - 0) / 8) * blank128x64.width <
      blank128x64.pages * blank128x64.width ∧
    (∃ b, blank128x64.buffer[(blank128x64.width - 1 - 0) +
      ((blank128x64.height - 1 - 0) / 8) * blank128x64.width]? = some b) ∧
    ssd1309_draw_pixel blank128x64 0 0 ≠ none ∧ ssd1309_clear_pixel blank128x64 0 0 ≠ none ∧
    ssd1309_invert_pixel blank128x64 0 0 ≠ none :=
  pixel_index_in_bounds blank128x64 0 0 (by decide) (by decide) (by decide) (by decide)
    (List.length_replicate 1024 0) (by decide) (by decide)

/-- The hypothesis on the height is needed: on a 4 x 12 display with
`pages = 12 / 8 = 1` and a buffer of 4 bytes, the pixel `(0, 0)` has byte index
`3 + (11 div 8) * 4 = 7`, outside the buffer. -/
theorem pixel_index_height_not_multiple :
    ssd1309_draw_pixel
      { width := 4, height := 12, pages := 1, buffer := [0, 0, 0, 0], bufsize := 4 } 0 0 =
      none := by
  decide

end SSD1309
